import Mathlib

/-!
Runtime core of CX: address resolution, typed memory access, mark-compact GC

A shallow embedding of `src/base/op.go` and of the comment locator of
`cxgo/cxlexer/cxlexer.go`.

Conventions of the embedding

* A byte is a `Fin 256`; a Go `[]byte` is a `List Byte` whose capacity equals its length.
* Go `int` values (offsets, sizes, loop counters) are `Int`. The running offset and the
  result of `GetFinalOffset` and the sums of `AllocateSeq` wrap at 64 bits as in Go:
  `toInt64` is applied to each sum and product that computes them. The bounds of slice
  expressions and the cursors of the collector are taken as they are. Go `int32` values
  are `Int` kept in the signed 32-bit range by `toInt32` wherever the source does `int32`
  arithmetic or conversion.
* A Go panic is `Except.error` with the kind of fault; a function that returns normally
  yields `Except.ok`.
* `CXStack` and the `CXProgram` it points back to are one record, `CXProgram`, whose field
  `Stack` is the byte buffer of `prgrm.Stacks[0]`.
-/

namespace CX

/-! ## Faults and bytes -/

/-- The ways the runtime core aborts. `fuel` is not a behaviour of the program: it is how the
model of an unbounded loop reports that its iteration budget ran out. -/
inductive Fault where
  | outOfRange
  | nilDeref
  | decode
  | badMemType
  | heapExhausted
  | fuel
  deriving DecidableEq, Repr

deriving instance DecidableEq for Except

abbrev Byte := Fin 256

/-- The low byte of an integer (two's complement). -/
def byteOfInt (x : Int) : Byte := ⟨(x % 256).toNat, by omega⟩

/-- Go index expression `m[i]` used as a value. -/
def index (m : List Byte) (i : Int) : Except Fault Byte :=
  if 0 ≤ i then
    match m[i.toNat]? with
    | some b => .ok b
    | none => .error .outOfRange
  else .error .outOfRange

/-- Go assignment `m[i] = b`. -/
def store (m : List Byte) (i : Int) (b : Byte) : Except Fault (List Byte) :=
  if 0 ≤ i ∧ i < m.length then .ok (m.set i.toNat b) else .error .outOfRange

/-- Go slice expression `m[lo:hi]`. -/
def slice (m : List Byte) (lo hi : Int) : Except Fault (List Byte) :=
  if 0 ≤ lo ∧ lo ≤ hi ∧ hi ≤ m.length then
    .ok ((m.drop lo.toNat).take (hi - lo).toNat)
  else .error .outOfRange

/-- The loop `for c := 0; c < len(out); c++ { m[offset + c] = out[c] }`. -/
def writeBytes (m : List Byte) (offset : Int) : List Byte → Except Fault (List Byte)
  | [] => .ok m
  | b :: rest => do
      let m1 ← store m offset b
      writeBytes m1 (offset + 1) rest

/-! ## The encoder (package `encoder` of skycoin, imported by `op.go`) -/

/-- Wrap an integer into the signed 32-bit range (Go conversion to `int32`). -/
def toInt32 (x : Int) : Int := (x + 2147483648) % 4294967296 - 2147483648

/-- Wrap an integer into the signed 64-bit range (Go conversion to `int64`). -/
def toInt64 (x : Int) : Int :=
  (x + 9223372036854775808) % 18446744073709551616 - 9223372036854775808

/-- Modelled from the spec: the fixed-width little-endian two's complement encoding of
section 4.2 ("Integer encoding is fixed: signed two's complement, little-endian, widths
1/4/8"), `n` bytes of `x`, least significant first. The encoder package is not part of the
repository's sources. -/
def SerializeLE : Nat → Int → List Byte
  | 0, _ => []
  | n + 1, x => byteOfInt x :: SerializeLE n (x / 256)

/-- The unsigned little-endian value of a byte sequence. -/
def leNat : List Byte → Nat
  | [] => 0
  | b :: bs => b.val + 256 * leNat bs

/-- Modelled from the spec: `encoder.DeserializeAtomic(byts, &x)` for `x` an `int32`: a
"32-bit signed little-endian value" read from the first four bytes; "a decoder invoked on
insufficient bytes ... aborts" (sections 4.1, 7). -/
def DeserializeAtomicI32 (byts : List Byte) : Except Fault Int :=
  if 4 ≤ byts.length then .ok (toInt32 (leNat (byts.take 4))) else .error .decode

/-- Modelled from the spec: width of the mark byte of an object header (section 3); the
constant's declaration is not part of the sources. `MarkAndCompact` writes the mark as the
single byte `Heap[heapOffset]`. -/
def MARK_SIZE : Int := 1

/-- Modelled from the spec: width of the forwarding slot, "same width as a heap pointer"
(section 3), i.e. of the `int32` written by `SerializeAtomic(faddr)`. -/
def FORWARDING_ADDRESS_SIZE : Int := 4

/-- Modelled from the spec: width of the size field of an object header, decoded as an
`int32`. -/
def OBJECT_SIZE : Int := 4

/-- Modelled from the spec: width of a heap pointer held in a stack slot, decoded as an
`int32`. -/
def TYPE_POINTER_SIZE : Int := 4

/-- Modelled from the spec: `OBJECT_HEADER_SIZE = MARK_SIZE + FORWARDING_ADDRESS_SIZE +
OBJECT_SIZE` (section 6), which is 9 (section 8, scenario 5); `WriteToHeap` places the
size field at header bytes 5 to 8. -/
def OBJECT_HEADER_SIZE : Int := 9

/-- The constants whose values neither the sources nor the spec fix. -/
structure Constants where
  NULL_HEAP_ADDRESS : Int
  NULL_HEAP_ADDRESS_OFFSET : Int
  INIT_HEAP_SIZE : Int
  deriving DecidableEq, Repr

/-! ## Data model -/

/-- Values of `CXArgument.MemoryType`; `MEM_OTHER` stands for every value that is none of
the three the core supports. -/
inductive MemType where
  | MEM_STACK
  | MEM_HEAP
  | MEM_DATA
  | MEM_OTHER
  deriving DecidableEq, Repr

/-- Entries of `CXArgument.DereferenceOperations`; `DEREF_OTHER` stands for every value the
`switch` of `GetFinalOffset` has no case for. -/
inductive DerefOp where
  | DEREF_ARRAY
  | DEREF_FIELD
  | DEREF_POINTER
  | DEREF_OTHER
  deriving DecidableEq, Repr

structure CXStruct where
  Size : Int
  deriving DecidableEq, Repr

/-- The attributes of an argument descriptor that `op.go` reads. `CustomType` is a pointer
in the source: `none` is `nil`. -/
structure CXArgument where
  Offset : Int
  Size : Int
  TotalSize : Int
  MemoryType : MemType
  IsPointer : Bool
  IsStruct : Bool
  DereferenceLevels : Int
  DereferenceOperations : List DerefOp
  Indexes : List CXArgument
  Lengths : List Int
  Fields : List CXArgument
  CustomType : Option CXStruct
  deriving Repr

/-- An operator: its frame size and its pointer-typed arguments (the GC roots of a frame). -/
structure CXFunction where
  Size : Int
  ListOfPointers : List CXArgument
  deriving Repr

structure CXCall where
  Operator : CXFunction
  deriving Repr

structure CXHeap where
  Heap : List Byte
  HeapPointer : Int
  deriving DecidableEq, Repr

structure CXProgram where
  Stack : List Byte
  Data : List Byte
  Heap : CXHeap
  CallStack : List CXCall
  CallCounter : Int
  deriving Repr

/-! ## Address resolver and typed reads -/

def ReadMemory (stack : CXProgram) (offset : Int) (arg : CXArgument) :
    Except Fault (List Byte) :=
  match arg.MemoryType with
  | .MEM_STACK => slice stack.Stack offset (offset + arg.TotalSize)
  | .MEM_DATA => slice stack.Data offset (offset + arg.TotalSize)
  | .MEM_HEAP => slice stack.Heap.Heap offset (offset + arg.TotalSize)
  | .MEM_OTHER => .error .badMemType

/-- The product computed by `for _, len := range elt.Lengths[i+1:] { subSize *= len }`, a
product of Go `int`s, which wraps at 64 bits; the slice expression panics when `i + 1`
exceeds the number of lengths. -/
def subSize (lengths : List Int) (i : Nat) : Except Fault Int :=
  if i + 1 ≤ lengths.length then
    .ok ((lengths.drop (i + 1)).foldl (fun sub len => toInt64 (sub * len)) 1)
  else .error .outOfRange

/-- The local variables of the loop over `arg.DereferenceOperations`. `eltIdx` holds what
`ReadI32(stack, fp, idxArg)` yields for each `idxArg` of `elt.Indexes`: reads do not change
memory, so they are tabulated when `elt` is set and consumed by the array steps. -/
structure Walk where
  elt : CXArgument
  eltIdx : List (Except Fault Int)
  finalOffset : Int
  fldIdx : Nat

/-- The body of `for i, idxArg := range elt.Indexes`, from index `i` on:
`finalOffset += int(ReadI32(stack, fp, idxArg)) * subSize * size` in Go `int` arithmetic,
which wraps at 64 bits. -/
def arrayStep (elt : CXArgument) : Nat → List (Except Fault Int) → Int → Except Fault Int
  | _, [], finalOffset => .ok finalOffset
  | i, rd :: rest, finalOffset => do
      let sub ← subSize elt.Lengths i
      let v ← rd
      if elt.IsStruct then
        match elt.CustomType with
        | some ct =>
            arrayStep elt (i + 1) rest
              (toInt64 (finalOffset + toInt64 (toInt64 (v * sub) * ct.Size)))
        | none => .error .nilDeref
      else
        arrayStep elt (i + 1) rest
          (toInt64 (finalOffset + toInt64 (toInt64 (v * sub) * elt.Size)))

/-- The loop `for c := 0; c < elt.DereferenceLevels; c++` of the pointer step, with `n`
iterations left. -/
def pointerStep (stack : CXProgram) (fp : Int) (arg elt : CXArgument) :
    Nat → Int → Except Fault Int
  | 0, finalOffset => .ok finalOffset
  | n + 1, finalOffset => do
      let byts ← slice stack.Stack (fp + finalOffset) (fp + finalOffset + elt.Size)
      let offset ← DeserializeAtomicI32 byts
      if arg.MemoryType = .MEM_HEAP then
        pointerStep stack fp arg elt n (offset + OBJECT_HEADER_SIZE)
      else
        pointerStep stack fp arg elt n offset

/-- One iteration of `for _, op := range arg.DereferenceOperations`. `fieldIdx` tabulates
the index reads of every entry of `arg.Fields`. The field step `finalOffset += elt.Offset`
is a sum of Go `int`s, which wraps at 64 bits. -/
def derefStep (stack : CXProgram) (fp : Int) (arg : CXArgument)
    (fieldIdx : List (List (Except Fault Int))) (w : Walk) : DerefOp → Except Fault Walk
  | .DEREF_ARRAY => do
      let off ← arrayStep w.elt 0 w.eltIdx w.finalOffset
      pure ⟨w.elt, w.eltIdx, off, w.fldIdx⟩
  | .DEREF_FIELD =>
      match arg.Fields[w.fldIdx]?, fieldIdx[w.fldIdx]? with
      | some elt, some idx =>
          .ok ⟨elt, idx, toInt64 (w.finalOffset + elt.Offset), w.fldIdx + 1⟩
      | _, _ => .error .outOfRange
  | .DEREF_POINTER => do
      let off ← pointerStep stack fp arg w.elt w.elt.DereferenceLevels.toNat w.finalOffset
      pure ⟨w.elt, w.eltIdx, off, w.fldIdx⟩
  | .DEREF_OTHER => .ok w

def derefWalk (stack : CXProgram) (fp : Int) (arg : CXArgument)
    (fieldIdx : List (List (Except Fault Int))) : List DerefOp → Walk → Except Fault Walk
  | [], w => .ok w
  | op :: ops, w => do
      let w1 ← derefStep stack fp arg fieldIdx w op
      derefWalk stack fp arg fieldIdx ops w1

mutual
/-- The function `GetFinalOffset`. The result `fp + finalOffset` is a sum of Go `int`s, which
wraps at 64 bits. -/
def GetFinalOffset (stack : CXProgram) (fp : Int) : CXArgument → Except Fault Int
  | ⟨off, size, total, mem, isPtr, isStruct, levels, ops, idxs, lens, flds, ct⟩ =>
      let arg : CXArgument :=
        ⟨off, size, total, mem, isPtr, isStruct, levels, ops, idxs, lens, flds, ct⟩
      match derefWalk stack fp arg (fieldIndexValues stack fp flds) ops
          ⟨arg, indexValues stack fp idxs, off, 0⟩ with
      | .error e => .error e
      | .ok w =>
          if isPtr = true ∨ mem = .MEM_DATA then .ok w.finalOffset
          else .ok (toInt64 (fp + w.finalOffset))
/-- What `ReadI32(stack, fp, idxArg)` yields for each `idxArg` of a list of index
arguments. -/
def indexValues (stack : CXProgram) (fp : Int) : List CXArgument → List (Except Fault Int)
  | [] => []
  | idxArg :: rest =>
      (match GetFinalOffset stack fp idxArg with
        | .error e => .error e
        | .ok offset =>
            match ReadMemory stack offset idxArg with
            | .error e => .error e
            | .ok byts => DeserializeAtomicI32 byts) :: indexValues stack fp rest
/-- The index reads of every field of a list of fields. -/
def fieldIndexValues (stack : CXProgram) (fp : Int) :
    List CXArgument → List (List (Except Fault Int))
  | [] => []
  | ⟨_, _, _, _, _, _, _, _, idxs, _, _, _⟩ :: rest =>
      indexValues stack fp idxs :: fieldIndexValues stack fp rest
end

def ReadI32 (stack : CXProgram) (fp : Int) (inp : CXArgument) : Except Fault Int := do
  let offset ← GetFinalOffset stack fp inp
  let byts ← ReadMemory stack offset inp
  DeserializeAtomicI32 byts

def FromI32 (v : Int) : List Byte := SerializeLE 4 v

def WriteToStack (stack : CXProgram) (offset : Int) (out : List Byte) :
    Except Fault CXProgram := do
  let m ← writeBytes stack.Stack offset out
  pure { stack with Stack := m }

def WriteToData (stack : CXProgram) (offset : Int) (out : List Byte) :
    Except Fault CXProgram := do
  let m ← writeBytes stack.Data offset out
  pure { stack with Data := m }

/-- The header built by `WriteToHeap`: `OBJECT_HEADER_SIZE` zero bytes, then
`for c := 5; c < OBJECT_HEADER_SIZE; c++ { header[c] = size[c - 5] }`. -/
def mkHeader (size : List Byte) : List Byte :=
  (List.range OBJECT_HEADER_SIZE.toNat).map fun c => if 5 ≤ c then size.getD (c - 5) 0 else 0

def WriteToHeap (heap : CXHeap) (offset : Int) (out : List Byte) : Except Fault CXHeap := do
  let size := SerializeLE 4 (toInt32 out.length)
  let m1 ← writeBytes heap.Heap offset (mkHeader size)
  let m2 ← writeBytes m1 (offset + OBJECT_HEADER_SIZE) out
  pure { heap with Heap := m2 }

def WriteMemory (stack : CXProgram) (offset : Int) (arg : CXArgument) (byts : List Byte) :
    Except Fault CXProgram :=
  match arg.MemoryType with
  | .MEM_STACK => WriteToStack stack offset byts
  | .MEM_HEAP => do
      let heap ← WriteToHeap stack.Heap offset byts
      pure { stack with Heap := heap }
  | .MEM_DATA => WriteToData stack offset byts
  | .MEM_OTHER => .error .badMemType

/-! ## Garbage collector and allocator -/

/-- The state that pass 1 of `MarkAndCompact` updates: the stack buffer, the heap buffer and
the forwarding watermark `faddr` (an `int32`). -/
structure Pass1 where
  Stack : List Byte
  Heap : List Byte
  faddr : Int
  deriving DecidableEq, Repr

/-- The loop `for i, byt := range encoder.SerializeAtomic(faddr)`, from index `i` on: each
byte goes to the forwarding slot of the object and to the root slot. -/
def forwardLoop (fp ptrOffset heapOffset : Int) :
    Nat → List Byte → List Byte → List Byte → Except Fault (List Byte × List Byte)
  | _, [], heap, stack => .ok (heap, stack)
  | i, byt :: rest, heap, stack => do
      let heap1 ← store heap (heapOffset + MARK_SIZE + i) byt
      let stack1 ← store stack (fp + ptrOffset + i) byt
      forwardLoop fp ptrOffset heapOffset (i + 1) rest heap1 stack1

/-- The body of `for _, ptr := range op.ListOfPointers` in pass 1. -/
def markRoot (K : Constants) (fp : Int) (st : Pass1) (ptr : CXArgument) : Except Fault Pass1 := do
  let byts ← slice st.Stack (fp + ptr.Offset) (fp + ptr.Offset + TYPE_POINTER_SIZE)
  let heapOffset ← DeserializeAtomicI32 byts
  if heapOffset = K.NULL_HEAP_ADDRESS then
    pure st
  else do
    let heap1 ← store st.Heap heapOffset 1
    let (heap2, stack2) ←
      forwardLoop fp ptr.Offset heapOffset 0 (SerializeLE 4 st.faddr) heap1 st.Stack
    let sizeByts ← slice heap2 (heapOffset + MARK_SIZE + TYPE_POINTER_SIZE)
      (heapOffset + MARK_SIZE + TYPE_POINTER_SIZE + OBJECT_SIZE)
    let objSize ← DeserializeAtomicI32 sizeByts
    pure ⟨stack2, heap2, toInt32 (st.faddr + toInt32 (OBJECT_HEADER_SIZE + objSize))⟩

def markRoots (K : Constants) (fp : Int) : Pass1 → List CXArgument → Except Fault Pass1
  | st, [] => .ok st
  | st, ptr :: rest => do
      let st1 ← markRoot K fp st ptr
      markRoots K fp st1 rest

/-- The loop `for c := 0; c <= prgrm.CallCounter; c++` of pass 1 with `n` iterations left,
at frame index `c` and frame pointer `fp`. -/
def markFrames (K : Constants) (callStack : List CXCall) :
    Nat → Nat → Int → Pass1 → Except Fault Pass1
  | 0, _, _, st => .ok st
  | n + 1, c, fp, st =>
      match callStack[c]? with
      | none => .error .outOfRange
      | some call => do
          let st1 ← markRoots K fp st call.Operator.ListOfPointers
          markFrames K callStack n (c + 1) (fp + call.Operator.Size) st1

/-- Pass 1 of `MarkAndCompact`. -/
def markPass (K : Constants) (prgrm : CXProgram) : Except Fault Pass1 :=
  markFrames K prgrm.CallStack (prgrm.CallCounter + 1).toNat 0 0
    ⟨prgrm.Stack, prgrm.Heap.Heap, K.NULL_HEAP_ADDRESS_OFFSET⟩

/-- The loop `for i := int32(0); i < OBJECT_HEADER_SIZE + objSize; i++` with `n` iterations
left: `Heap[forwardingAddress + i] = Heap[int32(c) + i]` in `int32` arithmetic. -/
def copyLoop (forwardingAddress c32 : Int) : Nat → Int → List Byte → Except Fault (List Byte)
  | 0, _, heap => .ok heap
  | n + 1, i, heap => do
      let b ← index heap (toInt32 (c32 + i))
      let heap1 ← store heap (toInt32 (forwardingAddress + i)) b
      copyLoop forwardingAddress c32 n (i + 1) heap1

/-- Pass 2 of `MarkAndCompact`: the loop `for c := NULL_HEAP_ADDRESS_OFFSET; c <
prgrm.Heap.HeapPointer;` run for at most `fuel` iterations. Yields the heap buffer and
`newHeapPointer`. -/
def relocate (heapPointer : Int) : Nat → Int → List Byte → Int → Except Fault (List Byte × Int)
  | 0, c, heap, newHeapPointer =>
      if c < heapPointer then .error .fuel else .ok (heap, newHeapPointer)
  | fuel + 1, c, heap, newHeapPointer =>
      if c < heapPointer then do
        let fwdByts ← slice heap (c + MARK_SIZE) (c + MARK_SIZE + FORWARDING_ADDRESS_SIZE)
        let forwardingAddress ← DeserializeAtomicI32 fwdByts
        let sizeByts ← slice heap (c + MARK_SIZE + FORWARDING_ADDRESS_SIZE)
          (c + MARK_SIZE + FORWARDING_ADDRESS_SIZE + OBJECT_SIZE)
        let objSize ← DeserializeAtomicI32 sizeByts
        let mark ← index heap c
        if mark = 1 then do
          let heap1 ← store heap c 0
          let heap2 ← copyLoop forwardingAddress (toInt32 c)
            (toInt32 (OBJECT_HEADER_SIZE + objSize)).toNat 0 heap1
          relocate heapPointer fuel (c + (OBJECT_HEADER_SIZE + objSize)) heap2
            (newHeapPointer + (OBJECT_HEADER_SIZE + objSize))
        else
          relocate heapPointer fuel (c + (OBJECT_HEADER_SIZE + objSize)) heap newHeapPointer
      else .ok (heap, newHeapPointer)

/-- The function `MarkAndCompact`; `fuel` bounds the iterations of the relocation loop. -/
def MarkAndCompact (K : Constants) (fuel : Nat) (prgrm : CXProgram) : Except Fault CXProgram := do
  let st ← markPass K prgrm
  let (heap, newHeapPointer) ← relocate prgrm.Heap.HeapPointer fuel
    K.NULL_HEAP_ADDRESS_OFFSET st.Heap K.NULL_HEAP_ADDRESS_OFFSET
  pure { prgrm with Stack := st.Stack, Heap := ⟨heap, newHeapPointer⟩ }

/-- The function `AllocateSeq`: the program after the call and the offset returned. The sums
`result + size` and `prgrm.Heap.HeapPointer + size` are sums of Go `int`s, which wrap at 64
bits. -/
def AllocateSeq (K : Constants) (fuel : Nat) (prgrm : CXProgram) (size : Int) :
    Except Fault (CXProgram × Int) :=
  let result := prgrm.Heap.HeapPointer
  let newFree := toInt64 (result + size)
  if newFree > K.INIT_HEAP_SIZE then do
    let prgrm1 ← MarkAndCompact K fuel prgrm
    let result1 := prgrm1.Heap.HeapPointer
    let newFree1 := toInt64 (prgrm1.Heap.HeapPointer + size)
    if newFree1 > K.INIT_HEAP_SIZE then .error .heapExhausted
    else pure ({ prgrm1 with Heap := { prgrm1.Heap with HeapPointer := newFree1 } }, result1)
  else
    pure ({ prgrm with Heap := { prgrm.Heap with HeapPointer := newFree } }, result)


/-! ## Notions used to state the properties -/

/-- The element stride of an array argument: `CustomType.Size` for a struct, else `Size`. -/
def stride (A : CXArgument) : Option Int :=
  if A.IsStruct then A.CustomType.map (fun ct => ct.Size) else some A.Size

/-- The row-major element index of the spec: the sum over `k` of `iₖ · Πⱼ>ₖ dⱼ`, for
dimensions `ds` and index values `vs`. -/
def rowMajor (ds vs : List Int) : Int :=
  ((List.range vs.length).map fun k => vs.getD k 0 * (ds.drop (k + 1)).prod).sum

/-- A 32-bit field of a buffer: the four bytes at `a`, decoded. -/
def get32 (m : List Byte) (a : Int) : Except Fault Int := do
  let byts ← slice m a (a + 4)
  DeserializeAtomicI32 byts

/-- The byte buffer of a segment. -/
def segment (stack : CXProgram) : MemType → List Byte
  | .MEM_STACK => stack.Stack
  | .MEM_DATA => stack.Data
  | .MEM_HEAP => stack.Heap.Heap
  | .MEM_OTHER => []

/-! ### Heap layout and roots -/

/-- The `(address, payload size)` pairs of the objects laid out contiguously from address
`c` with payload sizes `sizes`. -/
def objectsFrom : Int → List Int → List (Int × Int)
  | _, [] => []
  | c, z :: rest => (c, z) :: objectsFrom (c + OBJECT_HEADER_SIZE + z) rest

/-- The heap holds, from address `c` up to exactly `hp`, contiguous objects with payload
sizes `sizes`: every header has mark byte 0 and its size field holds the payload size. -/
def Layout (heap : List Byte) (hp : Int) : Int → List Int → Prop
  | c, [] => c = hp
  | c, z :: rest =>
      0 ≤ z ∧ index heap c = .ok 0 ∧
        get32 heap (c + MARK_SIZE + FORWARDING_ADDRESS_SIZE) = .ok z ∧
        Layout heap hp (c + OBJECT_HEADER_SIZE + z) rest

/-- The layout of a given heap can be checked by walking it. -/
instance Layout.instDecidable (heap : List Byte) (hp : Int) :
    ∀ (sizes : List Int) (c : Int), Decidable (Layout heap hp c sizes)
  | [], c => inferInstanceAs (Decidable (c = hp))
  | z :: rest, c =>
      have := Layout.instDecidable heap hp rest (c + OBJECT_HEADER_SIZE + z)
      inferInstanceAs (Decidable (0 ≤ z ∧ index heap c = .ok 0 ∧
        get32 heap (c + MARK_SIZE + FORWARDING_ADDRESS_SIZE) = .ok z ∧
        Layout heap hp (c + OBJECT_HEADER_SIZE + z) rest))

/-- The pointer arguments of a list of frames with the frame pointer of their frame, in the
order in which pass 1 of `MarkAndCompact` visits them. -/
def rootRefs : List CXCall → Int → List (Int × CXArgument)
  | [], _ => []
  | call :: rest, fp =>
      call.Operator.ListOfPointers.map (fun ptr => (fp, ptr)) ++
        rootRefs rest (fp + call.Operator.Size)

/-- The stack offsets of the root slots of frames `0..CallCounter`, in visit order. -/
def rootSlots (prgrm : CXProgram) : List Int :=
  (rootRefs (prgrm.CallStack.take (prgrm.CallCounter + 1).toNat) 0).map
    fun r => r.1 + r.2.Offset

/-- A well-formed heap: objects of payload sizes `sizes` are laid out contiguously from
`NULL_HEAP_ADDRESS_OFFSET` up to `HeapPointer` with all mark bytes 0, frames
`0..CallCounter` exist, and the root slots hold the values `hs`, each of them
`NULL_HEAP_ADDRESS` or the address of an object header. -/
structure WellFormed (K : Constants) (prgrm : CXProgram) (sizes hs : List Int) : Prop where
  offset_nonneg : 0 ≤ K.NULL_HEAP_ADDRESS_OFFSET
  heap_in_range : prgrm.Heap.HeapPointer ≤ prgrm.Heap.Heap.length
  layout : Layout prgrm.Heap.Heap prgrm.Heap.HeapPointer K.NULL_HEAP_ADDRESS_OFFSET sizes
  frames : (prgrm.CallCounter + 1).toNat ≤ prgrm.CallStack.length
  roots : (rootSlots prgrm).map (get32 prgrm.Stack) = hs.map .ok
  targets : ∀ h ∈ hs, h = K.NULL_HEAP_ADDRESS ∨
    h ∈ (objectsFrom K.NULL_HEAP_ADDRESS_OFFSET sizes).map Prod.fst

/-- The non-null values among the root values `hs`, in visit order. -/
def liveRoots (K : Constants) (hs : List Int) : List Int :=
  hs.filter fun h => h ≠ K.NULL_HEAP_ADDRESS

/-- The roots are visited in heap order: the root slots do not overlap, the non-null roots
hold strictly increasing addresses in visit order (so no two of them refer to the same
object), and heap addresses fit an `int32`. -/
structure InHeapOrder (K : Constants) (prgrm : CXProgram) (hs : List Int) : Prop where
  heap_small : prgrm.Heap.HeapPointer < 2147483648
  slots_disjoint : (rootSlots prgrm).Pairwise fun a b => a + 4 ≤ b ∨ b + 4 ≤ a
  increasing : (liveRoots K hs).Pairwise fun a b => a < b

/-- The objects referenced by at least one non-null root, each once, in heap order. -/
def liveObjects (K : Constants) (sizes hs : List Int) : List (Int × Int) :=
  (objectsFrom K.NULL_HEAP_ADDRESS_OFFSET sizes).filter
    fun o => o.1 ∈ hs ∧ o.1 ≠ K.NULL_HEAP_ADDRESS

/-- The relocation plan for the objects laid out from `c` whose addresses are in the
increasing list `L`: `(old address, new address, payload size)`, the new addresses
contiguous from `g`. -/
def plan : Int → Int → List Int → List Int → List (Int × Int × Int)
  | _, _, [], _ => []
  | c, g, z :: rest, L =>
      if L.head? = some c then (c, g, z) :: plan (c + 9 + z) (g + 9 + z) rest L.tail
      else plan (c + 9 + z) g rest L

/-- The heap between the two passes: the objects laid out from `c` with addresses in `L`
carry mark 1 and the forwarding address the plan gives them, the others mark 0. -/
def Marked (heap : List Byte) (hp : Int) : Int → Int → List Int → List Int → Prop
  | c, _, [], L => c = hp ∧ L = []
  | c, g, z :: rest, L =>
      0 ≤ z ∧ get32 heap (c + 5) = .ok z ∧
        if L.head? = some c then
          index heap c = .ok 1 ∧ get32 heap (c + 1) = .ok g ∧
            Marked heap hp (c + 9 + z) (g + 9 + z) rest L.tail
        else index heap c = .ok 0 ∧ Marked heap hp (c + 9 + z) g rest L

/-- Total size, headers included, of the objects of a plan. -/
def planSize (F : List (Int × Int × Int)) : Int := (F.map fun t => 9 + t.2.2).sum

/-- The values of the root slots after the collection: a null root keeps its value, the
non-null roots take, in visit order, the new addresses of the plan. -/
def rewriteRoots (K : Constants) : List Int → List (Int × Int × Int) → List Int
  | [], _ => []
  | h :: hs, F =>
      if h = K.NULL_HEAP_ADDRESS then h :: rewriteRoots K hs F
      else
        match F with
        | t :: F1 => t.2.1 :: rewriteRoots K hs F1
        | [] => h :: rewriteRoots K hs []

/-- Pass 1 of `MarkAndCompact` over a list of roots. -/
def markAll (K : Constants) : Pass1 → List (Int × CXArgument) → Except Fault Pass1
  | st, [] => .ok st
  | st, r :: rest => do
      let st1 ← markRoot K r.1 st r.2
      markAll K st1 rest

/-! ### Example states -/

/-- Constants of the examples: null reference 0, heap starting at offset 4. -/
def exampleConstants : Constants := ⟨0, 4, 256⟩

/-- A pointer argument at frame offset `offset`. -/
def rootAt (offset : Int) : CXArgument :=
  ⟨offset, 4, 4, .MEM_STACK, true, false, 0, [], [], [], [], none⟩

/-- A heap object as `WriteToHeap` lays it out: header with mark 0, forwarding slot 0 and the
payload size, then `size` payload bytes `fill`. -/
def exampleObject (size : Nat) (fill : Byte) : List Byte :=
  mkHeader (SerializeLE 4 size) ++ List.replicate size fill

/-- A program with one frame whose root slots are at the given frame offsets. -/
def exampleProgram (stack heap : List Byte) (hp : Int) (roots : List Int) : CXProgram :=
  ⟨stack, [], ⟨heap, hp⟩, [⟨⟨16, roots.map rootAt⟩⟩], 0⟩

/-- Three 10-byte objects at 4, 23 and 42; only the second is rooted. -/
def threeObjects : CXProgram :=
  exampleProgram (FromI32 23)
    ([0, 0, 0, 0] ++ exampleObject 10 0xAA ++ exampleObject 10 0xBB ++ exampleObject 10 0xCC ++
      List.replicate 3 0) 61 [0]

/-- Two 10-byte objects at 4 and 23; the first root refers to the second object and the
second root to the first. -/
def reversedRoots : CXProgram :=
  exampleProgram (FromI32 23 ++ FromI32 4)
    ([0, 0, 0, 0] ++ exampleObject 10 0xAA ++ exampleObject 10 0xBB ++ List.replicate 8 0)
    42 [0, 4]

/-- Objects of 1 and 3 bytes at 4 and 14; both roots refer to the first object. -/
def aliasedRoots : CXProgram :=
  exampleProgram (FromI32 4 ++ FromI32 4)
    ([0, 0, 0, 0] ++ exampleObject 1 1 ++ exampleObject 3 1 ++ List.replicate 8 0) 26 [0, 4]

/-- What is compared of a program after a collection: stack, heap bytes and heap pointer. -/
def observe (s : CXProgram) : List Byte × List Byte × Int :=
  (s.Stack, s.Heap.Heap, s.Heap.HeapPointer)

/-! ### Ranges of reads and writes -/

/-- The bytes `[offset, offset + A.TotalSize)` that `ReadMemory` takes lie inside the segment
of `A`; nothing is asked when the memory type is none of the three supported ones. -/
def readInRange (stack : CXProgram) (offset : Int) (A : CXArgument) : Prop :=
  match A.MemoryType with
  | .MEM_OTHER => True
  | mem => 0 ≤ offset ∧ 0 ≤ A.TotalSize ∧ offset + A.TotalSize ≤ (segment stack mem).length

/-- The bytes that `WriteMemory` writes lie inside the segment of `A`: the bytes themselves
for the stack and the data segment, an object header and the bytes for the heap. -/
def writeInRange (stack : CXProgram) (offset : Int) (A : CXArgument) (byts : List Byte) : Prop :=
  match A.MemoryType with
  | .MEM_STACK => 0 ≤ offset ∧ offset + byts.length ≤ stack.Stack.length
  | .MEM_DATA => 0 ≤ offset ∧ offset + byts.length ≤ stack.Data.length
  | .MEM_HEAP => 0 ≤ offset ∧ offset + OBJECT_HEADER_SIZE + byts.length ≤ stack.Heap.Heap.length
  | .MEM_OTHER => True

/-! ### More example states -/

/-- Three 10-byte objects at 4, 23 and 42; the two roots are null. -/
def nullRoots : CXProgram :=
  exampleProgram (FromI32 0 ++ FromI32 0)
    ([0, 0, 0, 0] ++ exampleObject 10 0xAA ++ exampleObject 10 0xBB ++ exampleObject 10 0xCC ++
      List.replicate 3 0) 61 [0, 4]

/-! ### The iterations of pass 2 -/

/-- One iteration of the relocation loop of pass 2 at cursor `c`: the size decoded from the
header at `c` and the heap after the iteration. -/
def relocateBody (c : Int) (heap : List Byte) : Except Fault (Int × List Byte) := do
  let fwdByts ← slice heap (c + MARK_SIZE) (c + MARK_SIZE + FORWARDING_ADDRESS_SIZE)
  let forwardingAddress ← DeserializeAtomicI32 fwdByts
  let sizeByts ← slice heap (c + MARK_SIZE + FORWARDING_ADDRESS_SIZE)
    (c + MARK_SIZE + FORWARDING_ADDRESS_SIZE + OBJECT_SIZE)
  let objSize ← DeserializeAtomicI32 sizeByts
  let mark ← index heap c
  if mark = 1 then do
    let heap1 ← store heap c 0
    let heap2 ← copyLoop forwardingAddress (toInt32 c)
      (toInt32 (OBJECT_HEADER_SIZE + objSize)).toNat 0 heap1
    pure (objSize, heap2)
  else
    pure (objSize, heap)

/-- The size fields that the relocation loop decodes, one per iteration, in its first `fuel`
iterations from cursor `c` (up to the iteration that ends the loop or panics). -/
def sizesMet (hp : Int) : Nat → Int → List Byte → List Int
  | 0, _, _ => []
  | fuel + 1, c, heap =>
      if c < hp then
        match relocateBody c heap with
        | .ok (objSize, heap1) =>
            objSize :: sizesMet hp fuel (c + (OBJECT_HEADER_SIZE + objSize)) heap1
        | .error _ => []
      else []

/-- The bound of the claim on the number of iterations of the relocation loop. -/
def iterationBound (K : Constants) (hp : Int) : Nat :=
  ((hp - K.NULL_HEAP_ADDRESS_OFFSET) / OBJECT_HEADER_SIZE + 1).toNat

/-- A heap whose first header, at offset 4, has the size field `-OBJECT_HEADER_SIZE`. -/
def stuckHeap : List Byte := [0, 0, 0, 0, 0, 0, 0, 0, 0, 0xF7, 0xFF, 0xFF, 0xFF]

/-- A result that is no panic other than an access out of range or a failed decode. -/
def MemFault {α : Type} (r : Except Fault α) : Prop :=
  ∀ e, r = .error e → e = .outOfRange ∨ e = .decode

/-! ### Roots that refer to the same object -/

/-- The payload size of the object at address `a` among `objs`; 0 when there is none. -/
def sizeAt (objs : List (Int × Int)) (a : Int) : Int :=
  match objs.find? (fun o => o.1 = a) with
  | some o => o.2
  | none => 0

/-- What pass 1 leaves in the root slots, from the watermark `f` on and for the root values
`hs` in visit order: a null root keeps its value; a non-null root takes the current
watermark, which then advances by header and payload size of the object the root refers
to, whether or not an earlier root referred to it. -/
def assignRoots (K : Constants) (objs : List (Int × Int)) : Int → List Int → List Int
  | _, [] => []
  | f, h :: hs =>
      if h = K.NULL_HEAP_ADDRESS then h :: assignRoots K objs f hs
      else f :: assignRoots K objs (f + OBJECT_HEADER_SIZE + sizeAt objs h) hs

/-- The watermark after the roots `hs`: header and payload size of its object are added for
every non-null root, once per root. -/
def watermark (K : Constants) (objs : List (Int × Int)) (f : Int) (hs : List Int) : Int :=
  f + ((liveRoots K hs).map fun h => OBJECT_HEADER_SIZE + sizeAt objs h).sum

/-- One 10-byte object at 4, to which both roots refer. -/
def oneObjectTwoRoots : CXProgram :=
  exampleProgram (FromI32 4 ++ FromI32 4)
    ([0, 0, 0, 0] ++ exampleObject 10 0xAA ++ List.replicate 25 0) 23 [0, 4]

/-! ### Runs of the allocator -/

/-- A state in which no object is live: `HeapPointer` is at or above
`NULL_HEAP_ADDRESS_OFFSET`, every heap byte is 0, frames `0..CallCounter` exist and every
root slot holds `NULL_HEAP_ADDRESS`. -/
structure Quiet (K : Constants) (s : CXProgram) : Prop where
  offset_nonneg : 0 ≤ K.NULL_HEAP_ADDRESS_OFFSET
  heapPointer : K.NULL_HEAP_ADDRESS_OFFSET ≤ s.Heap.HeapPointer
  heap_zero : ∀ b ∈ s.Heap.Heap, b = 0
  frames : (s.CallCounter + 1).toNat ≤ s.CallStack.length
  roots : ∀ slot ∈ rootSlots s, get32 s.Stack slot = .ok K.NULL_HEAP_ADDRESS

/-- An initial state: nothing is allocated, `HeapPointer = NULL_HEAP_ADDRESS_OFFSET`, the
heap is zeroed and every root is null. -/
def Fresh (K : Constants) (s : CXProgram) : Prop :=
  s.Heap.HeapPointer = K.NULL_HEAP_ADDRESS_OFFSET ∧ Quiet K s

/-- The states reachable from an initial state by calls of `AllocateSeq` with non-negative
sizes for which `HeapPointer + size` fits a 64-bit `int`. -/
inductive AllocReach (K : Constants) (fuel : Nat) : CXProgram → Prop
  | init (s : CXProgram) : Fresh K s → AllocReach K fuel s
  | alloc (s s1 : CXProgram) (size off : Int) : AllocReach K fuel s → 0 ≤ size →
      s.Heap.HeapPointer + size < 9223372036854775808 →
      AllocateSeq K fuel s size = .ok (s1, off) → AllocReach K fuel s1

/-- A heap of 64 bytes with null sentinel 0 and first object address 4. -/
def smallConstants : Constants := ⟨0, 4, 64⟩

/-- A zeroed heap of 64 bytes with `HeapPointer = 4` and one null root. -/
def emptyHeap : CXProgram :=
  exampleProgram (FromI32 0) (List.replicate 64 0) 4 [0]

/-- The state `emptyHeap` after 40 bytes were allocated. -/
def fortyAllocated : CXProgram :=
  { emptyHeap with Heap := { emptyHeap.Heap with HeapPointer := 44 } }

/-- A heap with one header at 4 whose mark byte is 0 and whose size field is
`-OBJECT_HEADER_SIZE`, `HeapPointer = 13`; the single root is null. -/
def stuckProgram : CXProgram := exampleProgram (FromI32 0) stuckHeap 13 [0]

/-- A heap of 4 bytes with `HeapPointer = 13`, beyond the end of the heap; the single root
is null. -/
def shortHeap : CXProgram := exampleProgram (FromI32 0) [0, 0, 0, 0] 13 [0]

/-! ### A heap that a collection grows -/

/-- An object of 18 bytes at 4 and an empty object at 31, `HeapPointer = 40`; the first two
roots refer to the object at 31 and the third to the object at 4. The payload of the first
object starts with the bytes of a header: mark 1, forwarding address 4, size 1. -/
def growingHeap : CXProgram :=
  exampleProgram (FromI32 31 ++ FromI32 31 ++ FromI32 4)
    ([0, 0, 0, 0] ++ mkHeader (SerializeLE 4 18) ++
      ([1] ++ FromI32 4 ++ FromI32 1 ++ List.replicate 9 0) ++
      mkHeader (SerializeLE 4 0) ++ List.replicate 24 0) 40 [0, 4, 8]

/-! ### Array descriptors with one array step per index -/

/-- A program that consists of a stack only. -/
def stackOnly (stack : List Byte) : CXProgram := ⟨stack, [], ⟨[], 0⟩, [], 0⟩

/-- A 4-byte stack argument at frame offset `off`, without dereference operations. -/
def i32At (off : Int) : CXArgument :=
  ⟨off, 4, 4, .MEM_STACK, false, false, 0, [], [], [], [], none⟩

/-- A 3 × 2 array of 4-byte elements at frame offset 8 whose descriptor carries one array
step per index; the two index values are read at frame offsets 0 and 4. -/
def stepPerIndex : CXArgument :=
  ⟨8, 4, 24, .MEM_STACK, false, false, 0, [.DEREF_ARRAY, .DEREF_ARRAY], [i32At 0, i32At 4],
    [3, 2], [], none⟩

/-- A heap argument of `n` bytes at offset 0, without dereference operations. -/
def heapArg (n : Int) : CXArgument :=
  ⟨0, n, n, .MEM_HEAP, false, false, 0, [], [], [], [], none⟩

/-! ## Comment locator of the lexer -/

/-- The method `FindIndex` of a Go regular expression whose pattern is the literal byte
string `pat`: the location `(start, end)` of the leftmost occurrence of `pat` in the line,
and `none` (Go: `nil`) when `pat` does not occur. -/
def FindIndex (pat : List Byte) : List Byte → Option (Nat × Nat)
  | [] => if pat = [] then some (0, 0) else none
  | c :: cs =>
      if (c :: cs).take pat.length = pat then some (0, pat.length)
      else (FindIndex pat cs).map fun loc => (loc.1 + 1, loc.2 + 1)

/-- The pattern of `re.comment`: the two bytes of a single-line comment opener. -/
def commentPattern : List Byte := [47, 47]

/-- The pattern of `re.multiCommentOpen`: a slash and a star. -/
def multiCommentOpenPattern : List Byte := [47, 42]

/-- The pattern of `re.multiCommentClose`: a star and a slash. -/
def multiCommentClosePattern : List Byte := [42, 47]

structure commentLocator where
  singleOpen : Option (Nat × Nat)
  multiOpen : Option (Nat × Nat)
  multiClose : Option (Nat × Nat)
  deriving DecidableEq, Repr

def makeCommentLocator (line : List Byte) : commentLocator :=
  { singleOpen := FindIndex commentPattern line
    multiOpen := FindIndex multiCommentOpenPattern line
    multiClose := FindIndex multiCommentClosePattern line }

/-- The method `skipLine`: the value of `*isCommented` after the call and the result
`skip`. -/
def commentLocator.skipLine (cf : commentLocator) (isCommented skipWithoutMultiClose : Bool) :
    Bool × Bool :=
  if isCommented = true ∧ cf.multiClose = none then (isCommented, true)
  else
    let isCommented1 := if isCommented then false else isCommented
    if cf.multiOpen ≠ none ∧ cf.multiClose = none then
      if skipWithoutMultiClose then (true, true) else (true, false)
    else (isCommented1, false)

/-- The loop over the lines in `Step0`: for every line whether
`skipLine(&inComment, true)` skips it, with `inComment` carried from line to line. -/
def skippedLines : Bool → List (List Byte) → List Bool
  | _, [] => []
  | inComment, line :: rest =>
      let r := (makeCommentLocator line).skipLine inComment true
      r.2 :: skippedLines r.1 rest

/-- The byte string `pat` occurs in `line`. -/
def Occurs (pat line : List Byte) : Prop := ∃ s t, line = s ++ pat ++ t

/-! ## Lemmas on byte buffers -/

theorem index_eq_ok_iff (m : List Byte) (i : Int) (b : Byte) :
    index m i = .ok b ↔ 0 ≤ i ∧ m[i.toNat]? = some b := by
  unfold index
  split
  · rename_i h
    cases hm : m[i.toNat]? <;> simp [h]
  · rename_i h
    simp [h]

theorem index_ok_of_lt (m : List Byte) (i : Int) (h0 : 0 ≤ i) (h1 : i < m.length) :
    ∃ b, index m i = .ok b := by
  have hlt : i.toNat < m.length := by omega
  refine ⟨m[i.toNat], ?_⟩
  rw [index_eq_ok_iff]
  exact ⟨h0, List.getElem?_eq_getElem hlt⟩

theorem index_error_iff (m : List Byte) (i : Int) :
    index m i = .error .outOfRange ↔ i < 0 ∨ (m.length : Int) ≤ i := by
  unfold index
  split
  · rename_i h
    cases hm : m[i.toNat]? with
    | none =>
        simp only [true_iff]
        rw [List.getElem?_eq_none_iff] at hm
        omega
    | some b =>
        have := (List.getElem?_eq_some_iff.mp hm).1
        simp only [reduceCtorEq, false_iff]
        omega
  · rename_i h
    simp only [true_iff]
    omega

theorem index_cases (m : List Byte) (i : Int) :
    (∃ b, index m i = .ok b ∧ 0 ≤ i ∧ i < m.length) ∨
      (index m i = .error .outOfRange ∧ (i < 0 ∨ (m.length : Int) ≤ i)) := by
  by_cases h : 0 ≤ i ∧ i < m.length
  · obtain ⟨b, hb⟩ := index_ok_of_lt m i h.1 h.2
    exact Or.inl ⟨b, hb, h.1, h.2⟩
  · refine Or.inr ⟨(index_error_iff m i).mpr (by omega), by omega⟩

theorem store_eq_ok (m : List Byte) (i : Int) (b : Byte) (h0 : 0 ≤ i) (h1 : i < m.length) :
    store m i b = .ok (m.set i.toNat b) := by
  unfold store
  rw [if_pos ⟨h0, h1⟩]

theorem index_set (m : List Byte) (i j : Int) (b : Byte) (h0 : 0 ≤ i) (h1 : i < m.length) :
    index (m.set i.toNat b) j = if j = i then .ok b else index m j := by
  unfold index
  by_cases hj : 0 ≤ j
  · simp only [hj, if_true]
    by_cases hji : j = i
    · subst hji
      have hlt : j.toNat < m.length := by omega
      simp [hlt]
    · have hne : i.toNat ≠ j.toNat := by omega
      simp [hji, List.getElem?_set_ne hne]
  · have hji : j ≠ i := by omega
    simp [hj, hji]

theorem slice_eq_ok (m : List Byte) (lo hi : Int) (h0 : 0 ≤ lo) (h1 : lo ≤ hi)
    (h2 : hi ≤ m.length) :
    slice m lo hi = .ok ((m.drop lo.toNat).take (hi - lo).toNat) := by
  unfold slice
  rw [if_pos ⟨h0, h1, h2⟩]

theorem slice_of_index (m l : List Byte) (lo hi : Int) (h0 : 0 ≤ lo)
    (hhi : hi = lo + l.length) (h2 : hi ≤ m.length)
    (hl : ∀ t : Nat, ∀ ht : t < l.length, index m (lo + t) = .ok l[t]) :
    slice m lo hi = .ok l := by
  rw [slice_eq_ok m lo hi h0 (by omega) h2]
  congr 1
  apply List.ext_getElem?
  intro t
  by_cases ht : t < l.length
  · have h := hl t ht
    rw [index_eq_ok_iff] at h
    have e : (lo + (t : Int)).toNat = lo.toNat + t := by omega
    rw [e] at h
    have htk : t < (hi - lo).toNat := by omega
    rw [List.getElem?_take_of_lt htk, List.getElem?_drop, h.2, List.getElem?_eq_getElem ht]
  · have h1 : l[t]? = none := List.getElem?_eq_none_iff.mpr (by omega)
    rw [h1, List.getElem?_eq_none_iff]
    simp only [List.length_take, List.length_drop]
    omega

theorem writeBytes_spec (bs : List Byte) : ∀ (m : List Byte) (o : Int), 0 ≤ o →
    o + bs.length ≤ m.length →
    ∃ m1, writeBytes m o bs = .ok m1 ∧ m1.length = m.length ∧
      (∀ t : Nat, ∀ ht : t < bs.length, index m1 (o + t) = .ok bs[t]) ∧
      (∀ x : Int, x < o ∨ o + bs.length ≤ x → index m1 x = index m x) := by
  induction bs with
  | nil =>
      intro m o _ _
      exact ⟨m, rfl, rfl, fun t ht => absurd ht (by simp), fun _ _ => rfl⟩
  | cons b rest ih =>
      intro m o h0 h1
      simp only [List.length_cons, Nat.cast_add, Nat.cast_one] at h1
      have hs := store_eq_ok m o b h0 (by omega)
      obtain ⟨m1, e1, l1, g1, f1⟩ := ih (m.set o.toNat b) (o + 1) (by omega)
        (by simp only [List.length_set]; omega)
      refine ⟨m1, ?_, ?_, ?_, ?_⟩
      · simp only [writeBytes, hs, bind, Except.bind]
        exact e1
      · simpa using l1
      · intro t ht
        cases t with
        | zero =>
            have := f1 o (Or.inl (by omega))
            simp only [Nat.cast_zero, add_zero, List.getElem_cons_zero]
            rw [this, index_set m o o b h0 (by omega), if_pos rfl]
        | succ k =>
            have hk : k < rest.length := by simpa using ht
            have := g1 k hk
            simp only [Nat.cast_add, Nat.cast_one, List.getElem_cons_succ]
            rw [← this]
            congr 1
            omega
      · intro x hx
        simp only [List.length_cons, Nat.cast_add, Nat.cast_one] at hx
        rw [f1 x (by omega), index_set m o x b h0 (by omega), if_neg (by omega)]

theorem writeBytes_slice (bs m : List Byte) (o : Int) (h0 : 0 ≤ o)
    (h1 : o + bs.length ≤ m.length) :
    ∃ m1, writeBytes m o bs = .ok m1 ∧ m1.length = m.length ∧
      slice m1 o (o + bs.length) = .ok bs ∧
      (∀ x : Int, x < o ∨ o + bs.length ≤ x → index m1 x = index m x) := by
  obtain ⟨m1, e1, l1, g1, f1⟩ := writeBytes_spec bs m o h0 h1
  exact ⟨m1, e1, l1, slice_of_index m1 bs o _ h0 rfl (by omega) g1, f1⟩

/-! ## Arithmetic of Go `int`: wrap at 64 bits -/

theorem toInt64_modEq (x : Int) : toInt64 x ≡ x [ZMOD 18446744073709551616] := by
  unfold toInt64 Int.ModEq
  omega

theorem toInt64_eq_of_modEq (a b : Int) (h : a ≡ b [ZMOD 18446744073709551616]) :
    toInt64 a = toInt64 b := by
  unfold Int.ModEq at h
  unfold toInt64
  omega

theorem toInt64_eq_iff (a b : Int) :
    toInt64 a = toInt64 b ↔ a ≡ b [ZMOD 18446744073709551616] := by
  constructor
  · intro h
    exact ((toInt64_modEq a).symm.trans (h ▸ Int.ModEq.refl _)).trans (toInt64_modEq b)
  · exact toInt64_eq_of_modEq a b

theorem toInt64_of_range (x : Int) (h0 : -9223372036854775808 ≤ x)
    (h1 : x < 9223372036854775808) : toInt64 x = x := by
  unfold toInt64
  omega

theorem toInt64_range (x : Int) :
    -9223372036854775808 ≤ toInt64 x ∧ toInt64 x < 9223372036854775808 := by
  unfold toInt64
  omega

/-- The wrapped product of `subSize` is the product of the lengths, modulo 2^64. -/
theorem foldl_wrap_modEq (l : List Int) :
    ∀ acc : Int, l.foldl (fun sub len => toInt64 (sub * len)) acc ≡ acc * l.prod
      [ZMOD 18446744073709551616] := by
  induction l with
  | nil => intro acc; simp [Int.ModEq.refl]
  | cons x rest ih =>
      intro acc
      simp only [List.foldl_cons, List.prod_cons]
      refine (ih _).trans ?_
      rw [← mul_assoc]
      exact (toInt64_modEq _).mul_right _

/-! ## Address resolver -/

theorem indexValues_eq_map (stack : CXProgram) (fp : Int) (idxs : List CXArgument) :
    indexValues stack fp idxs = idxs.map (ReadI32 stack fp) := by
  induction idxs with
  | nil => simp [indexValues]
  | cons a rest ih =>
      simp only [indexValues, List.map_cons, ih, ReadI32]
      congr 1
      cases h1 : GetFinalOffset stack fp a with
      | error e => rfl
      | ok o =>
          cases h2 : ReadMemory stack o a with
          | error e => simp [bind, Except.bind, h2]
          | ok b => simp [bind, Except.bind, h2]

theorem fieldIndexValues_length (stack : CXProgram) (fp : Int) (flds : List CXArgument) :
    (fieldIndexValues stack fp flds).length = flds.length := by
  induction flds with
  | nil => simp [fieldIndexValues]
  | cons a rest ih => cases a; simp [fieldIndexValues, ih]

/-- The definition of `GetFinalOffset` with the index reads written as `ReadI32`. -/
theorem GetFinalOffset_eq (stack : CXProgram) (fp : Int) (arg : CXArgument) :
    GetFinalOffset stack fp arg =
      match derefWalk stack fp arg (fieldIndexValues stack fp arg.Fields)
          arg.DereferenceOperations ⟨arg, arg.Indexes.map (ReadI32 stack fp), arg.Offset, 0⟩ with
      | .error e => .error e
      | .ok w =>
          if arg.IsPointer = true ∨ arg.MemoryType = .MEM_DATA then .ok w.finalOffset
          else .ok (toInt64 (fp + w.finalOffset)) := by
  cases arg
  simp only [GetFinalOffset, indexValues_eq_map]

/-- With no dereference operation `GetFinalOffset` returns `A.Offset` or the Go sum
`fp + A.Offset`. -/
theorem GetFinalOffset_nil (stack : CXProgram) (fp : Int) (A : CXArgument)
    (h : A.DereferenceOperations = []) :
    GetFinalOffset stack fp A =
      .ok (if A.IsPointer = true ∨ A.MemoryType = .MEM_DATA then A.Offset
        else toInt64 (fp + A.Offset)) := by
  rw [GetFinalOffset_eq, h]
  simp only [derefWalk]
  split <;> rfl

/-- C1. With no dereference operation, the resolved offset is `A.Offset` for a pointer or a
data-segment argument and `fp + A.Offset` otherwise. The sum is a sum of Go `int`s: it is
taken modulo 2^64 into the signed 64-bit range, so it is the plain sum whenever that fits
64 bits. -/
theorem GetFinalOffset_no_deref (stack : CXProgram) (fp : Int) (A : CXArgument)
    (h : A.DereferenceOperations = []) :
    GetFinalOffset stack fp A =
      .ok (if A.IsPointer = true ∨ A.MemoryType = .MEM_DATA then A.Offset
        else toInt64 (fp + A.Offset)) ∧
    (-9223372036854775808 ≤ fp + A.Offset → fp + A.Offset < 9223372036854775808 →
      GetFinalOffset stack fp A =
        .ok (if A.IsPointer = true ∨ A.MemoryType = .MEM_DATA then A.Offset
          else fp + A.Offset)) := by
  refine ⟨GetFinalOffset_nil stack fp A h, fun h0 h1 => ?_⟩
  rw [GetFinalOffset_nil stack fp A h, toInt64_of_range _ h0 h1]

theorem GetFinalOffset_no_deref_witness :
    GetFinalOffset (stackOnly []) 32 (i32At 16) = .ok 48 ∧
      GetFinalOffset (stackOnly []) 32
        ⟨16, 4, 4, .MEM_DATA, false, false, 0, [], [], [], [], none⟩ = .ok 16 ∧
      GetFinalOffset (stackOnly []) 9223372036854775807 (i32At 1) =
        .ok (-9223372036854775808) :=
  ⟨(GetFinalOffset_no_deref (stackOnly []) 32 (i32At 16) rfl).1.trans (by decide),
   (GetFinalOffset_no_deref (stackOnly []) 32
      ⟨16, 4, 4, .MEM_DATA, false, false, 0, [], [], [], [], none⟩ rfl).1.trans (by decide),
   (GetFinalOffset_no_deref (stackOnly []) 9223372036854775807 (i32At 1) rfl).1.trans
      (by decide)⟩

/-- The offset that the array step accumulates from index `i` on, modulo 2^64. -/
theorem arrayStep_eq (elt : CXArgument) (s : Int) (hs : stride elt = some s) :
    ∀ (vs : List Int) (i : Nat) (off : Int), i + vs.length ≤ elt.Lengths.length →
      ∃ r, arrayStep elt i (vs.map .ok) off = .ok r ∧
        r ≡ off + s * ((List.range vs.length).map fun k =>
          vs.getD k 0 * (elt.Lengths.drop (i + k + 1)).prod).sum
          [ZMOD 18446744073709551616] := by
  intro vs
  induction vs with
  | nil => intro i off _; exact ⟨off, by simp [arrayStep], by simp [Int.ModEq.refl]⟩
  | cons v rest ih =>
      intro i off hle
      simp only [List.length_cons] at hle
      have hsub : subSize elt.Lengths i =
          .ok ((elt.Lengths.drop (i + 1)).foldl (fun sub len => toInt64 (sub * len)) 1) := by
        unfold subSize
        rw [if_pos (by omega)]
      have hP := foldl_wrap_modEq (elt.Lengths.drop (i + 1)) 1
      rw [one_mul] at hP
      have hsum : ((List.range (rest.length + 1)).map fun k =>
            (v :: rest).getD k 0 * (elt.Lengths.drop (i + k + 1)).prod).sum =
          v * (elt.Lengths.drop (i + 1)).prod +
            ((List.range rest.length).map fun k =>
              rest.getD k 0 * (elt.Lengths.drop (i + 1 + k + 1)).prod).sum := by
        rw [List.range_succ_eq_map, List.map_cons, List.sum_cons, List.map_map]
        congr 1
        congr 1
        apply List.map_congr_left
        intro k _
        simp only [Function.comp, List.getD_cons_succ]
        congr 3
        omega
      have hstep : ∀ sz : Int, sz = s →
          toInt64 (off + toInt64 (toInt64 (v * (elt.Lengths.drop (i + 1)).foldl
            (fun sub len => toInt64 (sub * len)) 1) * sz)) ≡
            off + v * (elt.Lengths.drop (i + 1)).prod * s [ZMOD 18446744073709551616] := by
        intro sz hsz
        subst hsz
        exact (toInt64_modEq _).trans (Int.ModEq.add_left _ ((toInt64_modEq _).trans
          (((toInt64_modEq _).trans (Int.ModEq.mul_left v hP)).mul_right _)))
      have hfin : ∀ (o1 r : Int), o1 ≡ off + v * (elt.Lengths.drop (i + 1)).prod * s
            [ZMOD 18446744073709551616] →
          r ≡ o1 + s * ((List.range rest.length).map fun k =>
            rest.getD k 0 * (elt.Lengths.drop (i + 1 + k + 1)).prod).sum
            [ZMOD 18446744073709551616] →
          r ≡ off + s * ((List.range (rest.length + 1)).map fun k =>
            (v :: rest).getD k 0 * (elt.Lengths.drop (i + k + 1)).prod).sum
            [ZMOD 18446744073709551616] := by
        intro o1 r h1 h2
        rw [hsum]
        refine (h2.trans (Int.ModEq.add_right _ h1)).trans ?_
        have e : off + v * (elt.Lengths.drop (i + 1)).prod * s +
            s * ((List.range rest.length).map fun k =>
              rest.getD k 0 * (elt.Lengths.drop (i + 1 + k + 1)).prod).sum =
            off + s * (v * (elt.Lengths.drop (i + 1)).prod +
              ((List.range rest.length).map fun k =>
                rest.getD k 0 * (elt.Lengths.drop (i + 1 + k + 1)).prod).sum) := by ring
        rw [e]
      simp only [List.map_cons, List.length_cons, arrayStep, hsub, bind, Except.bind]
      unfold stride at hs
      by_cases hst : elt.IsStruct = true
      · rw [if_pos hst] at hs
        cases hct : elt.CustomType with
        | none => rw [hct] at hs; simp at hs
        | some ct =>
            rw [hct] at hs
            simp only [Option.map_some', Option.some.injEq] at hs
            simp only [hst, if_true]
            obtain ⟨r, hr, hmod⟩ := ih (i + 1) _ (by omega)
            exact ⟨r, hr, hfin _ r (hstep ct.Size hs) hmod⟩
      · rw [if_neg hst] at hs
        simp only [Option.some.injEq] at hs
        simp only [hst, if_false]
        obtain ⟨r, hr, hmod⟩ := ih (i + 1) _ (by omega)
        exact ⟨r, hr, hfin _ r (hstep elt.Size hs) hmod⟩

/-- C2. One array step of a non-pointer stack argument with as many index arguments as
dimensions resolves to `fp + A.Offset + s · Σₖ iₖ · Πⱼ>ₖ dⱼ`, where the `iₖ` are the values
`ReadI32` yields for the index arguments and `s` is the element stride. Sums and products
are those of Go `int`s: the result is this value modulo 2^64 in the signed 64-bit range, so
it is the value itself whenever that fits 64 bits. -/
theorem GetFinalOffset_array_row_major (stack : CXProgram) (fp : Int) (A : CXArgument)
    (s : Int) (vs : List Int)
    (hptr : A.IsPointer = false) (hmem : A.MemoryType = .MEM_STACK)
    (hops : A.DereferenceOperations = [.DEREF_ARRAY])
    (hlen : A.Indexes.length = A.Lengths.length)
    (hidx : A.Indexes.map (ReadI32 stack fp) = vs.map .ok)
    (hs : stride A = some s) :
    GetFinalOffset stack fp A =
      .ok (toInt64 (fp + A.Offset + s * rowMajor A.Lengths vs)) ∧
    (-9223372036854775808 ≤ fp + A.Offset + s * rowMajor A.Lengths vs →
      fp + A.Offset + s * rowMajor A.Lengths vs < 9223372036854775808 →
      GetFinalOffset stack fp A = .ok (fp + A.Offset + s * rowMajor A.Lengths vs)) := by
  have hvl : vs.length = A.Indexes.length := by
    have := congrArg List.length hidx
    simpa using this.symm
  have hoff : GetFinalOffset stack fp A =
      .ok (toInt64 (fp + A.Offset + s * rowMajor A.Lengths vs)) := by
    obtain ⟨r, hr, hmod⟩ := arrayStep_eq A s hs vs 0 A.Offset (by omega)
    rw [GetFinalOffset_eq, hops, hidx]
    simp only [derefWalk, derefStep, bind, Except.bind, hr]
    simp only [pure, Except.pure, hptr, hmem, Bool.false_eq_true, reduceCtorEq, or_self,
      if_false]
    refine congrArg Except.ok (toInt64_eq_of_modEq _ _ ?_)
    simp only [Nat.zero_add] at hmod
    unfold rowMajor
    rw [add_assoc]
    exact Int.ModEq.add_left _ hmod
  exact ⟨hoff, fun h0 h1 => by rw [hoff, toInt64_of_range _ h0 h1]⟩

theorem GetFinalOffset_array_row_major_witness :
    GetFinalOffset (stackOnly [1, 0, 0, 0, 1, 0, 0, 0]) 0
      ⟨0, 4, 24, .MEM_STACK, false, false, 0, [.DEREF_ARRAY], [i32At 0, i32At 4],
        [3, 2], [], none⟩ = .ok 12 ∧
    GetFinalOffset (stackOnly [1, 0, 0, 0, 1, 0, 0, 0]) 0
      ⟨0, 4, 24, .MEM_STACK, false, false, 0, [.DEREF_ARRAY], [i32At 0, i32At 4],
        [3, 4611686018427387904], [], none⟩ = .ok 4 :=
  ⟨(GetFinalOffset_array_row_major (stackOnly [1, 0, 0, 0, 1, 0, 0, 0]) 0
      ⟨0, 4, 24, .MEM_STACK, false, false, 0, [.DEREF_ARRAY], [i32At 0, i32At 4],
        [3, 2], [], none⟩ 4 [1, 1] rfl rfl rfl rfl (by decide) rfl).1.trans (by decide),
   (GetFinalOffset_array_row_major (stackOnly [1, 0, 0, 0, 1, 0, 0, 0]) 0
      ⟨0, 4, 24, .MEM_STACK, false, false, 0, [.DEREF_ARRAY], [i32At 0, i32At 4],
        [3, 4611686018427387904], [], none⟩ 4 [1, 1] rfl rfl rfl rfl (by decide) rfl).1.trans
      (by decide)⟩

/-- The walk over `n` field steps from field cursor `w.fldIdx`, modulo 2^64. -/
theorem derefWalk_fields (stack : CXProgram) (fp : Int) (arg : CXArgument) :
    ∀ (n : Nat) (w : Walk), w.fldIdx + n ≤ arg.Fields.length →
      ∃ w1, derefWalk stack fp arg (fieldIndexValues stack fp arg.Fields)
          (List.replicate n .DEREF_FIELD) w = .ok w1 ∧
        w1.finalOffset ≡ w.finalOffset +
          (((arg.Fields.drop w.fldIdx).take n).map fun f => f.Offset).sum
          [ZMOD 18446744073709551616] := by
  intro n
  induction n with
  | zero => intro w _; exact ⟨w, rfl, by simp [Int.ModEq.refl]⟩
  | succ n ih =>
      intro w hle
      have h1 : w.fldIdx < arg.Fields.length := by omega
      have h2 : w.fldIdx < (fieldIndexValues stack fp arg.Fields).length := by
        rw [fieldIndexValues_length]; exact h1
      obtain ⟨w1, e1, f1⟩ := ih
        ⟨arg.Fields[w.fldIdx], (fieldIndexValues stack fp arg.Fields)[w.fldIdx],
          toInt64 (w.finalOffset + arg.Fields[w.fldIdx].Offset), w.fldIdx + 1⟩
        (by simp only; omega)
      refine ⟨w1, ?_, ?_⟩
      · simp only [List.replicate_succ, derefWalk, derefStep, List.getElem?_eq_getElem h1,
          List.getElem?_eq_getElem h2, bind, Except.bind]
        exact e1
      · simp only at f1
        rw [List.drop_eq_getElem_cons h1, List.take_succ_cons, List.map_cons, List.sum_cons,
          ← add_assoc]
        exact f1.trans (Int.ModEq.add_right _ (toInt64_modEq _))

/-- C3. `n` field steps of a non-pointer stack argument add the offsets of the first `n`
entries of `A.Fields` to `fp + A.Offset`: the `k`-th field step consumes the `k`-th entry
of the top-level `A.Fields`. The sums are sums of Go `int`s: the result is this value
modulo 2^64 in the signed 64-bit range, so it is the value itself whenever that fits 64
bits. -/
theorem GetFinalOffset_field_chain (stack : CXProgram) (fp : Int) (A : CXArgument) (n : Nat)
    (hptr : A.IsPointer = false) (hmem : A.MemoryType = .MEM_STACK)
    (hn : n ≤ A.Fields.length)
    (hops : A.DereferenceOperations = List.replicate n .DEREF_FIELD) :
    GetFinalOffset stack fp A =
      .ok (toInt64 (fp + A.Offset + ((A.Fields.take n).map fun f => f.Offset).sum)) ∧
    (-9223372036854775808 ≤ fp + A.Offset + ((A.Fields.take n).map fun f => f.Offset).sum →
      fp + A.Offset + ((A.Fields.take n).map fun f => f.Offset).sum < 9223372036854775808 →
      GetFinalOffset stack fp A =
        .ok (fp + A.Offset + ((A.Fields.take n).map fun f => f.Offset).sum)) := by
  have hoff : GetFinalOffset stack fp A =
      .ok (toInt64 (fp + A.Offset + ((A.Fields.take n).map fun f => f.Offset).sum)) := by
    obtain ⟨w1, e1, f1⟩ := derefWalk_fields stack fp A n
      ⟨A, A.Indexes.map (ReadI32 stack fp), A.Offset, 0⟩ (by simp only; omega)
    rw [GetFinalOffset_eq, hops, e1]
    simp only [hptr, hmem, Bool.false_eq_true, reduceCtorEq, or_self, if_false]
    refine congrArg Except.ok (toInt64_eq_of_modEq _ _ ?_)
    simp only [List.drop_zero] at f1
    rw [add_assoc]
    exact Int.ModEq.add_left _ f1
  exact ⟨hoff, fun h0 h1 => by rw [hoff, toInt64_of_range _ h0 h1]⟩

theorem GetFinalOffset_field_chain_witness :
    GetFinalOffset (stackOnly []) 100
      ⟨0, 16, 16, .MEM_STACK, false, true, 0, [.DEREF_FIELD, .DEREF_FIELD], [], [],
        [⟨8, 8, 8, .MEM_STACK, false, true, 0, [], [], [], [], none⟩,
         ⟨4, 4, 4, .MEM_STACK, false, false, 0, [], [], [], [], none⟩], none⟩ = .ok 112 ∧
    GetFinalOffset (stackOnly []) 9223372036854775800
      ⟨0, 16, 16, .MEM_STACK, false, true, 0, [.DEREF_FIELD, .DEREF_FIELD], [], [],
        [⟨8, 8, 8, .MEM_STACK, false, true, 0, [], [], [], [], none⟩,
         ⟨4, 4, 4, .MEM_STACK, false, false, 0, [], [], [], [], none⟩], none⟩ =
      .ok (-9223372036854775804) :=
  ⟨(GetFinalOffset_field_chain (stackOnly []) 100
      ⟨0, 16, 16, .MEM_STACK, false, true, 0, [.DEREF_FIELD, .DEREF_FIELD], [], [],
        [⟨8, 8, 8, .MEM_STACK, false, true, 0, [], [], [], [], none⟩,
         ⟨4, 4, 4, .MEM_STACK, false, false, 0, [], [], [], [], none⟩], none⟩ 2 rfl rfl
      (by decide) rfl).1.trans (by decide),
   (GetFinalOffset_field_chain (stackOnly []) 9223372036854775800
      ⟨0, 16, 16, .MEM_STACK, false, true, 0, [.DEREF_FIELD, .DEREF_FIELD], [], [],
        [⟨8, 8, 8, .MEM_STACK, false, true, 0, [], [], [], [], none⟩,
         ⟨4, 4, 4, .MEM_STACK, false, false, 0, [], [], [], [], none⟩], none⟩ 2 rfl rfl
      (by decide) rfl).1.trans (by decide)⟩

/-- C4. One pointer-load step of a pointer argument with `Size = 4` and one dereference
level resolves to the little-endian signed 32-bit value `v` stored at `fp + A.Offset`, plus
`OBJECT_HEADER_SIZE` when the argument is heap-typed; `fp` is not added. -/
theorem GetFinalOffset_pointer_load (stack : CXProgram) (fp : Int) (A : CXArgument)
    (byts : List Byte) (v : Int)
    (hptr : A.IsPointer = true) (hsize : A.Size = 4) (hlev : A.DereferenceLevels = 1)
    (hops : A.DereferenceOperations = [.DEREF_POINTER])
    (hbyts : slice stack.Stack (fp + A.Offset) (fp + A.Offset + 4) = .ok byts)
    (hv : DeserializeAtomicI32 byts = .ok v) :
    GetFinalOffset stack fp A =
      .ok (if A.MemoryType = .MEM_HEAP then v + OBJECT_HEADER_SIZE else v) := by
  rw [GetFinalOffset_eq, hops]
  simp only [derefWalk, derefStep, hlev, bind, Except.bind]
  have h1 : (1 : Int).toNat = 1 := rfl
  rw [h1]
  simp only [pointerStep, hsize, hbyts, hv, bind, Except.bind]
  by_cases hm : A.MemoryType = .MEM_HEAP
  · simp [hm, hptr, pure, Except.pure]
  · simp [hm, hptr, pure, Except.pure]

theorem GetFinalOffset_pointer_load_witness :
    GetFinalOffset ⟨[0, 1, 0, 0], [], ⟨[], 0⟩, [], 0⟩ 0
      ⟨0, 4, 4, .MEM_HEAP, true, false, 1, [.DEREF_POINTER], [], [], [], none⟩ =
        .ok (if MemType.MEM_HEAP = MemType.MEM_HEAP then 256 + OBJECT_HEADER_SIZE else 256) :=
  GetFinalOffset_pointer_load ⟨[0, 1, 0, 0], [], ⟨[], 0⟩, [], 0⟩ 0
    ⟨0, 4, 4, .MEM_HEAP, true, false, 1, [.DEREF_POINTER], [], [], [], none⟩ [0, 1, 0, 0] 256
    rfl rfl rfl rfl (by decide) (by decide)

/-! ## Encoding and decoding -/

theorem byteOfInt_val (x : Int) : ((byteOfInt x).val : Int) = x % 256 := by
  unfold byteOfInt
  simp only
  omega

theorem SerializeLE_length (n : Nat) : ∀ x : Int, (SerializeLE n x).length = n := by
  induction n with
  | zero => intro x; rfl
  | succ n ih => intro x; simp [SerializeLE, ih]

theorem leNat_SerializeLE_4 (x : Int) : (leNat (SerializeLE 4 x) : Int) = x % 4294967296 := by
  simp only [SerializeLE, leNat, Nat.cast_add, Nat.cast_mul, byteOfInt_val, Nat.cast_ofNat,
    Nat.cast_zero]
  omega

theorem toInt32_of_range (x : Int) (h0 : -2147483648 ≤ x) (h1 : x < 2147483648) :
    toInt32 x = x := by
  unfold toInt32
  omega

theorem toInt32_emod (x : Int) : toInt32 (x % 4294967296) = toInt32 x := by
  unfold toInt32
  omega

theorem DeserializeAtomicI32_SerializeLE (x : Int) :
    DeserializeAtomicI32 (SerializeLE 4 x) = .ok (toInt32 x) := by
  unfold DeserializeAtomicI32
  rw [if_pos (by rw [SerializeLE_length])]
  have h : (SerializeLE 4 x).take 4 = SerializeLE 4 x :=
    List.take_of_length_le (by rw [SerializeLE_length])
  rw [h, leNat_SerializeLE_4, toInt32_emod]

theorem WriteToHeap_spec (heap : CXHeap) (o : Int) (out : List Byte) (h0 : 0 ≤ o)
    (h1 : o + OBJECT_HEADER_SIZE + out.length ≤ heap.Heap.length) :
    ∃ m2, WriteToHeap heap o out = .ok ⟨m2, heap.HeapPointer⟩ ∧ m2.length = heap.Heap.length ∧
      slice m2 (o + OBJECT_HEADER_SIZE) (o + OBJECT_HEADER_SIZE + out.length) = .ok out ∧
      slice m2 o (o + OBJECT_HEADER_SIZE) =
        .ok (mkHeader (SerializeLE 4 (toInt32 out.length))) ∧
      (∀ x : Int, x < o ∨ o + OBJECT_HEADER_SIZE + out.length ≤ x →
        index m2 x = index heap.Heap x) := by
  have hh : (mkHeader (SerializeLE 4 (toInt32 out.length))).length = 9 := by
    simp [mkHeader, OBJECT_HEADER_SIZE]
  have hH : OBJECT_HEADER_SIZE = 9 := rfl
  rw [hH] at h1 ⊢
  obtain ⟨m1, e1, l1, g1, f1⟩ := writeBytes_spec (mkHeader (SerializeLE 4 (toInt32 out.length)))
    heap.Heap o h0 (by rw [hh]; omega)
  obtain ⟨m2, e2, l2, g2, f2⟩ := writeBytes_spec out m1 (o + 9) (by omega) (by omega)
  refine ⟨m2, ?_, by omega, ?_, ?_, ?_⟩
  · simp only [WriteToHeap, e1, hH, e2, bind, Except.bind, pure, Except.pure]
  · exact slice_of_index m2 out _ _ (by omega) rfl (by omega) g2
  · refine slice_of_index m2 _ o _ h0 (by rw [hh]; rfl) (by omega) ?_
    intro t ht
    rw [f2 _ (Or.inl (by omega))]
    exact g1 t ht
  · intro x hx
    rw [f2 x (by omega), f1 x (by omega)]

theorem get32_eq_ok (m : List Byte) (a : Int) (h0 : 0 ≤ a) (h1 : a + 4 ≤ m.length) :
    get32 m a = .ok (toInt32 (leNat ((m.drop a.toNat).take 4))) := by
  unfold get32
  rw [slice_eq_ok m a (a + 4) h0 (by omega) h1]
  simp only [bind, Except.bind]
  have e : (a + 4 - a).toNat = 4 := by omega
  rw [e]
  unfold DeserializeAtomicI32
  have hl : ((m.drop a.toNat).take 4).length = 4 := by
    simp only [List.length_take, List.length_drop]; omega
  rw [if_pos (by omega), List.take_of_length_le (by omega)]

theorem get32_error (m : List Byte) (a : Int) (h : a < 0 ∨ (m.length : Int) < a + 4) :
    get32 m a = .error .outOfRange := by
  unfold get32 slice
  rw [if_neg (by omega)]
  rfl

theorem get32_ok_bounds (m : List Byte) (a v : Int) (h : get32 m a = .ok v) :
    0 ≤ a ∧ a + 4 ≤ m.length := by
  by_contra hc
  rw [get32_error m a (by omega)] at h
  cases h

/-- A 32-bit field is determined by its four bytes. -/
theorem get32_congr (m1 m2 : List Byte) (a b : Int)
    (h : ∀ t : Int, 0 ≤ t → t < 4 → index m1 (a + t) = index m2 (b + t)) :
    get32 m1 a = get32 m2 b := by
  by_cases ha : 0 ≤ a ∧ a + 4 ≤ m1.length
  · have hb : 0 ≤ b ∧ b + 4 ≤ m2.length := by
      have h0 := h 0 (by omega) (by omega)
      have h3 := h 3 (by omega) (by omega)
      obtain ⟨b0, e0, _, _⟩ | ⟨e0, _⟩ := index_cases m1 (a + 0)
      · obtain ⟨b3, e3, _, _⟩ | ⟨e3, _⟩ := index_cases m1 (a + 3)
        · rw [e0] at h0
          rw [e3] at h3
          obtain ⟨_, e0', _, _⟩ | ⟨e0', _⟩ := index_cases m2 (b + 0)
          · obtain ⟨_, e3', _, _⟩ | ⟨e3', _⟩ := index_cases m2 (b + 3)
            · omega
            · rw [e3'] at h3; cases h3
          · rw [e0'] at h0; cases h0
        · omega
      · omega
    rw [get32_eq_ok m1 a ha.1 ha.2, get32_eq_ok m2 b hb.1 hb.2]
    congr 4
    apply List.ext_getElem?
    intro t
    by_cases ht : t < 4
    · rw [List.getElem?_take_of_lt ht, List.getElem?_take_of_lt ht, List.getElem?_drop,
        List.getElem?_drop]
      have hh := h t (by omega) (by omega)
      obtain ⟨x, ex, _, _⟩ | ⟨ex, _⟩ := index_cases m1 (a + t)
      · rw [ex] at hh
        have e1 := (index_eq_ok_iff m1 (a + t) x).mp ex
        have e2 := (index_eq_ok_iff m2 (b + t) x).mp hh.symm
        have c1 : (a + (t : Int)).toNat = a.toNat + t := by omega
        have c2 : (b + (t : Int)).toNat = b.toNat + t := by omega
        rw [c1] at e1
        rw [c2] at e2
        rw [e1.2, e2.2]
      · omega
    · rw [List.getElem?_eq_none_iff.mpr (by simp only [List.length_take]; omega),
        List.getElem?_eq_none_iff.mpr (by simp only [List.length_take]; omega)]
  · have hb : ¬ (0 ≤ b ∧ b + 4 ≤ m2.length) := by
      intro hb
      have h0 := h 0 (by omega) (by omega)
      have h3 := h 3 (by omega) (by omega)
      obtain ⟨_, e0, _, _⟩ | ⟨_, _⟩ := index_cases m2 (b + 0)
      · obtain ⟨_, e3, _, _⟩ | ⟨_, _⟩ := index_cases m2 (b + 3)
        · rw [e0] at h0
          rw [e3] at h3
          obtain ⟨_, _, _, _⟩ | ⟨e0', _⟩ := index_cases m1 (a + 0)
          · obtain ⟨_, _, _, _⟩ | ⟨e3', _⟩ := index_cases m1 (a + 3)
            · omega
            · rw [e3'] at h3; cases h3
          · rw [e0'] at h0; cases h0
        · omega
      · omega
    rw [get32_error m1 a (by omega), get32_error m2 b (by omega)]

theorem get32_of_bytes (m bs : List Byte) (a : Int) (h0 : 0 ≤ a) (hl : bs.length = 4)
    (h1 : a + 4 ≤ m.length)
    (hb : ∀ t : Nat, ∀ ht : t < bs.length, index m (a + t) = .ok bs[t]) :
    get32 m a = DeserializeAtomicI32 bs := by
  unfold get32
  rw [slice_of_index m bs a (a + 4) h0 (by omega) h1 hb]
  rfl

/-- The copy loop of pass 2, `n` bytes from `c` to `g ≤ c`, low to high: the destination
range receives the bytes the source range held before the loop, nothing else changes. -/
theorem copyLoop_spec (g c : Int) (m0 : List Byte) (hg : 0 ≤ g) (hgc : g ≤ c) :
    ∀ (n : Nat) (i : Int) (m : List Byte), 0 ≤ i → c + i + n ≤ m0.length →
      c + i + n ≤ 2147483648 → m.length = m0.length →
      (∀ t : Int, 0 ≤ t → t < i → index m (g + t) = index m0 (c + t)) →
      (∀ x : Int, x < g ∨ g + i ≤ x → index m x = index m0 x) →
      ∃ m1, copyLoop g c n i m = .ok m1 ∧ m1.length = m0.length ∧
        (∀ t : Int, 0 ≤ t → t < i + n → index m1 (g + t) = index m0 (c + t)) ∧
        (∀ x : Int, x < g ∨ g + i + n ≤ x → index m1 x = index m0 x) := by
  intro n
  induction n with
  | zero =>
      intro i m _ _ _ hl h1 h2
      refine ⟨m, rfl, hl, ?_, ?_⟩
      · intro t ht0 ht; exact h1 t ht0 (by simpa using ht)
      · intro x hx; exact h2 x (by simpa using hx)
  | succ n ih =>
      intro i m hi hlen h31 hl h1 h2
      simp only [Nat.cast_add, Nat.cast_one] at hlen h31
      have e1 : toInt32 (c + i) = c + i := toInt32_of_range _ (by omega) (by omega)
      have e2 : toInt32 (g + i) = g + i := toInt32_of_range _ (by omega) (by omega)
      obtain ⟨b, hb⟩ := index_ok_of_lt m (c + i) (by omega) (by omega)
      have hb0 : index m0 (c + i) = .ok b := by rw [← h2 (c + i) (Or.inr (by omega))]; exact hb
      have hs := store_eq_ok m (g + i) b (by omega) (by omega)
      obtain ⟨m1, r1, r2, r3, r4⟩ := ih (i + 1) (m.set (g + i).toNat b) (by omega) (by omega)
        (by omega) (by simp only [List.length_set]; exact hl)
        (by
          intro t ht0 ht
          rw [index_set m (g + i) (g + t) b (by omega) (by omega)]
          by_cases hti : t = i
          · subst hti; rw [if_pos rfl, hb0]
          · rw [if_neg (by omega)]; exact h1 t ht0 (by omega))
        (by
          intro x hx
          rw [index_set m (g + i) x b (by omega) (by omega), if_neg (by omega)]
          exact h2 x (by omega))
      refine ⟨m1, ?_, r2, ?_, ?_⟩
      · simp only [copyLoop, e1, e2, hb, hs, bind, Except.bind]
        exact r1
      · intro t ht0 ht
        exact r3 t ht0 (by omega)
      · intro x hx
        exact r4 x (by omega)

/-- The loop that writes a forwarding address to a header and to a root slot is two
independent byte-wise writes. -/
theorem forwardLoop_eq (fp po ho : Int) (bs : List Byte) :
    ∀ (i : Nat) (heap stack heap1 stack1 : List Byte),
      writeBytes heap (ho + MARK_SIZE + i) bs = .ok heap1 →
      writeBytes stack (fp + po + i) bs = .ok stack1 →
      forwardLoop fp po ho i bs heap stack = .ok (heap1, stack1) := by
  induction bs with
  | nil =>
      intro i heap stack heap1 stack1 h1 h2
      simp only [writeBytes, Except.ok.injEq] at h1 h2
      simp [forwardLoop, h1, h2]
  | cons b rest ih =>
      intro i heap stack heap1 stack1 h1 h2
      simp only [writeBytes, bind, Except.bind] at h1 h2
      cases e1 : store heap (ho + MARK_SIZE + i) b with
      | error e => rw [e1] at h1; cases h1
      | ok ha =>
          cases e2 : store stack (fp + po + i) b with
          | error e => rw [e2] at h2; cases h2
          | ok sa =>
              rw [e1] at h1
              rw [e2] at h2
              simp only at h1 h2
              simp only [forwardLoop, e1, e2, bind, Except.bind]
              apply ih (i + 1) ha sa heap1 stack1
              · rw [← h1]; congr 1; push_cast; ring
              · rw [← h2]; congr 1; push_cast; ring

/-! ## Garbage collector: pass 1 -/

theorem get32_ok_iff (m : List Byte) (a v : Int) :
    get32 m a = .ok v ↔ ∃ bs, slice m a (a + 4) = .ok bs ∧ DeserializeAtomicI32 bs = .ok v := by
  unfold get32
  cases slice m a (a + 4) with
  | error e => simp [bind, Except.bind]
  | ok bs => simp [bind, Except.bind]

theorem markRoot_null (K : Constants) (fp : Int) (st : Pass1) (ptr : CXArgument)
    (hroot : get32 st.Stack (fp + ptr.Offset) = .ok K.NULL_HEAP_ADDRESS) :
    markRoot K fp st ptr = .ok st := by
  obtain ⟨bs, e1, e2⟩ := (get32_ok_iff _ _ _).mp hroot
  have hT : TYPE_POINTER_SIZE = 4 := rfl
  simp only [markRoot, hT, e1, e2, bind, Except.bind, if_true, pure, Except.pure]

theorem markRoot_live (K : Constants) (fp : Int) (st : Pass1) (ptr : CXArgument) (a z : Int)
    (hroot : get32 st.Stack (fp + ptr.Offset) = .ok a) (hnn : a ≠ K.NULL_HEAP_ADDRESS)
    (ha0 : 0 ≤ a) (hah : a + 9 ≤ st.Heap.length) (hsz : get32 st.Heap (a + 5) = .ok z)
    (hz : 0 ≤ z) (hf0 : -2147483648 ≤ st.faddr) (hf1 : st.faddr + 9 + z < 2147483648) :
    ∃ heap1 stack1, markRoot K fp st ptr = .ok ⟨stack1, heap1, st.faddr + 9 + z⟩ ∧
      heap1.length = st.Heap.length ∧ stack1.length = st.Stack.length ∧
      index heap1 a = .ok 1 ∧ get32 heap1 (a + 1) = .ok st.faddr ∧
      (∀ x : Int, x < a ∨ a + 5 ≤ x → index heap1 x = index st.Heap x) ∧
      get32 stack1 (fp + ptr.Offset) = .ok st.faddr ∧
      (∀ x : Int, x < fp + ptr.Offset ∨ fp + ptr.Offset + 4 ≤ x →
        index stack1 x = index st.Stack x) := by
  obtain ⟨bs, e1, e2⟩ := (get32_ok_iff _ _ _).mp hroot
  obtain ⟨hs0, hs1⟩ := get32_ok_bounds _ _ _ hroot
  have hT : TYPE_POINTER_SIZE = 4 := rfl
  have hM : MARK_SIZE = 1 := rfl
  have hO : OBJECT_SIZE = 4 := rfl
  have hH : OBJECT_HEADER_SIZE = 9 := rfl
  have hlen := SerializeLE_length 4 st.faddr
  have hst := store_eq_ok st.Heap a 1 ha0 (by omega)
  obtain ⟨heap1, w1, l1, g1, f1⟩ := writeBytes_spec (SerializeLE 4 st.faddr)
    (st.Heap.set a.toNat 1) (a + 1) (by omega) (by simp only [List.length_set]; omega)
  obtain ⟨stack1, w2, l2, g2, f2⟩ := writeBytes_spec (SerializeLE 4 st.faddr)
    st.Stack (fp + ptr.Offset) hs0 (by omega)
  have hfl := forwardLoop_eq fp ptr.Offset a (SerializeLE 4 st.faddr) 0
    (st.Heap.set a.toNat 1) st.Stack heap1 stack1
    (by rw [hM]; simpa using w1) (by simpa using w2)
  simp only [List.length_set] at l1
  have hdec : DeserializeAtomicI32 (SerializeLE 4 st.faddr) = .ok st.faddr := by
    rw [DeserializeAtomicI32_SerializeLE, toInt32_of_range _ hf0 (by omega)]
  have hfw : get32 heap1 (a + 1) = .ok st.faddr := by
    rw [get32_of_bytes heap1 _ (a + 1) (by omega) hlen (by omega) g1, hdec]
  have hrt : get32 stack1 (fp + ptr.Offset) = .ok st.faddr := by
    rw [get32_of_bytes stack1 _ (fp + ptr.Offset) hs0 hlen (by omega) g2, hdec]
  have hframe : ∀ x : Int, x < a ∨ a + 5 ≤ x → index heap1 x = index st.Heap x := by
    intro x hx
    rw [f1 x (by omega), index_set st.Heap a x 1 ha0 (by omega), if_neg (by omega)]
  have hsz1 : get32 heap1 (a + 5) = .ok z := by
    rw [← hsz]
    apply get32_congr
    intro t ht0 ht
    exact hframe _ (by omega)
  obtain ⟨sb, e3, e4⟩ := (get32_ok_iff _ _ _).mp hsz1
  have e3' : slice heap1 (a + 1 + 4) (a + 1 + 4 + 4) = .ok sb := by
    rw [← e3]; congr 1 <;> ring
  refine ⟨heap1, stack1, ?_, l1, l2, ?_, hfw, hframe, hrt, f2⟩
  · simp only [markRoot, hT, hM, hO, hH, e1, e2, hnn, hst, hfl, e3', e4, bind, Except.bind,
      if_false, pure, Except.pure]
    congr 2
    unfold toInt32
    omega
  · rw [f1 a (Or.inl (by omega)), index_set st.Heap a a 1 ha0 (by omega), if_pos rfl]

/-! ## Garbage collector: the heap between the two passes -/

theorem objectsFrom_cons (c z : Int) (rest : List Int) :
    objectsFrom c (z :: rest) = (c, z) :: objectsFrom (c + 9 + z) rest := rfl

theorem Layout_cons (heap : List Byte) (hp c z : Int) (rest : List Int) :
    Layout heap hp c (z :: rest) ↔
      0 ≤ z ∧ index heap c = .ok 0 ∧ get32 heap (c + 5) = .ok z ∧
        Layout heap hp (c + 9 + z) rest := by
  have e : c + MARK_SIZE + FORWARDING_ADDRESS_SIZE = c + 5 := by
    simp only [MARK_SIZE, FORWARDING_ADDRESS_SIZE]; ring
  simp only [Layout, e, OBJECT_HEADER_SIZE]

theorem Marked_cons_live (heap : List Byte) (hp c g z : Int) (rest L : List Int) :
    Marked heap hp c g (z :: rest) (c :: L) ↔
      0 ≤ z ∧ get32 heap (c + 5) = .ok z ∧ index heap c = .ok 1 ∧
        get32 heap (c + 1) = .ok g ∧ Marked heap hp (c + 9 + z) (g + 9 + z) rest L := by
  simp [Marked]

theorem Marked_cons_dead (heap : List Byte) (hp c g z : Int) (rest L : List Int)
    (h : L.head? ≠ some c) :
    Marked heap hp c g (z :: rest) L ↔
      0 ≤ z ∧ get32 heap (c + 5) = .ok z ∧ index heap c = .ok 0 ∧
        Marked heap hp (c + 9 + z) g rest L := by
  simp [Marked, h]

theorem plan_cons_live (c g z : Int) (rest L : List Int) :
    plan c g (z :: rest) (c :: L) = (c, g, z) :: plan (c + 9 + z) (g + 9 + z) rest L := by
  simp [plan]

theorem plan_cons_dead (c g z : Int) (rest L : List Int) (h : L.head? ≠ some c) :
    plan c g (z :: rest) L = plan (c + 9 + z) g rest L := by
  simp [plan, h]

theorem head?_cases (L : List Int) (c : Int) :
    (∃ L1, L = c :: L1) ∨ L.head? ≠ some c := by
  cases L with
  | nil => exact Or.inr (by simp)
  | cons x L1 =>
      by_cases hx : x = c
      · exact Or.inl ⟨L1, by rw [hx]⟩
      · exact Or.inr (by simpa using hx)

theorem plan_nil (sizes : List Int) : ∀ c g : Int, plan c g sizes [] = [] := by
  induction sizes with
  | nil => intro c g; rfl
  | cons z rest ih => intro c g; rw [plan_cons_dead c g z rest [] (by simp)]; exact ih _ _

theorem planSize_nil : planSize [] = 0 := rfl

theorem planSize_cons (t : Int × Int × Int) (F : List (Int × Int × Int)) :
    planSize (t :: F) = 9 + t.2.2 + planSize F := by
  simp [planSize]

theorem planSize_append (F G : List (Int × Int × Int)) :
    planSize (F ++ G) = planSize F + planSize G := by
  simp [planSize]

theorem Layout_iff_Marked (heap : List Byte) (hp : Int) (sizes : List Int) :
    ∀ c g : Int, Layout heap hp c sizes ↔ Marked heap hp c g sizes [] := by
  induction sizes with
  | nil => intro c g; simp [Layout, Marked]
  | cons z rest ih =>
      intro c g
      rw [Layout_cons, Marked_cons_dead heap hp c g z rest [] (by simp), ih (c + 9 + z) g]
      tauto

/-- The marked heap depends only on the bytes from `c` on. -/
theorem Marked_congr (h h1 : List Byte) (hp : Int) (sizes : List Int) :
    ∀ (c g : Int) (L : List Int), (∀ x : Int, c ≤ x → index h1 x = index h x) →
      Marked h hp c g sizes L → Marked h1 hp c g sizes L := by
  induction sizes with
  | nil => intro c g L _ hm; exact hm
  | cons z rest ih =>
      intro c g L hx hm
      have hz : 0 ≤ z := hm.1
      have hsz : get32 h1 (c + 5) = get32 h (c + 5) :=
        get32_congr _ _ _ _ (fun t _ _ => hx _ (by omega))
      rcases head?_cases L c with ⟨L1, rfl⟩ | hd
      · rw [Marked_cons_live] at hm ⊢
        obtain ⟨m1, m2, m3, m4, m5⟩ := hm
        refine ⟨m1, by rw [hsz]; exact m2, by rw [hx c (by omega)]; exact m3, ?_, ?_⟩
        · rw [get32_congr h1 h (c + 1) (c + 1) (fun t _ _ => hx _ (by omega))]; exact m4
        · exact ih _ _ _ (fun x hx1 => hx x (by omega)) m5
      · rw [Marked_cons_dead _ _ _ _ _ _ _ hd] at hm ⊢
        obtain ⟨m1, m2, m3, m5⟩ := hm
        refine ⟨m1, by rw [hsz]; exact m2, by rw [hx c (by omega)]; exact m3, ?_⟩
        exact ih _ _ _ (fun x hx1 => hx x (by omega)) m5

/-- Bounds that the marked heap gives: the walk ends at `hp`, the live addresses lie in it and
the plan is no larger than the walk. -/
theorem Marked_bounds (h : List Byte) (hp : Int) (sizes : List Int) :
    ∀ (c g : Int) (L : List Int), Marked h hp c g sizes L →
      c ≤ hp ∧ (∀ x ∈ L, c ≤ x ∧ x + 9 ≤ hp) ∧ c + planSize (plan c g sizes L) ≤ hp := by
  induction sizes with
  | nil =>
      intro c g L hm
      obtain ⟨h1, h2⟩ := hm
      subst h2
      exact ⟨by omega, by simp, by simp [plan, planSize]; omega⟩
  | cons z rest ih =>
      intro c g L hm
      rcases head?_cases L c with ⟨L1, rfl⟩ | hd
      · rw [Marked_cons_live] at hm
        obtain ⟨m1, _, _, _, m5⟩ := hm
        obtain ⟨i1, i2, i3⟩ := ih _ _ _ m5
        refine ⟨by omega, ?_, ?_⟩
        · intro x hx
          rcases List.mem_cons.mp hx with rfl | hx1
          · omega
          · have := i2 x hx1; omega
        · rw [plan_cons_live, planSize_cons]; simp only; omega
      · rw [Marked_cons_dead _ _ _ _ _ _ _ hd] at hm
        obtain ⟨m1, _, _, m5⟩ := hm
        obtain ⟨i1, i2, i3⟩ := ih _ _ _ m5
        refine ⟨by omega, ?_, ?_⟩
        · intro x hx
          have := i2 x hx; omega
        · rw [plan_cons_dead _ _ _ _ _ hd]; omega

/-- What the marked heap says about an object of the walk. -/
theorem Marked_object (h : List Byte) (hp a za : Int) (sizes : List Int) :
    ∀ (c g : Int) (L : List Int), Marked h hp c g sizes L → (a, za) ∈ objectsFrom c sizes →
      c ≤ a ∧ a + 9 + za ≤ hp ∧ 0 ≤ za ∧ get32 h (a + 5) = .ok za := by
  induction sizes with
  | nil => intro c g L _ hmem; simp [objectsFrom] at hmem
  | cons z rest ih =>
      intro c g L hm hmem
      rw [objectsFrom_cons] at hmem
      have key : 0 ≤ z ∧ get32 h (c + 5) = .ok z ∧
          ∃ g1 L1, Marked h hp (c + 9 + z) g1 rest L1 := by
        rcases head?_cases L c with ⟨L1, rfl⟩ | hd
        · rw [Marked_cons_live] at hm
          exact ⟨hm.1, hm.2.1, _, _, hm.2.2.2.2⟩
        · rw [Marked_cons_dead _ _ _ _ _ _ _ hd] at hm
          exact ⟨hm.1, hm.2.1, _, _, hm.2.2.2⟩
      obtain ⟨k1, k2, g1, L1, k3⟩ := key
      rcases List.mem_cons.mp hmem with heq | hin
      · have e1 : a = c := congrArg Prod.fst heq
        have e2 : za = z := congrArg Prod.snd heq
        subst e1 e2
        have := (Marked_bounds h hp rest _ _ _ k3).1
        exact ⟨by omega, by omega, k1, k2⟩
      · obtain ⟨i1, i2, i3, i4⟩ := ih _ _ _ k3 hin
        exact ⟨by omega, i2, i3, i4⟩

/-- With no live address the marked heap does not depend on the forwarding watermark. -/
theorem Marked_nil_live (h : List Byte) (hp : Int) (sizes : List Int) (c g g1 : Int)
    (hm : Marked h hp c g sizes []) : Marked h hp c g1 sizes [] :=
  (Layout_iff_Marked h hp sizes c g1).mp ((Layout_iff_Marked h hp sizes c g).mpr hm)

/-- Marking one more object, above all the marked ones, extends the plan at its end. -/
theorem Marked_snoc (h h1 : List Byte) (hp a za : Int) (sizes : List Int) :
    ∀ (c g : Int) (L : List Int), Marked h hp c g sizes L → (∀ x ∈ L, x < a) →
      (a, za) ∈ objectsFrom c sizes →
      (∀ x : Int, x < a ∨ a + 5 ≤ x → index h1 x = index h x) →
      index h1 a = .ok 1 →
      get32 h1 (a + 1) = .ok (g + planSize (plan c g sizes L)) →
      Marked h1 hp c g sizes (L ++ [a]) ∧
        plan c g sizes (L ++ [a]) =
          plan c g sizes L ++ [(a, g + planSize (plan c g sizes L), za)] := by
  induction sizes with
  | nil => intro c g L _ _ hmem; simp [objectsFrom] at hmem
  | cons z rest ih =>
      intro c g L hm hlt hmem hfr hmk hfw
      rw [objectsFrom_cons] at hmem
      rcases head?_cases L c with ⟨L1, rfl⟩ | hd
      · rw [Marked_cons_live] at hm
        obtain ⟨m1, m2, m3, m4, m5⟩ := hm
        have hca : c < a := hlt c (by simp)
        have hin : (a, za) ∈ objectsFrom (c + 9 + z) rest := by
          rcases List.mem_cons.mp hmem with heq | hin
          · have e1 : a = c := congrArg Prod.fst heq
            omega
          · exact hin
        have hge := (Marked_object h hp a za rest _ _ _ m5 hin).1
        rw [plan_cons_live, planSize_cons] at hfw
        simp only at hfw
        obtain ⟨r1, r2⟩ := ih (c + 9 + z) (g + 9 + z) L1 m5
          (fun x hx => hlt x (List.mem_cons_of_mem _ hx)) hin hfr hmk
          (by rw [hfw]; congr 1; ring)
        rw [List.cons_append, Marked_cons_live, plan_cons_live, plan_cons_live, r2,
          planSize_cons]
        refine ⟨⟨m1, ?_, ?_, ?_, r1⟩, ?_⟩
        · rw [get32_congr h1 h (c + 5) (c + 5) (fun t _ _ => hfr _ (by omega))]; exact m2
        · rw [hfr c (by omega)]; exact m3
        · rw [get32_congr h1 h (c + 1) (c + 1) (fun t _ _ => hfr _ (by omega))]; exact m4
        · simp only [List.cons_append, List.cons.injEq, true_and, List.append_cancel_left_eq,
            Prod.mk.injEq, and_true]
          ring
      · rw [Marked_cons_dead _ _ _ _ _ _ _ hd] at hm
        obtain ⟨m1, m2, m3, m5⟩ := hm
        rw [plan_cons_dead _ _ _ _ _ hd] at hfw ⊢
        by_cases hac : a = c
        · subst hac
          have hza : za = z := by
            rcases List.mem_cons.mp hmem with heq | hin
            · exact congrArg Prod.snd heq
            · have := (Marked_object h hp a za rest _ _ _ m5 hin).1
              omega
          subst hza
          have hL : L = [] := by
            cases L with
            | nil => rfl
            | cons x L1 =>
                have h1 := hlt x (by simp)
                have h2 := ((Marked_bounds h hp rest _ _ _ m5).2.1 x (by simp)).1
                omega
          subst hL
          rw [plan_nil, planSize_nil] at hfw ⊢
          simp only [List.nil_append, add_zero] at hfw ⊢
          rw [Marked_cons_live, plan_cons_live, plan_nil]
          refine ⟨⟨m1, ?_, hmk, hfw, ?_⟩, rfl⟩
          · rw [get32_congr h1 h (a + 5) (a + 5) (fun t _ _ => hfr _ (by omega))]; exact m2
          · exact Marked_congr h h1 hp rest _ _ _ (fun x hx => hfr x (by omega))
              (Marked_nil_live h hp rest _ _ _ m5)
        · have hin : (a, za) ∈ objectsFrom (c + 9 + z) rest := by
            rcases List.mem_cons.mp hmem with heq | hin
            · exact absurd (congrArg Prod.fst heq) hac
            · exact hin
          have hge := (Marked_object h hp a za rest _ _ _ m5 hin).1
          obtain ⟨r1, r2⟩ := ih (c + 9 + z) g L m5 hlt hin hfr hmk hfw
          have hd1 : (L ++ [a]).head? ≠ some c := by
            cases L with
            | nil => simpa using hac
            | cons x L1 => simpa using hd
          rw [Marked_cons_dead _ _ _ _ _ _ _ hd1, plan_cons_dead _ _ _ _ _ hd1]
          refine ⟨⟨m1, ?_, ?_, r1⟩, r2⟩
          · rw [get32_congr h1 h (c + 5) (c + 5) (fun t _ _ => hfr _ (by omega))]; exact m2
          · rw [hfr c (by omega)]; exact m3

/-! ## Garbage collector: pass 1 over all roots -/

theorem liveRoots_cons_null (K : Constants) (hs : List Int) :
    liveRoots K (K.NULL_HEAP_ADDRESS :: hs) = liveRoots K hs := by
  simp [liveRoots]

theorem liveRoots_cons_live (K : Constants) (h : Int) (hs : List Int)
    (hn : h ≠ K.NULL_HEAP_ADDRESS) : liveRoots K (h :: hs) = h :: liveRoots K hs := by
  simp [liveRoots, hn]

theorem planSize_nonneg (h : List Byte) (hp : Int) (sizes : List Int) :
    ∀ (c g : Int) (L : List Int), Marked h hp c g sizes L →
      0 ≤ planSize (plan c g sizes L) := by
  induction sizes with
  | nil => intro c g L _; simp [plan, planSize]
  | cons z rest ih =>
      intro c g L hm
      rcases head?_cases L c with ⟨L1, rfl⟩ | hd
      · rw [Marked_cons_live] at hm
        rw [plan_cons_live, planSize_cons]
        have := ih _ _ _ hm.2.2.2.2
        have := hm.1
        simp only
        omega
      · rw [Marked_cons_dead _ _ _ _ _ _ _ hd] at hm
        rw [plan_cons_dead _ _ _ _ _ hd]
        exact ih _ _ _ hm.2.2.2

/-- The objects marked so far lie below an object that is above all of them, and so does
the end of their plan. -/
theorem plan_below (h : List Byte) (hp a za : Int) (sizes : List Int) :
    ∀ (c g : Int) (L : List Int), Marked h hp c g sizes L → (∀ x ∈ L, x < a) →
      (a, za) ∈ objectsFrom c sizes → c + planSize (plan c g sizes L) ≤ a := by
  induction sizes with
  | nil => intro c g L _ _ hmem; simp [objectsFrom] at hmem
  | cons z rest ih =>
      intro c g L hm hlt hmem
      rw [objectsFrom_cons] at hmem
      rcases head?_cases L c with ⟨L1, rfl⟩ | hd
      · rw [Marked_cons_live] at hm
        obtain ⟨m1, _, _, _, m5⟩ := hm
        have hca : c < a := hlt c (by simp)
        have hin : (a, za) ∈ objectsFrom (c + 9 + z) rest := by
          rcases List.mem_cons.mp hmem with heq | hin
          · have e1 : a = c := congrArg Prod.fst heq
            omega
          · exact hin
        have := ih _ _ _ m5 (fun x hx => hlt x (List.mem_cons_of_mem _ hx)) hin
        rw [plan_cons_live, planSize_cons]
        simp only
        omega
      · rw [Marked_cons_dead _ _ _ _ _ _ _ hd] at hm
        obtain ⟨m1, _, _, m5⟩ := hm
        rw [plan_cons_dead _ _ _ _ _ hd]
        rcases List.mem_cons.mp hmem with heq | hin
        · have e1 : a = c := congrArg Prod.fst heq
          have hL : L = [] := by
            cases L with
            | nil => rfl
            | cons x L1 =>
                have h1 := hlt x (by simp)
                have h2 := ((Marked_bounds h hp rest _ _ _ m5).2.1 x (by simp)).1
                omega
          subst hL
          rw [plan_nil, planSize_nil]
          omega
        · have := ih _ _ _ m5 hlt hin
          omega

theorem markAll_spec (K : Constants) (hp c0 : Int) (sizes : List Int) (hc0 : 0 ≤ c0)
    (hsmall : hp < 2147483648) :
    ∀ (refs : List (Int × CXArgument)) (hs : List Int) (st : Pass1) (Ldone : List Int),
      Marked st.Heap hp c0 c0 sizes Ldone →
      st.faddr = c0 + planSize (plan c0 c0 sizes Ldone) →
      refs.map (fun r => get32 st.Stack (r.1 + r.2.Offset)) = hs.map .ok →
      (refs.map fun r => r.1 + r.2.Offset).Pairwise (fun a b => a + 4 ≤ b ∨ b + 4 ≤ a) →
      (∀ h ∈ hs, h = K.NULL_HEAP_ADDRESS ∨ h ∈ (objectsFrom c0 sizes).map Prod.fst) →
      (Ldone ++ liveRoots K hs).Pairwise (fun a b => a < b) →
      hp ≤ st.Heap.length →
      ∃ st1 F, markAll K st refs = .ok st1 ∧
        Marked st1.Heap hp c0 c0 sizes (Ldone ++ liveRoots K hs) ∧
        plan c0 c0 sizes (Ldone ++ liveRoots K hs) = plan c0 c0 sizes Ldone ++ F ∧
        F.map (fun t => t.1) = liveRoots K hs ∧
        st1.faddr = c0 + planSize (plan c0 c0 sizes (Ldone ++ liveRoots K hs)) ∧
        st1.Heap.length = st.Heap.length ∧ st1.Stack.length = st.Stack.length ∧
        refs.map (fun r => get32 st1.Stack (r.1 + r.2.Offset)) =
          (rewriteRoots K hs F).map .ok ∧
        (∀ x : Int, (∀ r ∈ refs, x < r.1 + r.2.Offset ∨ r.1 + r.2.Offset + 4 ≤ x) →
          index st1.Stack x = index st.Stack x) ∧
        (∀ x : Int, (∀ o ∈ objectsFrom c0 sizes, x < o.1 ∨ o.1 + 5 ≤ x) →
          index st1.Heap x = index st.Heap x) := by
  intro refs
  induction refs with
  | nil =>
      intro hs st Ldone hm hf hr _ _ _ _
      have hhs : hs = [] := by
        cases hs with
        | nil => rfl
        | cons a b => simp at hr
      subst hhs
      refine ⟨st, [], rfl, ?_, ?_, rfl, ?_, rfl, rfl, rfl, fun _ _ => rfl, fun _ _ => rfl⟩
      · simpa [liveRoots] using hm
      · simp [liveRoots]
      · simpa [liveRoots] using hf
  | cons r refs ih =>
      intro hs st Ldone hm hf hr hdis htg hinc hlen
      cases hs with
      | nil => simp at hr
      | cons h hs =>
          simp only [List.map_cons, List.cons.injEq] at hr
          obtain ⟨hroot, hr'⟩ := hr
          simp only [List.map_cons, List.pairwise_cons] at hdis
          obtain ⟨hd1, hd2⟩ := hdis
          have hd1' : ∀ r' ∈ refs, r.1 + r.2.Offset + 4 ≤ r'.1 + r'.2.Offset ∨
              r'.1 + r'.2.Offset + 4 ≤ r.1 + r.2.Offset := by
            intro r' hr1
            exact hd1 _ (List.mem_map_of_mem _ hr1)
          have htg' : ∀ h' ∈ hs, h' = K.NULL_HEAP_ADDRESS ∨
              h' ∈ (objectsFrom c0 sizes).map Prod.fst :=
            fun h' hh => htg h' (List.mem_cons_of_mem _ hh)
          by_cases hn : h = K.NULL_HEAP_ADDRESS
          · subst hn
            rw [liveRoots_cons_null] at hinc ⊢
            obtain ⟨st1, F, r1, r2, r3, r4, r5, r6, r7, r8, r9, r10⟩ :=
              ih hs st Ldone hm hf hr' hd2 htg' hinc hlen
            refine ⟨st1, F, ?_, r2, r3, r4, r5, r6, r7, ?_, ?_, r10⟩
            · simp only [markAll, markRoot_null K r.1 st r.2 hroot, bind, Except.bind]
              exact r1
            · simp only [List.map_cons, rewriteRoots, if_true, List.cons.injEq]
              refine ⟨?_, r8⟩
              rw [← hroot]
              apply get32_congr
              intro t ht0 ht
              apply r9
              intro r' hr1
              have := hd1' r' hr1
              omega
            · intro x hx
              exact r9 x (fun r' hr1 => hx r' (List.mem_cons_of_mem _ hr1))
          · rw [liveRoots_cons_live K h hs hn] at hinc ⊢
            have hobj : ∃ z, (h, z) ∈ objectsFrom c0 sizes := by
              rcases htg h (by simp) with h1 | h1
              · exact absurd h1 hn
              · obtain ⟨o, ho, rfl⟩ := List.mem_map.mp h1
                exact ⟨o.2, ho⟩
            obtain ⟨z, hz⟩ := hobj
            obtain ⟨o1, o2, o3, o4⟩ := Marked_object st.Heap hp h z sizes _ _ _ hm hz
            have hlt : ∀ x ∈ Ldone, x < h := by
              intro x hx
              exact (List.pairwise_append.mp hinc).2.2 x hx h (by simp)
            have hbel := plan_below st.Heap hp h z sizes _ _ _ hm hlt hz
            have hnn := planSize_nonneg st.Heap hp sizes _ _ _ hm
            obtain ⟨heap1, stack1, q1, q2, q3, q4, q5, q6, q7, q8⟩ :=
              markRoot_live K r.1 st r.2 h z hroot hn (by omega) (by omega) o4 o3
                (by omega) (by omega)
            rw [hf] at q5
            obtain ⟨s1, s2⟩ := Marked_snoc st.Heap heap1 hp h z sizes _ _ _ hm hlt hz q6 q4 q5
            have hinc' : ((Ldone ++ [h]) ++ liveRoots K hs).Pairwise (fun a b => a < b) := by
              simpa using hinc
            have hr1 : refs.map (fun r' => get32 stack1 (r'.1 + r'.2.Offset)) = hs.map .ok := by
              rw [← hr']
              apply List.map_congr_left
              intro r' hr1
              apply get32_congr
              intro t ht0 ht
              apply q8
              have := hd1' r' hr1
              omega
            obtain ⟨st1, F, r1, r2, r3, r4, r5, r6, r7, r8, r9, r10⟩ :=
              ih hs ⟨stack1, heap1, st.faddr + 9 + z⟩ (Ldone ++ [h]) s1
                (by simp only; rw [s2, planSize_append, planSize_cons, planSize_nil, hf]
                    simp only; ring)
                hr1 hd2 htg' hinc' (by simp only; omega)
            have happ : Ldone ++ h :: liveRoots K hs = (Ldone ++ [h]) ++ liveRoots K hs := by
              simp
            refine ⟨st1, (h, st.faddr, z) :: F, ?_, ?_, ?_, ?_, ?_, ?_, ?_, ?_, ?_, ?_⟩
            · simp only [markAll, q1, bind, Except.bind]
              exact r1
            · rw [happ]; exact r2
            · rw [happ, r3, s2, hf]; simp
            · simp [r4]
            · rw [happ]; exact r5
            · rw [r6]; exact q2
            · rw [r7]; exact q3
            · simp only [List.map_cons, rewriteRoots, hn, if_false, List.cons.injEq]
              refine ⟨?_, r8⟩
              rw [← q7]
              apply get32_congr
              intro t ht0 ht
              apply r9
              intro r' hr1
              have := hd1' r' hr1
              omega
            · intro x hx
              rw [r9 x (fun r' hr1 => hx r' (List.mem_cons_of_mem _ hr1))]
              exact q8 x (by have := hx r (by simp); omega)
            · intro x hx
              rw [r10 x hx]
              exact q6 x (hx (h, z) hz)

/-! ## Garbage collector: pass 2 -/

/-- Every entry of the plan is an object of the walk whose address is live. -/
theorem plan_mem (h : List Byte) (hp : Int) (sizes : List Int) :
    ∀ (c g : Int) (L : List Int), Marked h hp c g sizes L →
      ∀ t ∈ plan c g sizes L, c ≤ t.1 ∧ (t.1, t.2.2) ∈ objectsFrom c sizes ∧ t.1 ∈ L := by
  induction sizes with
  | nil => intro c g L _ t ht; simp [plan] at ht
  | cons z rest ih =>
      intro c g L hm t ht
      rw [objectsFrom_cons]
      rcases head?_cases L c with ⟨L1, rfl⟩ | hd
      · rw [Marked_cons_live] at hm
        rw [plan_cons_live] at ht
        rcases List.mem_cons.mp ht with rfl | ht1
        · exact ⟨by simp, by simp, by simp⟩
        · obtain ⟨i1, i2, i3⟩ := ih _ _ _ hm.2.2.2.2 t ht1
          have := hm.1
          exact ⟨by omega, List.mem_cons_of_mem _ i2, List.mem_cons_of_mem _ i3⟩
      · rw [Marked_cons_dead _ _ _ _ _ _ _ hd] at hm
        rw [plan_cons_dead _ _ _ _ _ hd] at ht
        obtain ⟨i1, i2, i3⟩ := ih _ _ _ hm.2.2.2 t ht
        have := hm.1
        exact ⟨by omega, List.mem_cons_of_mem _ i2, i3⟩

theorem get32_total (m : List Byte) (a : Int) (h0 : 0 ≤ a) (h1 : a + 4 ≤ m.length) :
    ∃ bs v, slice m a (a + 4) = .ok bs ∧ DeserializeAtomicI32 bs = .ok v := by
  have := get32_eq_ok m a h0 h1
  obtain ⟨bs, e1, e2⟩ := (get32_ok_iff _ _ _).mp this
  exact ⟨bs, _, e1, e2⟩

/-- Pass 2 on a heap marked by pass 1 in heap order: it ends with `newHeapPointer` at the
end of the plan; every planned object sits at its new address with mark 0, its forwarding
slot holding that address, its size and its payload; bytes below the first new address and
from `hp` on are untouched. -/
theorem relocate_spec (hp : Int) (hsmall : hp < 2147483648) :
    ∀ (sizes : List Int) (c g : Int) (L : List Int) (h : List Byte) (fuel : Nat),
      Marked h hp c g sizes L → 0 ≤ g → g ≤ c → hp ≤ h.length → sizes.length ≤ fuel →
      ∃ h1, relocate hp fuel c h g = .ok (h1, g + planSize (plan c g sizes L)) ∧
        h1.length = h.length ∧
        (∀ x : Int, x < g ∨ hp ≤ x → index h1 x = index h x) ∧
        (∀ t ∈ plan c g sizes L,
          index h1 t.2.1 = .ok 0 ∧ get32 h1 (t.2.1 + 1) = .ok t.2.1 ∧
            get32 h1 (t.2.1 + 5) = .ok t.2.2 ∧
            ∀ i : Int, 0 ≤ i → i < t.2.2 → index h1 (t.2.1 + 9 + i) = index h (t.1 + 9 + i)) := by
  intro sizes
  induction sizes with
  | nil =>
      intro c g L h fuel hm _ _ _ _
      obtain ⟨e1, e2⟩ := hm
      subst e1 e2
      refine ⟨h, ?_, rfl, fun _ _ => rfl, ?_⟩
      · cases fuel <;> simp [relocate, plan, planSize]
      · intro t ht; simp [plan] at ht
  | cons z rest ih =>
      intro c g L h fuel hm hg hgc hlen hfuel
      cases fuel with
      | zero => simp at hfuel
      | succ fuel =>
          simp only [List.length_cons, Nat.add_le_add_iff_right] at hfuel
          have hM : MARK_SIZE = 1 := rfl
          have hF : FORWARDING_ADDRESS_SIZE = 4 := rfl
          have hO : OBJECT_SIZE = 4 := rfl
          have hH : OBJECT_HEADER_SIZE = 9 := rfl
          have hadd : c + (9 + z) = c + 9 + z := by ring
          have hadd2 : g + (9 + z) = g + 9 + z := by ring
          rcases head?_cases L c with ⟨L1, rfl⟩ | hd
          · rw [Marked_cons_live] at hm
            obtain ⟨m1, m2, m3, m4, m5⟩ := hm
            have hb := (Marked_bounds h hp rest _ _ _ m5).1
            obtain ⟨fb, f1, f2⟩ := (get32_ok_iff _ _ _).mp m4
            obtain ⟨sb, s1, s2⟩ := (get32_ok_iff _ _ _).mp m2
            have s1' : slice h (c + 1 + 4) (c + 1 + 4 + 4) = .ok sb := by
              rw [← s1]; congr 1 <;> ring
            have hst := store_eq_ok h c 0 (by omega) (by omega)
            have e31 : toInt32 c = c := toInt32_of_range _ (by omega) (by omega)
            have e32 : toInt32 (9 + z) = 9 + z := toInt32_of_range _ (by omega) (by omega)
            obtain ⟨h2, c1, c2, c3, c4⟩ := copyLoop_spec g c (h.set c.toNat 0) hg hgc
              (9 + z).toNat 0 (h.set c.toNat 0) (by omega)
              (by simp only [List.length_set]; omega) (by omega) rfl
              (fun t ht0 ht => absurd ht (by omega)) (fun _ _ => rfl)
            simp only [List.length_set] at c2
            have hA : ∀ x : Int, x ≠ c → index (h.set c.toNat 0) x = index h x := by
              intro x hx
              rw [index_set h c x 0 (by omega) (by omega), if_neg hx]
            have hm5 : Marked h2 hp (c + 9 + z) (g + 9 + z) rest L1 := by
              apply Marked_congr h h2 hp rest _ _ _ _ m5
              intro x hx
              rw [c4 x (Or.inr (by omega)), hA x (by omega)]
            obtain ⟨h1, r1, r2, r3, r4⟩ := ih (c + 9 + z) (g + 9 + z) L1 h2 fuel hm5
              (by omega) (by omega) (by omega) hfuel
            refine ⟨h1, ?_, by omega, ?_, ?_⟩
            · have hlt : c < hp := by omega
              simp only [relocate, hlt, if_true, hM, hF, hO, hH, f1, f2, s1', s2, m3, hst, e31, e32,
                c1, bind, Except.bind, hadd, hadd2]
              rw [r1, plan_cons_live, planSize_cons]
              exact congrArg (fun v => Except.ok (h1, v)) (by simp only; ring)
            · intro x hx
              rw [r3 x (by omega), c4 x (by omega), hA x (by omega)]
            · intro t ht
              rw [plan_cons_live] at ht
              rcases List.mem_cons.mp ht with rfl | ht1
              · simp only
                refine ⟨?_, ?_, ?_, ?_⟩
                · rw [r3 g (Or.inl (by omega))]
                  have := c3 0 (by omega) (by omega)
                  simp only [add_zero] at this
                  rw [this, index_set h c c 0 (by omega) (by omega), if_pos rfl]
                · rw [← m4]
                  apply get32_congr
                  intro t ht0 ht4
                  rw [r3 _ (Or.inl (by omega))]
                  have := c3 (1 + t) (by omega) (by omega)
                  rw [show g + 1 + t = g + (1 + t) by ring, this,
                    show c + (1 + t) = c + 1 + t by ring]
                  exact hA _ (by omega)
                · rw [← m2]
                  apply get32_congr
                  intro t ht0 ht4
                  rw [r3 _ (Or.inl (by omega))]
                  have := c3 (5 + t) (by omega) (by omega)
                  rw [show g + 5 + t = g + (5 + t) by ring, this,
                    show c + (5 + t) = c + 5 + t by ring]
                  exact hA _ (by omega)
                · intro i hi0 hi
                  rw [r3 _ (Or.inl (by omega))]
                  have := c3 (9 + i) (by omega) (by omega)
                  rw [show g + 9 + i = g + (9 + i) by ring, this,
                    show c + (9 + i) = c + 9 + i by ring]
                  exact hA _ (by omega)
              · obtain ⟨q1, q2, q3, q4⟩ := r4 t ht1
                refine ⟨q1, q2, q3, ?_⟩
                intro i hi0 hi
                have hge := (plan_mem h2 hp rest _ _ _ hm5 t ht1).1
                rw [q4 i hi0 hi, c4 _ (Or.inr (by omega)), hA _ (by omega)]
          · rw [Marked_cons_dead _ _ _ _ _ _ _ hd] at hm
            obtain ⟨m1, m2, m3, m5⟩ := hm
            have hb := (Marked_bounds h hp rest _ _ _ m5).1
            obtain ⟨fb, fv, f1, f2⟩ := get32_total h (c + 1) (by omega) (by omega)
            obtain ⟨sb, s1, s2⟩ := (get32_ok_iff _ _ _).mp m2
            have s1' : slice h (c + 1 + 4) (c + 1 + 4 + 4) = .ok sb := by
              rw [← s1]; congr 1 <;> ring
            obtain ⟨h1, r1, r2, r3, r4⟩ := ih (c + 9 + z) g L h fuel m5 hg (by omega) hlen hfuel
            refine ⟨h1, ?_, r2, r3, ?_⟩
            · have hlt : c < hp := by omega
              have hne : ¬ ((0 : Byte) = 1) := by decide
              simp only [relocate, hlt, if_true, hM, hF, hO, hH, f1, f2, s1', s2, m3, hne,
                if_false, bind, Except.bind, hadd]
              rw [r1, plan_cons_dead _ _ _ _ _ hd]
            · intro t ht
              rw [plan_cons_dead _ _ _ _ _ hd] at ht
              exact r4 t ht

/-! ## Garbage collector: the whole cycle -/

theorem markRoots_eq_markAll (K : Constants) (fp : Int) (ptrs : List CXArgument) :
    ∀ st : Pass1, markRoots K fp st ptrs = markAll K st (ptrs.map fun ptr => (fp, ptr)) := by
  induction ptrs with
  | nil => intro st; rfl
  | cons p rest ih =>
      intro st
      simp only [markRoots, markAll, List.map_cons, bind, Except.bind]
      cases markRoot K fp st p with
      | error e => rfl
      | ok st1 => exact ih st1

theorem markAll_append (K : Constants) (a b : List (Int × CXArgument)) :
    ∀ st : Pass1, markAll K st (a ++ b) = (markAll K st a >>= fun st1 => markAll K st1 b) := by
  induction a with
  | nil => intro st; rfl
  | cons r rest ih =>
      intro st
      simp only [List.cons_append, markAll, bind, Except.bind]
      cases markRoot K r.1 st r.2 with
      | error e => rfl
      | ok st1 => exact ih st1

theorem markFrames_eq_markAll (K : Constants) (cs : List CXCall) :
    ∀ (n c : Nat) (fp : Int) (st : Pass1), c + n ≤ cs.length →
      markFrames K cs n c fp st = markAll K st (rootRefs ((cs.drop c).take n) fp) := by
  intro n
  induction n with
  | zero => intro c fp st _; simp [markFrames, rootRefs, markAll]
  | succ n ih =>
      intro c fp st hle
      have hc : c < cs.length := by omega
      rw [List.drop_eq_getElem_cons hc, List.take_succ_cons]
      simp only [markFrames, List.getElem?_eq_getElem hc, rootRefs, markAll_append,
        markRoots_eq_markAll, bind, Except.bind]
      cases markAll K st (cs[c].Operator.ListOfPointers.map fun ptr => (fp, ptr)) with
      | error e => rfl
      | ok st1 => exact ih (c + 1) _ st1 (by omega)

theorem markPass_eq_markAll (K : Constants) (prgrm : CXProgram)
    (hfr : (prgrm.CallCounter + 1).toNat ≤ prgrm.CallStack.length) :
    markPass K prgrm = markAll K ⟨prgrm.Stack, prgrm.Heap.Heap, K.NULL_HEAP_ADDRESS_OFFSET⟩
      (rootRefs (prgrm.CallStack.take (prgrm.CallCounter + 1).toNat) 0) := by
  unfold markPass
  rw [markFrames_eq_markAll K prgrm.CallStack _ 0 0 _ (by omega), List.drop_zero]

/-- The objects of a walk do not overlap. -/
theorem objectsFrom_disjoint (h : List Byte) (hp : Int) (sizes : List Int) :
    ∀ (c g : Int) (L : List Int), Marked h hp c g sizes L →
      ∀ o ∈ objectsFrom c sizes, ∀ o1 ∈ objectsFrom c sizes,
        o = o1 ∨ o.1 + 9 + o.2 ≤ o1.1 ∨ o1.1 + 9 + o1.2 ≤ o.1 := by
  induction sizes with
  | nil => intro c g L _ o ho; simp [objectsFrom] at ho
  | cons z rest ih =>
      intro c g L hm o ho o1 ho1
      rw [objectsFrom_cons] at ho ho1
      have key : ∃ g1 L1, Marked h hp (c + 9 + z) g1 rest L1 := by
        rcases head?_cases L c with ⟨L1, rfl⟩ | hd
        · rw [Marked_cons_live] at hm
          exact ⟨_, _, hm.2.2.2.2⟩
        · rw [Marked_cons_dead _ _ _ _ _ _ _ hd] at hm
          exact ⟨_, _, hm.2.2.2⟩
      obtain ⟨g1, L1, k3⟩ := key
      rcases List.mem_cons.mp ho with rfl | hin
      · rcases List.mem_cons.mp ho1 with rfl | hin1
        · exact Or.inl rfl
        · have := (Marked_object h hp o1.1 o1.2 rest _ _ _ k3 hin1).1
          exact Or.inr (Or.inl (by simpa using this))
      · rcases List.mem_cons.mp ho1 with rfl | hin1
        · have := (Marked_object h hp o.1 o.2 rest _ _ _ k3 hin).1
          exact Or.inr (Or.inr (by simpa using this))
        · exact ih _ _ _ k3 o hin o1 hin1

/-- More fuel does not change a result of the relocation loop. -/
theorem relocate_fuel_mono (hp : Int) (r : List Byte × Int) :
    ∀ (fuel k : Nat) (c : Int) (h : List Byte) (g : Int),
      relocate hp fuel c h g = .ok r → relocate hp (fuel + k) c h g = .ok r := by
  intro fuel
  induction fuel with
  | zero =>
      intro k c h g hr
      by_cases hc : c < hp
      · simp [relocate, hc] at hr
      · simp only [relocate, hc, if_false] at hr
        cases k <;> simp [relocate, hc, hr]
  | succ fuel ih =>
      intro k c h g hr
      have e : fuel + 1 + k = (fuel + k) + 1 := by omega
      rw [e]
      by_cases hc : c < hp
      · simp only [relocate, hc, if_true, bind, Except.bind] at hr ⊢
        cases e1 : slice h (c + MARK_SIZE) (c + MARK_SIZE + FORWARDING_ADDRESS_SIZE) with
        | error e => rw [e1] at hr; cases hr
        | ok fb =>
          rw [e1] at hr
          simp only at hr ⊢
          cases e2 : DeserializeAtomicI32 fb with
          | error e => rw [e2] at hr; cases hr
          | ok fa =>
            rw [e2] at hr
            simp only at hr ⊢
            cases e3 : slice h (c + MARK_SIZE + FORWARDING_ADDRESS_SIZE)
                (c + MARK_SIZE + FORWARDING_ADDRESS_SIZE + OBJECT_SIZE) with
            | error e => rw [e3] at hr; cases hr
            | ok sb =>
              rw [e3] at hr
              simp only at hr ⊢
              cases e4 : DeserializeAtomicI32 sb with
              | error e => rw [e4] at hr; cases hr
              | ok z =>
                rw [e4] at hr
                simp only at hr ⊢
                cases e5 : index h c with
                | error e => rw [e5] at hr; cases hr
                | ok mk =>
                  rw [e5] at hr
                  simp only at hr ⊢
                  by_cases hmk : mk = 1
                  · simp only [hmk, if_true] at hr ⊢
                    cases e6 : store h c 0 with
                    | error e => rw [e6] at hr; cases hr
                    | ok ha =>
                      rw [e6] at hr
                      simp only at hr ⊢
                      cases e7 : copyLoop fa (toInt32 c)
                          (toInt32 (OBJECT_HEADER_SIZE + z)).toNat 0 ha with
                      | error e => rw [e7] at hr; cases hr
                      | ok hb =>
                        rw [e7] at hr
                        simp only at hr ⊢
                        exact ih k _ _ _ hr
                  · simp only [hmk, if_false] at hr ⊢
                    exact ih k _ _ _ hr
      · simp only [relocate, hc, if_false] at hr ⊢
        exact hr

/-- What one cycle of `MarkAndCompact` does on a well-formed heap whose roots are visited in
heap order, in terms of the relocation plan of the live objects. -/
theorem MarkAndCompact_spec (K : Constants) (prgrm : CXProgram) (sizes hs : List Int)
    (wf : WellFormed K prgrm sizes hs) (ord : InHeapOrder K prgrm hs) :
    ∃ st heap1,
      markPass K prgrm = .ok st ∧
      st.faddr = K.NULL_HEAP_ADDRESS_OFFSET + planSize
        (plan K.NULL_HEAP_ADDRESS_OFFSET K.NULL_HEAP_ADDRESS_OFFSET sizes (liveRoots K hs)) ∧
      (∀ fuel : Nat, sizes.length ≤ fuel → MarkAndCompact K fuel prgrm =
        .ok { prgrm with
              Stack := st.Stack
              Heap := ⟨heap1, K.NULL_HEAP_ADDRESS_OFFSET + planSize
                (plan K.NULL_HEAP_ADDRESS_OFFSET K.NULL_HEAP_ADDRESS_OFFSET sizes
                  (liveRoots K hs))⟩ }) ∧
      Marked st.Heap prgrm.Heap.HeapPointer K.NULL_HEAP_ADDRESS_OFFSET
        K.NULL_HEAP_ADDRESS_OFFSET sizes (liveRoots K hs) ∧
      (plan K.NULL_HEAP_ADDRESS_OFFSET K.NULL_HEAP_ADDRESS_OFFSET sizes (liveRoots K hs)).map
        (fun t => t.1) = liveRoots K hs ∧
      st.Stack.length = prgrm.Stack.length ∧ heap1.length = prgrm.Heap.Heap.length ∧
      (rootSlots prgrm).map (get32 st.Stack) =
        (rewriteRoots K hs (plan K.NULL_HEAP_ADDRESS_OFFSET K.NULL_HEAP_ADDRESS_OFFSET sizes
          (liveRoots K hs))).map .ok ∧
      (∀ x : Int, (∀ s ∈ rootSlots prgrm, x < s ∨ s + 4 ≤ x) →
        index st.Stack x = index prgrm.Stack x) ∧
      (∀ t ∈ plan K.NULL_HEAP_ADDRESS_OFFSET K.NULL_HEAP_ADDRESS_OFFSET sizes (liveRoots K hs),
        index heap1 t.2.1 = .ok 0 ∧ get32 heap1 (t.2.1 + 1) = .ok t.2.1 ∧
          get32 heap1 (t.2.1 + 5) = .ok t.2.2 ∧
          ∀ i : Int, 0 ≤ i → i < t.2.2 →
            index heap1 (t.2.1 + 9 + i) = index prgrm.Heap.Heap (t.1 + 9 + i)) ∧
      (∀ x : Int, x < K.NULL_HEAP_ADDRESS_OFFSET ∨ prgrm.Heap.HeapPointer ≤ x →
        index heap1 x = index prgrm.Heap.Heap x) := by
  obtain ⟨w1, w2, w3, w4, w5, w6⟩ := wf
  obtain ⟨o1, o2, o3⟩ := ord
  have hm0 := (Layout_iff_Marked _ _ sizes K.NULL_HEAP_ADDRESS_OFFSET
    K.NULL_HEAP_ADDRESS_OFFSET).mp w3
  have hroots : (rootRefs (prgrm.CallStack.take (prgrm.CallCounter + 1).toNat) 0).map
      (fun r => get32 prgrm.Stack (r.1 + r.2.Offset)) = hs.map .ok := by
    rw [← w5]; unfold rootSlots; rw [List.map_map]; rfl
  obtain ⟨st, F, r1, r2, r3, r4, r5, r6, r7, r8, r9, r10⟩ :=
    markAll_spec K prgrm.Heap.HeapPointer K.NULL_HEAP_ADDRESS_OFFSET sizes w1 o1
      (rootRefs (prgrm.CallStack.take (prgrm.CallCounter + 1).toNat) 0) hs
      ⟨prgrm.Stack, prgrm.Heap.Heap, K.NULL_HEAP_ADDRESS_OFFSET⟩ [] hm0
      (by simp [plan_nil, planSize_nil]) hroots o2 w6 (by simpa using o3) w2
  simp only [List.nil_append, plan_nil] at r2 r3 r5
  simp only at r6 r7 r9 r10
  obtain ⟨heap1, q1, q2, q3, q4⟩ := relocate_spec prgrm.Heap.HeapPointer o1 sizes
    K.NULL_HEAP_ADDRESS_OFFSET K.NULL_HEAP_ADDRESS_OFFSET (liveRoots K hs) st.Heap
    sizes.length r2 w1 (le_refl _) (by omega) (le_refl _)
  have hma := markPass_eq_markAll K prgrm w4
  have hslots : (rootSlots prgrm).map (get32 st.Stack) =
      (rootRefs (prgrm.CallStack.take (prgrm.CallCounter + 1).toNat) 0).map
        (fun r => get32 st.Stack (r.1 + r.2.Offset)) := by
    unfold rootSlots; rw [List.map_map]; rfl
  refine ⟨st, heap1, by rw [hma]; exact r1, r5, ?_, r2, ?_, r7, by omega, ?_, ?_, ?_, ?_⟩
  · intro fuel hfuel
    have hq := relocate_fuel_mono prgrm.Heap.HeapPointer _ sizes.length (fuel - sizes.length)
      _ _ _ q1
    rw [show sizes.length + (fuel - sizes.length) = fuel by omega] at hq
    simp only [MarkAndCompact, hma, r1, hq, bind, Except.bind, pure, Except.pure]
  · rw [r3]; exact r4
  · rw [hslots, r8, r3]
  · intro x hx
    apply r9
    intro r hr
    exact hx _ (List.mem_map_of_mem (fun r => r.1 + r.2.Offset) hr)
  · intro t ht
    obtain ⟨p1, p2, p3, p4⟩ := q4 t ht
    refine ⟨p1, p2, p3, ?_⟩
    intro i hi0 hi
    rw [p4 i hi0 hi]
    apply r10
    intro o ho
    obtain ⟨_, hin, _⟩ := plan_mem st.Heap _ sizes _ _ _ r2 t ht
    have hdis := objectsFrom_disjoint st.Heap _ sizes _ _ _ r2 o ho (t.1, t.2.2) hin
    rcases hdis with rfl | hdis | hdis
    · simp only; omega
    · simp only at hdis; have := (Marked_object st.Heap _ o.1 o.2 sizes _ _ _ r2 ho).2.2.1; omega
    · simp only at hdis; omega
  · intro x hx
    rw [q3 x hx]
    apply r10
    intro o ho
    obtain ⟨b1, b2, b3, _⟩ := Marked_object st.Heap _ o.1 o.2 sizes _ _ _ r2 ho
    omega

/-! ## Garbage collector: the compacted heap and the rewritten roots -/

/-- The new addresses of a plan are contiguous from `g`. -/
theorem plan_contiguous (sizes : List Int) :
    ∀ (c g : Int) (L : List Int),
      objectsFrom g ((plan c g sizes L).map fun t => t.2.2) =
        (plan c g sizes L).map fun t => (t.2.1, t.2.2) := by
  induction sizes with
  | nil => intro c g L; rfl
  | cons z rest ih =>
      intro c g L
      rcases head?_cases L c with ⟨L1, rfl⟩ | hd
      · rw [plan_cons_live]
        simp only [List.map_cons, objectsFrom_cons, ih]
      · rw [plan_cons_dead _ _ _ _ _ hd]
        exact ih _ _ _

/-- The plan lists exactly the objects of the walk whose address is live. -/
theorem plan_eq_filter (h : List Byte) (hp : Int) (sizes : List Int) :
    ∀ (c g : Int) (L : List Int), Marked h hp c g sizes L →
      (plan c g sizes L).map (fun t => (t.1, t.2.2)) =
        (objectsFrom c sizes).filter fun o => o.1 ∈ L := by
  induction sizes with
  | nil => intro c g L _; rfl
  | cons z rest ih =>
      intro c g L hm
      rw [objectsFrom_cons]
      rcases head?_cases L c with ⟨L1, rfl⟩ | hd
      · rw [Marked_cons_live] at hm
        obtain ⟨m1, _, _, _, m5⟩ := hm
        rw [plan_cons_live, List.map_cons, List.filter_cons_of_pos (by simp), ih _ _ _ m5]
        congr 1
        apply List.filter_congr
        intro o ho
        have := (Marked_object h hp o.1 o.2 rest _ _ _ m5 ho).1
        have hne : o.1 ≠ c := by omega
        simp [hne]
      · rw [Marked_cons_dead _ _ _ _ _ _ _ hd] at hm
        obtain ⟨m1, _, _, m5⟩ := hm
        have hc : c ∉ L := by
          intro hin
          have := ((Marked_bounds h hp rest _ _ _ m5).2.1 c hin).1
          omega
        rw [plan_cons_dead _ _ _ _ _ hd, List.filter_cons_of_neg (by simpa using hc)]
        exact ih _ _ _ m5

/-- The compacted heap is laid out as the plan says. -/
theorem Layout_of_plan (h1 : List Byte) (F : List (Int × Int × Int)) :
    ∀ g : Int, objectsFrom g (F.map fun t => t.2.2) = F.map (fun t => (t.2.1, t.2.2)) →
      (∀ t ∈ F, 0 ≤ t.2.2 ∧ index h1 t.2.1 = .ok 0 ∧ get32 h1 (t.2.1 + 5) = .ok t.2.2) →
      Layout h1 (g + planSize F) g (F.map fun t => t.2.2) := by
  induction F with
  | nil => intro g _ _; simp [Layout, planSize]
  | cons t F ih =>
      intro g hc hf
      simp only [List.map_cons, objectsFrom_cons, List.cons.injEq, Prod.mk.injEq, and_true] at hc
      obtain ⟨hg, hc1⟩ := hc
      obtain ⟨f1, f2, f3⟩ := hf t (by simp)
      rw [List.map_cons, Layout_cons, planSize_cons]
      rw [hg] at hc1 ⊢
      refine ⟨f1, f2, f3, ?_⟩
      have := ih _ hc1 (fun t1 ht1 => hf t1 (List.mem_cons_of_mem _ ht1))
      rw [show t.2.1 + (9 + t.2.2 + planSize F) = t.2.1 + 9 + t.2.2 + planSize F by ring]
      exact this

/-- The addresses of the objects of a walk increase. -/
theorem objectsFrom_increasing (zs : List Int) :
    ∀ c : Int, (∀ z ∈ zs, 0 ≤ z) →
      ((objectsFrom c zs).map Prod.fst).Pairwise (fun a b => a < b) ∧
        ∀ a ∈ (objectsFrom c zs).map Prod.fst, c ≤ a := by
  induction zs with
  | nil => intro c _; simp [objectsFrom]
  | cons z rest ih =>
      intro c hz
      obtain ⟨i1, i2⟩ := ih (c + 9 + z) (fun z1 h1 => hz z1 (List.mem_cons_of_mem _ h1))
      have hz0 := hz z (by simp)
      rw [objectsFrom_cons, List.map_cons, List.pairwise_cons]
      refine ⟨⟨?_, i1⟩, ?_⟩
      · intro a ha
        have := i2 a ha
        simp only
        omega
      · intro a ha
        rcases List.mem_cons.mp ha with rfl | ha1
        · simp
        · have := i2 a ha1
          omega

/-- When every object of a walk is live, the plan from the start of the walk moves
nothing. -/
theorem plan_all (zs : List Int) :
    ∀ c : Int, (∀ z ∈ zs, 0 ≤ z) →
      plan c c zs ((objectsFrom c zs).map Prod.fst) =
        (objectsFrom c zs).map fun o => (o.1, o.1, o.2) := by
  induction zs with
  | nil => intro c _; rfl
  | cons z rest ih =>
      intro c hz
      rw [objectsFrom_cons, List.map_cons, List.map_cons]
      simp only
      rw [plan_cons_live, ih _ (fun z1 h1 => hz z1 (List.mem_cons_of_mem _ h1))]

theorem planSize_eq_of_sizes (F G : List (Int × Int × Int))
    (h : F.map (fun t => t.2.2) = G.map (fun t => t.2.2)) : planSize F = planSize G := by
  unfold planSize
  have e : ∀ H : List (Int × Int × Int),
      H.map (fun t => 9 + t.2.2) = (H.map fun t => t.2.2).map fun z => 9 + z := by
    intro H; rw [List.map_map]; rfl
  rw [e F, e G, h]

/-- The value a non-null root takes is the new address of the plan entry of its object. -/
theorem rewriteRoots_get (K : Constants) :
    ∀ (hs : List Int) (F : List (Int × Int × Int)) (k : Nat) (h : Int),
      F.map (fun t => t.1) = liveRoots K hs → hs[k]? = some h → h ≠ K.NULL_HEAP_ADDRESS →
      ∃ t ∈ F, t.1 = h ∧ (rewriteRoots K hs F)[k]? = some t.2.1 := by
  intro hs
  induction hs with
  | nil => intro F k h _ hk; simp at hk
  | cons h0 hs ih =>
      intro F k h hF hk hn
      by_cases h0n : h0 = K.NULL_HEAP_ADDRESS
      · subst h0n
        rw [liveRoots_cons_null] at hF
        cases k with
        | zero =>
            simp only [List.getElem?_cons_zero, Option.some.injEq] at hk
            exact absurd hk.symm hn
        | succ k =>
            simp only [List.getElem?_cons_succ] at hk
            obtain ⟨t, t1, t2, t3⟩ := ih F k h hF hk hn
            exact ⟨t, t1, t2, by simp [rewriteRoots, t3]⟩
      · rw [liveRoots_cons_live K h0 hs h0n] at hF
        cases F with
        | nil => simp at hF
        | cons t F1 =>
            simp only [List.map_cons, List.cons.injEq] at hF
            cases k with
            | zero =>
                simp only [List.getElem?_cons_zero, Option.some.injEq] at hk
                subst hk
                exact ⟨t, by simp, hF.1, by simp [rewriteRoots, h0n]⟩
            | succ k =>
                simp only [List.getElem?_cons_succ] at hk
                obtain ⟨t1, u1, u2, u3⟩ := ih F1 k h hF.2 hk hn
                exact ⟨t1, List.mem_cons_of_mem _ u1, u2, by simp [rewriteRoots, h0n, u3]⟩

/-- The rewritten roots are null or new addresses of the plan, and the non-null ones are
the new addresses of the plan in order. -/
theorem rewriteRoots_live (K : Constants) :
    ∀ (hs : List Int) (F : List (Int × Int × Int)),
      F.map (fun t => t.1) = liveRoots K hs → (∀ t ∈ F, t.2.1 ≠ K.NULL_HEAP_ADDRESS) →
      liveRoots K (rewriteRoots K hs F) = F.map (fun t => t.2.1) ∧
        (rewriteRoots K hs F).length = hs.length := by
  intro hs
  induction hs with
  | nil =>
      intro F hF _
      cases F with
      | nil => simp [rewriteRoots, liveRoots]
      | cons t F1 => simp [liveRoots] at hF
  | cons h0 hs ih =>
      intro F hF hne
      by_cases h0n : h0 = K.NULL_HEAP_ADDRESS
      · subst h0n
        rw [liveRoots_cons_null] at hF
        obtain ⟨i1, i2⟩ := ih F hF hne
        simp only [rewriteRoots, if_true, liveRoots_cons_null, i1, List.length_cons, i2,
          and_self]
      · rw [liveRoots_cons_live K h0 hs h0n] at hF
        cases F with
        | nil => simp at hF
        | cons t F1 =>
            simp only [List.map_cons, List.cons.injEq] at hF
            obtain ⟨i1, i2⟩ := ih F1 hF.2 (fun t1 h1 => hne t1 (List.mem_cons_of_mem _ h1))
            have ht := hne t (by simp)
            simp only [rewriteRoots, h0n, if_false, liveRoots_cons_live K t.2.1 _ ht, i1,
              List.map_cons, List.length_cons, i2, and_self]

/-- A plan that moves nothing leaves the roots as they are. -/
theorem rewriteRoots_id (K : Constants) :
    ∀ (hs : List Int) (F : List (Int × Int × Int)),
      F.map (fun t => t.1) = liveRoots K hs → (∀ t ∈ F, t.2.1 = t.1) →
      rewriteRoots K hs F = hs := by
  intro hs
  induction hs with
  | nil => intro F _ _; rfl
  | cons h0 hs ih =>
      intro F hF hid
      by_cases h0n : h0 = K.NULL_HEAP_ADDRESS
      · subst h0n
        rw [liveRoots_cons_null] at hF
        simp only [rewriteRoots, if_true, ih F hF hid]
      · rw [liveRoots_cons_live K h0 hs h0n] at hF
        cases F with
        | nil => simp at hF
        | cons t F1 =>
            simp only [List.map_cons, List.cons.injEq] at hF
            have := hid t (by simp)
            simp only [rewriteRoots, h0n, if_false, this, hF.1,
              ih F1 hF.2 (fun t1 h1 => hid t1 (List.mem_cons_of_mem _ h1))]

/-! ## Example states are well formed -/

set_option maxRecDepth 100000 in
theorem threeObjects_wellFormed :
    WellFormed exampleConstants threeObjects [10, 10, 10] [23] :=
  ⟨by decide, by decide, by decide, by decide, by decide, by decide⟩

set_option maxRecDepth 100000 in
theorem threeObjects_inHeapOrder : InHeapOrder exampleConstants threeObjects [23] :=
  ⟨by decide, by decide, by decide⟩

set_option maxRecDepth 100000 in
theorem reversedRoots_wellFormed :
    WellFormed exampleConstants reversedRoots [10, 10] [23, 4] :=
  ⟨by decide, by decide, by decide, by decide, by decide, by decide⟩

set_option maxRecDepth 100000 in
theorem aliasedRoots_wellFormed :
    WellFormed exampleConstants aliasedRoots [1, 3] [4, 4] :=
  ⟨by decide, by decide, by decide, by decide, by decide, by decide⟩

/-! ## Garbage collector: properties of one cycle -/

theorem slice_congr (m1 m2 : List Byte) (a b n : Int) (hn : 0 ≤ n)
    (ha : 0 ≤ a) (ha1 : a + n ≤ m1.length) (hb : 0 ≤ b) (hb1 : b + n ≤ m2.length)
    (h : ∀ i : Int, 0 ≤ i → i < n → index m1 (a + i) = index m2 (b + i)) :
    slice m1 a (a + n) = slice m2 b (b + n) ∧ ∃ B, slice m2 b (b + n) = .ok B := by
  rw [slice_eq_ok m1 a (a + n) ha (by omega) ha1, slice_eq_ok m2 b (b + n) hb (by omega) hb1]
  refine ⟨?_, _, rfl⟩
  congr 1
  have e1 : (a + n - a).toNat = n.toNat := by congr 1; ring
  have e2 : (b + n - b).toNat = n.toNat := by congr 1; ring
  rw [e1, e2]
  apply List.ext_getElem?
  intro t
  by_cases ht : t < n.toNat
  · rw [List.getElem?_take_of_lt ht, List.getElem?_take_of_lt ht, List.getElem?_drop,
      List.getElem?_drop]
    have hh := h t (by omega) (by omega)
    obtain ⟨x, ex, _, _⟩ | ⟨_, _⟩ := index_cases m1 (a + t)
    · rw [ex] at hh
      have q1 := (index_eq_ok_iff m1 (a + t) x).mp ex
      have q2 := (index_eq_ok_iff m2 (b + t) x).mp hh.symm
      have c1 : (a + (t : Int)).toNat = a.toNat + t := by omega
      have c2 : (b + (t : Int)).toNat = b.toNat + t := by omega
      rw [c1] at q1
      rw [c2] at q2
      rw [q1.2, q2.2]
    · omega
  · rw [List.getElem?_eq_none_iff.mpr (by simp only [List.length_take]; omega),
      List.getElem?_eq_none_iff.mpr (by simp only [List.length_take]; omega)]

/-- An address of a walk has one size. -/
theorem objectsFrom_size_unique (h : List Byte) (hp a z z1 : Int) (sizes : List Int)
    (c g : Int) (L : List Int) (hm : Marked h hp c g sizes L)
    (h1 : (a, z) ∈ objectsFrom c sizes) (h2 : (a, z1) ∈ objectsFrom c sizes) : z = z1 := by
  have p1 := (Marked_object h hp a z sizes c g L hm h1).2.2.1
  have p2 := (Marked_object h hp a z1 sizes c g L hm h2).2.2.1
  rcases objectsFrom_disjoint h hp sizes c g L hm _ h1 _ h2 with e | e | e
  · exact congrArg Prod.snd e
  · simp only at e; omega
  · simp only at e; omega

theorem Layout_marks (h : List Byte) (hp : Int) (zs : List Int) :
    ∀ c : Int, Layout h hp c zs → ∀ o ∈ objectsFrom c zs, index h o.1 = .ok 0 := by
  induction zs with
  | nil => intro c _ o ho; simp [objectsFrom] at ho
  | cons z rest ih =>
      intro c hl o ho
      rw [Layout_cons] at hl
      rw [objectsFrom_cons] at ho
      rcases List.mem_cons.mp ho with rfl | hin
      · exact hl.2.1
      · exact ih _ hl.2.2.2 o hin

/-- The facts about the compacted heap shared by the properties below: the state after the
cycle, the layout of its heap and the plan that relates it to the heap before. -/
theorem MarkAndCompact_compacts (K : Constants) (prgrm : CXProgram) (sizes hs : List Int)
    (wf : WellFormed K prgrm sizes hs) (ord : InHeapOrder K prgrm hs) :
    ∃ (s1 : CXProgram) (F : List (Int × Int × Int)),
      F = plan K.NULL_HEAP_ADDRESS_OFFSET K.NULL_HEAP_ADDRESS_OFFSET sizes (liveRoots K hs) ∧
      (∀ fuel : Nat, sizes.length ≤ fuel → MarkAndCompact K fuel prgrm = .ok s1) ∧
      s1.Data = prgrm.Data ∧ s1.CallStack = prgrm.CallStack ∧
      s1.CallCounter = prgrm.CallCounter ∧
      s1.Stack.length = prgrm.Stack.length ∧ s1.Heap.Heap.length = prgrm.Heap.Heap.length ∧
      s1.Heap.HeapPointer = K.NULL_HEAP_ADDRESS_OFFSET + planSize F ∧
      s1.Heap.HeapPointer ≤ prgrm.Heap.HeapPointer ∧
      (markPass K prgrm).map (fun st => st.faddr) = .ok s1.Heap.HeapPointer ∧
      F.map (fun t => t.1) = liveRoots K hs ∧
      F.map (fun t => (t.1, t.2.2)) = liveObjects K sizes hs ∧
      objectsFrom K.NULL_HEAP_ADDRESS_OFFSET (F.map fun t => t.2.2) =
        F.map (fun t => (t.2.1, t.2.2)) ∧
      Layout s1.Heap.Heap s1.Heap.HeapPointer K.NULL_HEAP_ADDRESS_OFFSET
        (F.map fun t => t.2.2) ∧
      (rootSlots prgrm).map (get32 s1.Stack) = (rewriteRoots K hs F).map .ok ∧
      (∀ x : Int, (∀ s ∈ rootSlots prgrm, x < s ∨ s + 4 ≤ x) →
        index s1.Stack x = index prgrm.Stack x) ∧
      (∀ t ∈ F, (t.1, t.2.2) ∈ objectsFrom K.NULL_HEAP_ADDRESS_OFFSET sizes ∧
        get32 s1.Heap.Heap (t.2.1 + 1) = .ok t.2.1 ∧
        ∀ i : Int, 0 ≤ i → i < t.2.2 →
          index s1.Heap.Heap (t.2.1 + 9 + i) = index prgrm.Heap.Heap (t.1 + 9 + i)) ∧
      (∀ x : Int, x < K.NULL_HEAP_ADDRESS_OFFSET ∨ prgrm.Heap.HeapPointer ≤ x →
        index s1.Heap.Heap x = index prgrm.Heap.Heap x) := by
  obtain ⟨st, heap1, a1, a2, a3, a4, a5, a6, a7, a8, a9, a10, a11⟩ :=
    MarkAndCompact_spec K prgrm sizes hs wf ord
  have hb := Marked_bounds st.Heap _ sizes _ _ _ a4
  have hfil := plan_eq_filter st.Heap _ sizes _ _ _ a4
  have hcont := plan_contiguous sizes K.NULL_HEAP_ADDRESS_OFFSET K.NULL_HEAP_ADDRESS_OFFSET
    (liveRoots K hs)
  have hlay := Layout_of_plan heap1 _ K.NULL_HEAP_ADDRESS_OFFSET hcont (by
    intro t ht
    obtain ⟨_, hin, _⟩ := plan_mem st.Heap _ sizes _ _ _ a4 t ht
    have := (Marked_object st.Heap _ t.1 t.2.2 sizes _ _ _ a4 hin).2.2.1
    obtain ⟨p1, _, p3, _⟩ := a10 t ht
    exact ⟨this, p1, p3⟩)
  refine ⟨_, _, rfl, a3, rfl, rfl, rfl, a6, a7, rfl, ?_, ?_, a5, ?_, hcont, hlay, a8, a9, ?_,
    a11⟩
  · exact hb.2.2
  · rw [a1]; simp only [Except.map]; rw [a2]
  · rw [hfil]
    unfold liveObjects liveRoots
    apply List.filter_congr
    intro o _
    simp [List.mem_filter]
  · intro t ht
    obtain ⟨_, hin, _⟩ := plan_mem st.Heap _ sizes _ _ _ a4 t ht
    obtain ⟨_, p2, _, p4⟩ := a10 t ht
    exact ⟨hin, p2, p4⟩

/-- Where the collector works: on a well-formed heap whose roots are visited in heap order,
every non-null root refers after the cycle to an object header of the compacted heap whose size
field and payload bytes are those of the object it referred to before. -/
theorem MarkAndCompact_preserves_payload (K : Constants) (prgrm : CXProgram)
    (sizes hs : List Int) (wf : WellFormed K prgrm sizes hs) (ord : InHeapOrder K prgrm hs) :
    ∃ (s1 : CXProgram) (zs : List Int),
      (∀ fuel : Nat, sizes.length ≤ fuel → MarkAndCompact K fuel prgrm = .ok s1) ∧
      Layout s1.Heap.Heap s1.Heap.HeapPointer K.NULL_HEAP_ADDRESS_OFFSET zs ∧
      ∀ (k : Nat) (R h z : Int), (rootSlots prgrm)[k]? = some R → hs[k]? = some h →
        h ≠ K.NULL_HEAP_ADDRESS → (h, z) ∈ objectsFrom K.NULL_HEAP_ADDRESS_OFFSET sizes →
        ∃ (h1 : Int) (B : List Byte),
          get32 s1.Stack R = .ok h1 ∧
          (h1, z) ∈ objectsFrom K.NULL_HEAP_ADDRESS_OFFSET zs ∧
          get32 s1.Heap.Heap (h1 + MARK_SIZE + FORWARDING_ADDRESS_SIZE) = .ok z ∧
          slice prgrm.Heap.Heap (h + OBJECT_HEADER_SIZE) (h + OBJECT_HEADER_SIZE + z) = .ok B ∧
          slice s1.Heap.Heap (h1 + OBJECT_HEADER_SIZE) (h1 + OBJECT_HEADER_SIZE + z) = .ok B := by
  obtain ⟨s1, F, hF, c1, _, _, _, _, c6, c7, c8, _, c10, _, c12, c13, c14, _, c16, _⟩ :=
    MarkAndCompact_compacts K prgrm sizes hs wf ord
  refine ⟨s1, F.map fun t => t.2.2, c1, c13, ?_⟩
  intro k R h z hR hh hn hz
  obtain ⟨t, t1, t2, t3⟩ := rewriteRoots_get K hs F k h c10 hh hn
  have hroot : get32 s1.Stack R = .ok t.2.1 := by
    have e := congrArg (fun l => l[k]?) c14
    simp only [List.getElem?_map, hR, t3, Option.map_some'] at e
    exact Option.some.inj e
  obtain ⟨q1, _, q3⟩ := c16 t t1
  have hm0 := (Layout_iff_Marked _ _ sizes K.NULL_HEAP_ADDRESS_OFFSET
    K.NULL_HEAP_ADDRESS_OFFSET).mp wf.layout
  rw [t2] at q1 q3
  have hzz : t.2.2 = z := objectsFrom_size_unique _ _ _ _ _ sizes _ _ _ hm0 q1 hz
  rw [hzz] at q3
  have hnew : (t.2.1, z) ∈ objectsFrom K.NULL_HEAP_ADDRESS_OFFSET (F.map fun t => t.2.2) := by
    rw [c12, ← hzz]
    exact List.mem_map_of_mem (fun t => (t.2.1, t.2.2)) t1
  have hm1 := (Layout_iff_Marked _ _ _ K.NULL_HEAP_ADDRESS_OFFSET
    K.NULL_HEAP_ADDRESS_OFFSET).mp c13
  obtain ⟨n1, n2, n3, n4⟩ := Marked_object _ _ _ _ _ _ _ _ hm1 hnew
  obtain ⟨o1, o2, o3, _⟩ := Marked_object _ _ _ _ _ _ _ _ hm0 hz
  have hw := wf.offset_nonneg
  have hr := wf.heap_in_range
  have hH : OBJECT_HEADER_SIZE = 9 := rfl
  have e5 : t.2.1 + MARK_SIZE + FORWARDING_ADDRESS_SIZE = t.2.1 + 5 := by
    simp only [MARK_SIZE, FORWARDING_ADDRESS_SIZE]; ring
  obtain ⟨s1eq, B, hB⟩ := slice_congr s1.Heap.Heap prgrm.Heap.Heap (t.2.1 + 9) (h + 9) z o3
    (by omega) (by omega) (by omega) (by omega) q3
  refine ⟨t.2.1, B, hroot, hnew, by rw [e5]; exact n4, by rw [hH]; exact hB, ?_⟩
  rw [hH, s1eq]
  exact hB

set_option maxRecDepth 100000 in
theorem MarkAndCompact_preserves_payload_witness :
    (∃ (s1 : CXProgram) (zs : List Int),
      (∀ fuel : Nat, [10, 10, 10].length ≤ fuel →
        MarkAndCompact exampleConstants fuel threeObjects = .ok s1) ∧
      Layout s1.Heap.Heap s1.Heap.HeapPointer exampleConstants.NULL_HEAP_ADDRESS_OFFSET zs ∧
      ∀ (k : Nat) (R h z : Int), (rootSlots threeObjects)[k]? = some R →
        [23][k]? = some h → h ≠ exampleConstants.NULL_HEAP_ADDRESS →
        (h, z) ∈ objectsFrom exampleConstants.NULL_HEAP_ADDRESS_OFFSET [10, 10, 10] →
        ∃ (h1 : Int) (B : List Byte),
          get32 s1.Stack R = .ok h1 ∧
          (h1, z) ∈ objectsFrom exampleConstants.NULL_HEAP_ADDRESS_OFFSET zs ∧
          get32 s1.Heap.Heap (h1 + MARK_SIZE + FORWARDING_ADDRESS_SIZE) = .ok z ∧
          slice threeObjects.Heap.Heap (h + OBJECT_HEADER_SIZE)
            (h + OBJECT_HEADER_SIZE + z) = .ok B ∧
          slice s1.Heap.Heap (h1 + OBJECT_HEADER_SIZE) (h1 + OBJECT_HEADER_SIZE + z) = .ok B) ∧
    (MarkAndCompact exampleConstants 3 threeObjects).map
        (fun s => (get32 s.Stack 0, slice s.Heap.Heap 13 23, s.Heap.HeapPointer)) =
      .ok (.ok 4, .ok (List.replicate 10 0xBB), 23) :=
  ⟨MarkAndCompact_preserves_payload exampleConstants threeObjects [10, 10, 10] [23]
    threeObjects_wellFormed threeObjects_inHeapOrder, by decide⟩

set_option maxRecDepth 100000 in
/-- C6, a defect of the collector. In `reversedRoots`, a well-formed heap with two live
objects, the root at stack offset 0 refers to the object at 23, whose payload is ten bytes
`BB`. Pass 1 assigns forwarding addresses in the order of the roots and pass 2 copies in
the order of the heap, so the object at 4 is copied over the object at 23 before that one is
relocated. After the cycle the root holds 4, and the payload of the object at 4 is ten
bytes `AA`: the payload the root referred to is lost. -/
theorem preserves_payload_counterexample :
    WellFormed exampleConstants reversedRoots [10, 10] [23, 4] ∧
      get32 reversedRoots.Stack 0 = .ok 23 ∧
      slice reversedRoots.Heap.Heap (23 + OBJECT_HEADER_SIZE) (23 + OBJECT_HEADER_SIZE + 10) =
        .ok (List.replicate 10 0xBB) ∧
      (MarkAndCompact exampleConstants 2 reversedRoots).map
          (fun s => (get32 s.Stack 0, slice s.Heap.Heap (4 + OBJECT_HEADER_SIZE)
            (4 + OBJECT_HEADER_SIZE + 10))) =
        .ok (.ok 4, .ok (List.replicate 10 0xAA)) :=
  ⟨reversedRoots_wellFormed, by decide, by decide, by decide⟩

/-- Where the collector works: on a well-formed heap whose roots are visited in heap order,
after the cycle `HeapPointer - NULL_HEAP_ADDRESS_OFFSET` is the sum of `OBJECT_HEADER_SIZE +
size` over the live objects, each counted once. -/
theorem MarkAndCompact_watermark (K : Constants) (prgrm : CXProgram) (sizes hs : List Int)
    (wf : WellFormed K prgrm sizes hs) (ord : InHeapOrder K prgrm hs) :
    ∃ s1 : CXProgram,
      (∀ fuel : Nat, sizes.length ≤ fuel → MarkAndCompact K fuel prgrm = .ok s1) ∧
      s1.Heap.HeapPointer - K.NULL_HEAP_ADDRESS_OFFSET =
        ((liveObjects K sizes hs).map fun o => OBJECT_HEADER_SIZE + o.2).sum := by
  obtain ⟨s1, F, _, c1, _, _, _, _, _, c7, _, _, _, c11, _⟩ :=
    MarkAndCompact_compacts K prgrm sizes hs wf ord
  refine ⟨s1, c1, ?_⟩
  rw [c7, ← c11, List.map_map]
  unfold planSize
  have hf : ((fun o : Int × Int => OBJECT_HEADER_SIZE + o.2) ∘
      fun t : Int × Int × Int => (t.1, t.2.2)) = fun t => 9 + t.2.2 := rfl
  rw [hf]
  exact add_sub_cancel_left _ _

set_option maxRecDepth 100000 in
theorem MarkAndCompact_watermark_witness :
    (∃ s1 : CXProgram,
      (∀ fuel : Nat, [10, 10, 10].length ≤ fuel →
        MarkAndCompact exampleConstants fuel threeObjects = .ok s1) ∧
      s1.Heap.HeapPointer - exampleConstants.NULL_HEAP_ADDRESS_OFFSET =
        ((liveObjects exampleConstants [10, 10, 10] [23]).map
          fun o => OBJECT_HEADER_SIZE + o.2).sum) ∧
    ((liveObjects exampleConstants [10, 10, 10] [23]).map
      fun o => OBJECT_HEADER_SIZE + o.2).sum = 19 :=
  ⟨MarkAndCompact_watermark exampleConstants threeObjects [10, 10, 10] [23]
    threeObjects_wellFormed threeObjects_inHeapOrder, by decide⟩

set_option maxRecDepth 100000 in
/-- C7, a defect of the collector. In `reversedRoots` both objects are live, 38 bytes with
their headers, but pass 2 copies the object at 4 over the still unrelocated object at 23
and counts only one of them: the cycle leaves `HeapPointer` at 23, which is 19 above
`NULL_HEAP_ADDRESS_OFFSET`. -/
theorem watermark_counterexample :
    WellFormed exampleConstants reversedRoots [10, 10] [23, 4] ∧
      ((liveObjects exampleConstants [10, 10] [23, 4]).map
        fun o => OBJECT_HEADER_SIZE + o.2).sum = 38 ∧
      (MarkAndCompact exampleConstants 2 reversedRoots).map
          (fun s => s.Heap.HeapPointer - exampleConstants.NULL_HEAP_ADDRESS_OFFSET) = .ok 19 :=
  ⟨reversedRoots_wellFormed, by decide, by decide⟩

/-- Where the collector works: on a well-formed heap whose roots are visited in heap order, the
`HeapPointer` that pass 2 computes and the cycle stores equals the final forwarding watermark
`faddr` of pass 1. -/
theorem MarkAndCompact_heapPointer_eq_faddr (K : Constants) (prgrm : CXProgram)
    (sizes hs : List Int) (wf : WellFormed K prgrm sizes hs) (ord : InHeapOrder K prgrm hs) :
    ∃ (st : Pass1) (s1 : CXProgram), markPass K prgrm = .ok st ∧
      (∀ fuel : Nat, sizes.length ≤ fuel → MarkAndCompact K fuel prgrm = .ok s1) ∧
      s1.Heap.HeapPointer = st.faddr := by
  obtain ⟨s1, F, _, c1, _, _, _, _, _, _, _, c9, _⟩ :=
    MarkAndCompact_compacts K prgrm sizes hs wf ord
  cases hmp : markPass K prgrm with
  | error e => rw [hmp] at c9; cases c9
  | ok st =>
      rw [hmp] at c9
      simp only [Except.map, Except.ok.injEq] at c9
      exact ⟨st, s1, rfl, c1, c9.symm⟩

set_option maxRecDepth 100000 in
theorem MarkAndCompact_heapPointer_eq_faddr_witness :
    (∃ (st : Pass1) (s1 : CXProgram), markPass exampleConstants threeObjects = .ok st ∧
      (∀ fuel : Nat, [10, 10, 10].length ≤ fuel →
        MarkAndCompact exampleConstants fuel threeObjects = .ok s1) ∧
      s1.Heap.HeapPointer = st.faddr) ∧
    (markPass exampleConstants threeObjects).map (fun st => st.faddr) = .ok 23 :=
  ⟨MarkAndCompact_heapPointer_eq_faddr exampleConstants threeObjects [10, 10, 10] [23]
    threeObjects_wellFormed threeObjects_inHeapOrder, by decide⟩

set_option maxRecDepth 100000 in
/-- C8, a defect of the collector. In `reversedRoots` pass 1 ends with `faddr = 42`, the two
live objects counted, and the cycle stores `HeapPointer = 23`: pass 2 overwrote the object
at 23 with the copy of the object at 4 and counted one object only. -/
theorem heapPointer_eq_faddr_counterexample :
    WellFormed exampleConstants reversedRoots [10, 10] [23, 4] ∧
      (markPass exampleConstants reversedRoots).map (fun st => st.faddr) = .ok 42 ∧
      (MarkAndCompact exampleConstants 2 reversedRoots).map
          (fun s => s.Heap.HeapPointer) = .ok 23 :=
  ⟨reversedRoots_wellFormed, by decide, by decide⟩

/-- Where the collector works: on a well-formed heap whose roots are visited in heap order, the
compacted heap is a contiguous sequence of objects from `NULL_HEAP_ADDRESS_OFFSET` to the new
`HeapPointer`, and every header met on that walk has mark byte 0. -/
theorem MarkAndCompact_marks_cleared (K : Constants) (prgrm : CXProgram) (sizes hs : List Int)
    (wf : WellFormed K prgrm sizes hs) (ord : InHeapOrder K prgrm hs) :
    ∃ (s1 : CXProgram) (zs : List Int),
      (∀ fuel : Nat, sizes.length ≤ fuel → MarkAndCompact K fuel prgrm = .ok s1) ∧
      Layout s1.Heap.Heap s1.Heap.HeapPointer K.NULL_HEAP_ADDRESS_OFFSET zs ∧
      ∀ o ∈ objectsFrom K.NULL_HEAP_ADDRESS_OFFSET zs, index s1.Heap.Heap o.1 = .ok 0 := by
  obtain ⟨s1, F, _, c1, _, _, _, _, _, _, _, _, _, _, _, c13, _⟩ :=
    MarkAndCompact_compacts K prgrm sizes hs wf ord
  exact ⟨s1, _, c1, c13, Layout_marks _ _ _ _ c13⟩

set_option maxRecDepth 100000 in
theorem MarkAndCompact_marks_cleared_witness :
    (∃ (s1 : CXProgram) (zs : List Int),
      (∀ fuel : Nat, [10, 10, 10].length ≤ fuel →
        MarkAndCompact exampleConstants fuel threeObjects = .ok s1) ∧
      Layout s1.Heap.Heap s1.Heap.HeapPointer exampleConstants.NULL_HEAP_ADDRESS_OFFSET zs ∧
      ∀ o ∈ objectsFrom exampleConstants.NULL_HEAP_ADDRESS_OFFSET zs,
        index s1.Heap.Heap o.1 = .ok 0) ∧
    (MarkAndCompact exampleConstants 3 threeObjects).map
        (fun s => (index s.Heap.Heap 4, get32 s.Heap.Heap 9, s.Heap.HeapPointer)) =
      .ok (.ok 0, .ok 10, 23) :=
  ⟨MarkAndCompact_marks_cleared exampleConstants threeObjects [10, 10, 10] [23]
    threeObjects_wellFormed threeObjects_inHeapOrder, by decide⟩

set_option maxRecDepth 100000 in
/-- C9, a defect of the collector. In `aliasedRoots` (objects of 1 and 3
bytes at 4 and 14, both roots holding 4) pass 1 leaves forwarding address 14 in the object at
4; pass 2 copies that object over the header at 14, skips the copy, then takes the payload
bytes at 24 for a marked header and copies nine bytes from there to address 1. The cycle
returns with `HeapPointer = 23`; the header at 4 has size field 0, so the walk of the
compacted heap meets the next header at 13, below `HeapPointer`, and its mark byte is 1. No
layout of unmarked objects fits the heap. -/
theorem marks_cleared_counterexample :
    WellFormed exampleConstants aliasedRoots [1, 3] [4, 4] ∧
      (MarkAndCompact exampleConstants 3 aliasedRoots).map
          (fun s => (s.Heap.HeapPointer, index s.Heap.Heap 4, get32 s.Heap.Heap (4 + 5),
            index s.Heap.Heap (4 + 9 + 0))) = .ok (23, .ok 0, .ok 0, .ok 1) ∧
      ∀ s1, MarkAndCompact exampleConstants 3 aliasedRoots = .ok s1 →
        ¬ ∃ zs, Layout s1.Heap.Heap s1.Heap.HeapPointer
          exampleConstants.NULL_HEAP_ADDRESS_OFFSET zs := by
  have hfacts : (MarkAndCompact exampleConstants 3 aliasedRoots).map
      (fun s => (s.Heap.HeapPointer, index s.Heap.Heap 4, get32 s.Heap.Heap (4 + 5),
        index s.Heap.Heap (4 + 9 + 0))) = .ok (23, .ok 0, .ok 0, .ok 1) := by decide
  refine ⟨aliasedRoots_wellFormed, hfacts, ?_⟩
  intro s1 hs1 hex
  rw [hs1] at hfacts
  simp only [Except.map, Except.ok.injEq, Prod.mk.injEq] at hfacts
  obtain ⟨f1, _, f3, f4⟩ := hfacts
  obtain ⟨zs, hl⟩ := hex
  have hK : exampleConstants.NULL_HEAP_ADDRESS_OFFSET = 4 := rfl
  rw [hK, f1] at hl
  cases zs with
  | nil => simp [Layout] at hl
  | cons z rest =>
      rw [Layout_cons] at hl
      obtain ⟨_, _, l3, l4⟩ := hl
      rw [f3] at l3
      have hz : z = 0 := (Except.ok.inj l3).symm
      subst hz
      cases rest with
      | nil => simp [Layout] at l4
      | cons z1 rest1 =>
          rw [Layout_cons] at l4
          rw [f4] at l4
          have := l4.2.1
          simp at this

/-! ## Garbage collector: a second cycle -/

theorem leNat_lt (l : List Byte) : leNat l < 256 ^ l.length := by
  induction l with
  | nil => simp [leNat]
  | cons b bs ih =>
      have hb := b.isLt
      simp only [leNat, List.length_cons, pow_succ]
      omega

theorem leNat_inj : ∀ l1 l2 : List Byte, l1.length = l2.length → leNat l1 = leNat l2 → l1 = l2 := by
  intro l1
  induction l1 with
  | nil =>
      intro l2 hl _
      cases l2 with
      | nil => rfl
      | cons b bs => simp at hl
  | cons b1 r1 ih =>
      intro l2 hl he
      cases l2 with
      | nil => simp at hl
      | cons b2 r2 =>
          simp only [List.length_cons, Nat.add_right_cancel_iff] at hl
          simp only [leNat] at he
          have h1 := b1.isLt
          have h2 := b2.isLt
          have hb : b1.val = b2.val := by omega
          have hr : leNat r1 = leNat r2 := by omega
          rw [Fin.ext hb, ih r2 hl hr]

/-- Two 32-bit fields with the same value hold the same bytes. -/
theorem get32_inj (m1 m2 : List Byte) (a b v : Int) (h1 : get32 m1 a = .ok v)
    (h2 : get32 m2 b = .ok v) :
    ∀ t : Int, 0 ≤ t → t < 4 → index m1 (a + t) = index m2 (b + t) := by
  obtain ⟨a0, a1⟩ := get32_ok_bounds _ _ _ h1
  obtain ⟨b0, b1⟩ := get32_ok_bounds _ _ _ h2
  rw [get32_eq_ok m1 a a0 a1] at h1
  rw [get32_eq_ok m2 b b0 b1] at h2
  have l1 : ((m1.drop a.toNat).take 4).length = 4 := by
    simp only [List.length_take, List.length_drop]; omega
  have l2 : ((m2.drop b.toNat).take 4).length = 4 := by
    simp only [List.length_take, List.length_drop]; omega
  have q1 := leNat_lt ((m1.drop a.toNat).take 4)
  have q2 := leNat_lt ((m2.drop b.toNat).take 4)
  rw [l1] at q1
  rw [l2] at q2
  have hv : toInt32 (leNat ((m1.drop a.toNat).take 4)) =
      toInt32 (leNat ((m2.drop b.toNat).take 4)) := by
    rw [Except.ok.inj h1, Except.ok.inj h2]
  have hn : leNat ((m1.drop a.toNat).take 4) = leNat ((m2.drop b.toNat).take 4) := by
    unfold toInt32 at hv
    omega
  have hl := leNat_inj _ _ (by rw [l1, l2]) hn
  intro t ht0 ht
  have c1 : (a + t).toNat = a.toNat + t.toNat := by omega
  have c2 : (b + t).toNat = b.toNat + t.toNat := by omega
  have e1 : m1[(a + t).toNat]? = ((m1.drop a.toNat).take 4)[t.toNat]? := by
    rw [List.getElem?_take_of_lt (by omega), List.getElem?_drop, c1]
  have e2 : m2[(b + t).toNat]? = ((m2.drop b.toNat).take 4)[t.toNat]? := by
    rw [List.getElem?_take_of_lt (by omega), List.getElem?_drop, c2]
  unfold index
  rw [if_pos (by omega), if_pos (by omega), e1, e2, hl]

theorem list_eq_of_index (m1 m2 : List Byte) (h : ∀ x : Int, index m1 x = index m2 x) :
    m1 = m2 := by
  apply List.ext_getElem?
  intro n
  have hn := h (n : Int)
  cases e1 : m1[n]? with
  | none =>
      cases e2 : m2[n]? with
      | none => rfl
      | some b2 =>
          have : index m2 (n : Int) = .ok b2 := (index_eq_ok_iff _ _ _).mpr ⟨by omega, by simpa using e2⟩
          rw [this] at hn
          have := ((index_eq_ok_iff _ _ _).mp hn).2
          simp only [Int.toNat_ofNat] at this
          rw [e1] at this
          cases this
  | some b1 =>
      have : index m1 (n : Int) = .ok b1 := (index_eq_ok_iff _ _ _).mpr ⟨by omega, by simpa using e1⟩
      rw [this] at hn
      have := ((index_eq_ok_iff _ _ _).mp hn.symm).2
      simp only [Int.toNat_ofNat] at this
      rw [this]

/-- Every address between the start of a walk and its end lies in an object of the walk. -/
theorem Layout_cover (h : List Byte) (hp x : Int) (zs : List Int) :
    ∀ c : Int, Layout h hp c zs → c ≤ x → x < hp →
      ∃ o ∈ objectsFrom c zs, o.1 ≤ x ∧ x < o.1 + 9 + o.2 := by
  induction zs with
  | nil => intro c hl h1 h2; simp only [Layout] at hl; omega
  | cons z rest ih =>
      intro c hl h1 h2
      rw [Layout_cons] at hl
      rw [objectsFrom_cons]
      by_cases hx : x < c + 9 + z
      · exact ⟨(c, z), by simp, h1, hx⟩
      · obtain ⟨o, o1, o2, o3⟩ := ih _ hl.2.2.2 (by omega) h2
        exact ⟨o, List.mem_cons_of_mem _ o1, o2, o3⟩

theorem Layout_sizes_nonneg (h : List Byte) (hp : Int) (zs : List Int) :
    ∀ c : Int, Layout h hp c zs → ∀ z ∈ zs, 0 ≤ z := by
  induction zs with
  | nil => intro c _ z hz; simp at hz
  | cons z0 rest ih =>
      intro c hl z hz
      rw [Layout_cons] at hl
      rcases List.mem_cons.mp hz with rfl | h1
      · exact hl.1
      · exact ih _ hl.2.2.2 z h1

/-- The rewritten roots are null or new addresses of the plan. -/
theorem rewriteRoots_mem (K : Constants) :
    ∀ (hs : List Int) (F : List (Int × Int × Int)),
      F.map (fun t => t.1) = liveRoots K hs →
      ∀ h ∈ rewriteRoots K hs F, h = K.NULL_HEAP_ADDRESS ∨ h ∈ F.map (fun t => t.2.1) := by
  intro hs
  induction hs with
  | nil => intro F _ h hh; simp [rewriteRoots] at hh
  | cons h0 hs ih =>
      intro F hF h hh
      by_cases h0n : h0 = K.NULL_HEAP_ADDRESS
      · subst h0n
        rw [liveRoots_cons_null] at hF
        simp only [rewriteRoots, if_true, List.mem_cons] at hh
        rcases hh with rfl | hh
        · exact Or.inl rfl
        · exact ih F hF h hh
      · rw [liveRoots_cons_live K h0 hs h0n] at hF
        cases F with
        | nil => simp at hF
        | cons t F1 =>
            simp only [List.map_cons, List.cons.injEq] at hF
            simp only [rewriteRoots, h0n, if_false, List.mem_cons] at hh
            rcases hh with rfl | hh
            · exact Or.inr (by simp)
            · rcases ih F1 hF.2 h hh with h1 | h1
              · exact Or.inl h1
              · exact Or.inr (by simp only [List.map_cons, List.mem_cons]; exact Or.inr h1)

theorem objectsFrom_length (zs : List Int) : ∀ c : Int, (objectsFrom c zs).length = zs.length := by
  induction zs with
  | nil => intro c; rfl
  | cons z rest ih => intro c; simp [objectsFrom_cons, ih]

theorem rootSlots_congr (s1 s : CXProgram) (h1 : s1.CallStack = s.CallStack)
    (h2 : s1.CallCounter = s.CallCounter) : rootSlots s1 = rootSlots s := by
  unfold rootSlots
  rw [h1, h2]

/-- The state after a cycle on a well-formed heap with roots in heap order is again such a
state, in which every object is live and already at its forwarding address. -/
theorem MarkAndCompact_compact_state (K : Constants) (prgrm : CXProgram) (sizes hs : List Int)
    (wf : WellFormed K prgrm sizes hs) (ord : InHeapOrder K prgrm hs)
    (hnull : K.NULL_HEAP_ADDRESS < K.NULL_HEAP_ADDRESS_OFFSET) :
    ∃ (s1 : CXProgram) (zs hs1 : List Int),
      (∀ fuel : Nat, sizes.length ≤ fuel → MarkAndCompact K fuel prgrm = .ok s1) ∧
      zs.length ≤ sizes.length ∧
      WellFormed K s1 zs hs1 ∧ InHeapOrder K s1 hs1 ∧
      liveRoots K hs1 = (objectsFrom K.NULL_HEAP_ADDRESS_OFFSET zs).map Prod.fst ∧
      ∀ o ∈ objectsFrom K.NULL_HEAP_ADDRESS_OFFSET zs,
        get32 s1.Heap.Heap (o.1 + 1) = .ok o.1 := by
  obtain ⟨s1, F, hF, c1, c2, c3, c4, c5, c6, c7, c8, c9, c10, c11, c12, c13, c14, c15, c16,
    c17⟩ := MarkAndCompact_compacts K prgrm sizes hs wf ord
  have hnn := Layout_sizes_nonneg _ _ _ _ c13
  obtain ⟨hinc, hge⟩ := objectsFrom_increasing (F.map fun t => t.2.2)
    K.NULL_HEAP_ADDRESS_OFFSET hnn
  have hnew : ((objectsFrom K.NULL_HEAP_ADDRESS_OFFSET (F.map fun t => t.2.2)).map Prod.fst) =
      F.map (fun t => t.2.1) := by
    rw [c12, List.map_map]; rfl
  rw [hnew] at hinc hge
  have hne : ∀ t ∈ F, t.2.1 ≠ K.NULL_HEAP_ADDRESS := by
    intro t ht
    have := hge t.2.1 (List.mem_map_of_mem (fun t => t.2.1) ht)
    omega
  obtain ⟨hlive, _⟩ := rewriteRoots_live K hs F c10 hne
  have hslots := rootSlots_congr s1 prgrm c3 c4
  refine ⟨s1, F.map fun t => t.2.2, rewriteRoots K hs F, c1, ?_, ?_, ?_, ?_, ?_⟩
  · have := congrArg List.length c11
    simp only [List.length_map] at this ⊢
    rw [this]
    unfold liveObjects
    exact le_trans (List.length_filter_le _ _) (le_of_eq (objectsFrom_length _ _))
  · refine ⟨wf.offset_nonneg, ?_, c13, ?_, ?_, ?_⟩
    · have := wf.heap_in_range; omega
    · rw [c3, c4]; exact wf.frames
    · rw [hslots]; exact c14
    · intro h hh
      rw [hnew]
      exact rewriteRoots_mem K hs F c10 h hh
  · refine ⟨?_, ?_, ?_⟩
    · have := ord.heap_small; omega
    · rw [hslots]; exact ord.slots_disjoint
    · rw [hlive]; exact hinc
  · rw [hlive, hnew]
  · intro o ho
    rw [c12] at ho
    obtain ⟨t, t1, rfl⟩ := List.mem_map.mp ho
    exact (c16 t t1).2.1

/-- A cycle on a state in which every object is live and already at its forwarding address
changes nothing. -/
theorem MarkAndCompact_fixed (K : Constants) (s1 : CXProgram) (zs hs1 : List Int)
    (wf : WellFormed K s1 zs hs1) (ord : InHeapOrder K s1 hs1)
    (hall : liveRoots K hs1 = (objectsFrom K.NULL_HEAP_ADDRESS_OFFSET zs).map Prod.fst)
    (hself : ∀ o ∈ objectsFrom K.NULL_HEAP_ADDRESS_OFFSET zs,
      get32 s1.Heap.Heap (o.1 + 1) = .ok o.1) :
    ∀ fuel : Nat, zs.length ≤ fuel → MarkAndCompact K fuel s1 = .ok s1 := by
  obtain ⟨s2, F, hF, c1, c2, c3, c4, c5, c6, c7, c8, c9, c10, c11, c12, c13, c14, c15, c16,
    c17⟩ := MarkAndCompact_compacts K s1 zs hs1 wf ord
  have hnn := Layout_sizes_nonneg _ _ _ _ wf.layout
  have hFid : F = (objectsFrom K.NULL_HEAP_ADDRESS_OFFSET zs).map fun o => (o.1, o.1, o.2) := by
    rw [hF, hall]; exact plan_all zs _ hnn
  have hsz : F.map (fun t => t.2.2) = zs := by
    have hobj : ∀ (c : Int) (ys : List Int), (objectsFrom c ys).map Prod.snd = ys := by
      intro c ys
      induction ys generalizing c with
      | nil => rfl
      | cons y r ih => simp [objectsFrom_cons, ih]
    rw [hFid, List.map_map]
    have e3 : ((fun t : Int × Int × Int => t.2.2) ∘ fun o : Int × Int => (o.1, o.1, o.2)) =
        Prod.snd := rfl
    rw [e3, hobj]
  have hm1 := (Layout_iff_Marked _ _ zs K.NULL_HEAP_ADDRESS_OFFSET
    K.NULL_HEAP_ADDRESS_OFFSET).mp wf.layout
  have hhp : s2.Heap.HeapPointer = s1.Heap.HeapPointer := by
    have l2 := c13
    rw [hsz] at l2
    -- both layouts walk the same sizes from the same start
    have hend : ∀ (h h' : List Byte) (p p' : Int) (ys : List Int) (c : Int),
        Layout h p c ys → Layout h' p' c ys → p = p' := by
      intro h h' p p' ys
      induction ys with
      | nil => intro c a b; simp only [Layout] at a b; omega
      | cons y r ih =>
          intro c a b
          rw [Layout_cons] at a b
          exact ih _ a.2.2.2 b.2.2.2
    exact hend _ _ _ _ zs _ l2 wf.layout
  have hstack : s2.Stack = s1.Stack := by
    apply list_eq_of_index
    intro x
    by_cases hx : ∀ s ∈ rootSlots s1, x < s ∨ s + 4 ≤ x
    · exact c15 x hx
    · push_neg at hx
      obtain ⟨s, hs, h1, h2⟩ := hx
      have hid : rewriteRoots K hs1 F = hs1 := by
        apply rewriteRoots_id K hs1 F c10
        intro t ht
        rw [hFid] at ht
        obtain ⟨o, _, rfl⟩ := List.mem_map.mp ht
        rfl
      have hmap : (rootSlots s1).map (get32 s2.Stack) = (rootSlots s1).map (get32 s1.Stack) := by
        rw [c14, hid, wf.roots]
      have hs2 := List.map_inj_left.mp hmap s hs
      have hok : ∃ v, get32 s1.Stack s = .ok v := by
        have := congrArg (fun l => get32 s1.Stack s ∈ l) wf.roots
        simp only [eq_iff_iff] at this
        have hin : get32 s1.Stack s ∈ (rootSlots s1).map (get32 s1.Stack) :=
          List.mem_map_of_mem _ hs
        obtain ⟨v, _, hv⟩ := List.mem_map.mp (this.mp hin)
        exact ⟨v, hv.symm⟩
      obtain ⟨v, hv⟩ := hok
      have := get32_inj s2.Stack s1.Stack s s v (by rw [hs2]; exact hv) hv (x - s)
        (by omega) (by omega)
      rw [show s + (x - s) = x by ring] at this
      exact this
  have hheap : s2.Heap.Heap = s1.Heap.Heap := by
    apply list_eq_of_index
    intro x
    by_cases hx : x < K.NULL_HEAP_ADDRESS_OFFSET ∨ s1.Heap.HeapPointer ≤ x
    · exact c17 x hx
    · obtain ⟨o, o1, o2, o3⟩ := Layout_cover _ _ x zs _ wf.layout (by omega) (by omega)
      have ht : (o.1, o.1, o.2) ∈ F := by
        rw [hFid]; exact List.mem_map_of_mem (fun o => (o.1, o.1, o.2)) o1
      obtain ⟨_, t2, t3⟩ := c16 _ ht
      simp only at t2 t3
      have l2 := c13
      rw [hsz] at l2
      have hm2 := (Layout_iff_Marked _ _ zs K.NULL_HEAP_ADDRESS_OFFSET
        K.NULL_HEAP_ADDRESS_OFFSET).mp l2
      obtain ⟨_, _, n3, n4⟩ := Marked_object _ _ o.1 o.2 zs _ _ _ hm1 o1
      obtain ⟨_, _, _, n4'⟩ := Marked_object _ _ o.1 o.2 zs _ _ _ hm2 o1
      have k1 := Layout_marks _ _ zs _ wf.layout o o1
      have k2 := Layout_marks _ _ zs _ l2 o o1
      by_cases d0 : x = o.1
      · rw [d0, k1, k2]
      · by_cases d1 : x < o.1 + 5
        · have := get32_inj s2.Heap.Heap s1.Heap.Heap (o.1 + 1) (o.1 + 1) o.1 t2
            (hself o o1) (x - (o.1 + 1)) (by omega) (by omega)
          rw [show o.1 + 1 + (x - (o.1 + 1)) = x by ring] at this
          exact this
        · by_cases d2 : x < o.1 + 9
          · have := get32_inj s2.Heap.Heap s1.Heap.Heap (o.1 + 5) (o.1 + 5) o.2 n4' n4
              (x - (o.1 + 5)) (by omega) (by omega)
            rw [show o.1 + 5 + (x - (o.1 + 5)) = x by ring] at this
            exact this
          · have := t3 (x - (o.1 + 9)) (by omega) (by omega)
            rw [show o.1 + 9 + (x - (o.1 + 9)) = x by ring] at this
            exact this
  intro fuel hfuel
  rw [c1 fuel hfuel]
  congr 1
  have hh : s2.Heap = s1.Heap := by
    cases h2 : s2.Heap
    cases h1 : s1.Heap
    rw [h2] at hheap hhp
    rw [h1] at hheap hhp
    simp only at hheap hhp
    rw [hheap, hhp]
  cases s2
  cases s1
  simp only at hstack hh c2 c3 c4
  simp only [CXProgram.mk.injEq]
  exact ⟨hstack, c2, hh, c3, c4⟩

/-- Where the collector works: on a well-formed heap whose roots are visited in heap order,
with the null reference below the start of the heap, a second cycle run right after the first
changes nothing: stack, heap bytes and `HeapPointer` stay as the first cycle left them. -/
theorem MarkAndCompact_idempotent (K : Constants) (prgrm : CXProgram) (sizes hs : List Int)
    (wf : WellFormed K prgrm sizes hs) (ord : InHeapOrder K prgrm hs)
    (hnull : K.NULL_HEAP_ADDRESS < K.NULL_HEAP_ADDRESS_OFFSET) :
    ∃ s1 : CXProgram,
      (∀ fuel : Nat, sizes.length ≤ fuel → MarkAndCompact K fuel prgrm = .ok s1) ∧
      (∀ fuel : Nat, sizes.length ≤ fuel → MarkAndCompact K fuel s1 = .ok s1) := by
  obtain ⟨s1, zs, hs1, c1, c2, wf1, ord1, hall, hself⟩ :=
    MarkAndCompact_compact_state K prgrm sizes hs wf ord hnull
  exact ⟨s1, c1, fun fuel hf =>
    MarkAndCompact_fixed K s1 zs hs1 wf1 ord1 hall hself fuel (le_trans c2 hf)⟩

set_option maxRecDepth 100000 in
theorem MarkAndCompact_idempotent_witness :
    (∃ s1 : CXProgram,
      (∀ fuel : Nat, [10, 10, 10].length ≤ fuel →
        MarkAndCompact exampleConstants fuel threeObjects = .ok s1) ∧
      (∀ fuel : Nat, [10, 10, 10].length ≤ fuel →
        MarkAndCompact exampleConstants fuel s1 = .ok s1)) ∧
    ((MarkAndCompact exampleConstants 3 threeObjects >>= MarkAndCompact exampleConstants 3).map
        observe =
      (MarkAndCompact exampleConstants 3 threeObjects).map observe) :=
  ⟨MarkAndCompact_idempotent exampleConstants threeObjects [10, 10, 10] [23]
    threeObjects_wellFormed threeObjects_inHeapOrder (by decide), by decide⟩

set_option maxRecDepth 100000 in
/-- C10, a defect of the collector. In `reversedRoots` the first cycle overwrites the object
at 23 and leaves the root at stack offset 4 holding 23, which is then the new `HeapPointer`, and heap
byte 23 equal to 0; the second cycle marks that address and never clears it, so heap byte 23
is 1 after it. -/
theorem idempotent_counterexample :
    WellFormed exampleConstants reversedRoots [10, 10] [23, 4] ∧
      (MarkAndCompact exampleConstants 2 reversedRoots).map
          (fun s => (get32 s.Stack 4, s.Heap.HeapPointer, index s.Heap.Heap 23)) =
        .ok (.ok 23, 23, .ok 0) ∧
      (MarkAndCompact exampleConstants 2 reversedRoots >>=
          MarkAndCompact exampleConstants 2).map (fun s => index s.Heap.Heap 23) =
        .ok (.ok 1) :=
  ⟨reversedRoots_wellFormed, by decide, by decide⟩

/-! ## Allocator -/

/-- C13. When `HeapPointer + size` does not exceed `INIT_HEAP_SIZE`, `AllocateSeq` returns the
old `HeapPointer`, advances `HeapPointer` by `size` and changes nothing else: stack, data
segment and heap bytes stay as they are. The sum `HeapPointer + size` is the sum of Go
`int`s that the code computes and tests: it is taken modulo 2^64 into the signed 64-bit
range, so it is the plain sum whenever that fits 64 bits. -/
theorem AllocateSeq_bump (K : Constants) (fuel : Nat) (prgrm : CXProgram) (size : Int)
    (h : toInt64 (prgrm.Heap.HeapPointer + size) ≤ K.INIT_HEAP_SIZE) :
    ∃ s1 : CXProgram,
      AllocateSeq K fuel prgrm size = .ok (s1, prgrm.Heap.HeapPointer) ∧
      s1.Heap.HeapPointer = toInt64 (prgrm.Heap.HeapPointer + size) ∧
      (-9223372036854775808 ≤ prgrm.Heap.HeapPointer + size →
        prgrm.Heap.HeapPointer + size < 9223372036854775808 →
        s1.Heap.HeapPointer = prgrm.Heap.HeapPointer + size) ∧
      s1.Stack = prgrm.Stack ∧ s1.Data = prgrm.Data ∧ s1.Heap.Heap = prgrm.Heap.Heap ∧
      s1.CallStack = prgrm.CallStack ∧ s1.CallCounter = prgrm.CallCounter := by
  refine ⟨{ prgrm with
      Heap := { prgrm.Heap with HeapPointer := toInt64 (prgrm.Heap.HeapPointer + size) } },
    ?_, rfl, fun h0 h1 => toInt64_of_range _ h0 h1, rfl, rfl, rfl, rfl, rfl⟩
  unfold AllocateSeq
  simp only [gt_iff_lt, not_lt.mpr h, if_false]
  rfl

theorem AllocateSeq_bump_witness :
    toInt64 (threeObjects.Heap.HeapPointer + 19) ≤ exampleConstants.INIT_HEAP_SIZE ∧
    (AllocateSeq exampleConstants 3 threeObjects 19).map
      (fun r => (r.2, r.1.Heap.HeapPointer)) = .ok (61, 80) ∧
    (AllocateSeq exampleConstants 3 threeObjects 9223372036854775807).map
      (fun r => (r.2, r.1.Heap.HeapPointer)) = .ok (61, -9223372036854775748) ∧
    ∃ s1 : CXProgram,
      AllocateSeq exampleConstants 3 threeObjects 19 = .ok (s1, threeObjects.Heap.HeapPointer) ∧
      s1.Heap.HeapPointer = toInt64 (threeObjects.Heap.HeapPointer + 19) ∧
      (-9223372036854775808 ≤ threeObjects.Heap.HeapPointer + 19 →
        threeObjects.Heap.HeapPointer + 19 < 9223372036854775808 →
        s1.Heap.HeapPointer = threeObjects.Heap.HeapPointer + 19) ∧
      s1.Stack = threeObjects.Stack ∧ s1.Data = threeObjects.Data ∧
      s1.Heap.Heap = threeObjects.Heap.Heap ∧
      s1.CallStack = threeObjects.CallStack ∧ s1.CallCounter = threeObjects.CallCounter :=
  ⟨by decide, by decide, by decide,
    AllocateSeq_bump exampleConstants 3 threeObjects 19 (by decide)⟩

/-! ### The collector never reports heap exhaustion -/

theorem bind_ne_exhausted {α β : Type} (x : Except Fault α) (f : α → Except Fault β)
    (hx : x ≠ .error .heapExhausted) (hf : ∀ a, f a ≠ .error .heapExhausted) :
    (x >>= f) ≠ .error .heapExhausted := by
  cases x with
  | error e => simpa [bind, Except.bind] using hx
  | ok a => simpa [bind, Except.bind] using hf a

theorem index_ne_exhausted (m : List Byte) (i : Int) : index m i ≠ .error .heapExhausted := by
  rcases index_cases m i with ⟨b, hb, _, _⟩ | ⟨he, _⟩
  · rw [hb]; simp
  · rw [he]; simp

theorem store_ne_exhausted (m : List Byte) (i : Int) (b : Byte) :
    store m i b ≠ .error .heapExhausted := by
  unfold store
  split <;> simp

theorem slice_ne_exhausted (m : List Byte) (lo hi : Int) :
    slice m lo hi ≠ .error .heapExhausted := by
  unfold slice
  split <;> simp

theorem decode_ne_exhausted (bs : List Byte) :
    DeserializeAtomicI32 bs ≠ .error .heapExhausted := by
  unfold DeserializeAtomicI32
  split <;> simp

theorem forwardLoop_ne_exhausted (fp po ho : Int) (bs : List Byte) :
    ∀ (i : Nat) (heap stack : List Byte),
      forwardLoop fp po ho i bs heap stack ≠ .error .heapExhausted := by
  induction bs with
  | nil => intro i heap stack; simp [forwardLoop]
  | cons b rest ih =>
      intro i heap stack
      simp only [forwardLoop]
      apply bind_ne_exhausted _ _ (store_ne_exhausted _ _ _)
      intro heap1
      apply bind_ne_exhausted _ _ (store_ne_exhausted _ _ _)
      intro stack1
      exact ih _ _ _

theorem markRoot_ne_exhausted (K : Constants) (fp : Int) (st : Pass1) (ptr : CXArgument) :
    markRoot K fp st ptr ≠ .error .heapExhausted := by
  unfold markRoot
  apply bind_ne_exhausted _ _ (slice_ne_exhausted _ _ _)
  intro byts
  apply bind_ne_exhausted _ _ (decode_ne_exhausted _)
  intro heapOffset
  split
  · simp [pure, Except.pure]
  · apply bind_ne_exhausted _ _ (store_ne_exhausted _ _ _)
    intro heap1
    apply bind_ne_exhausted _ _ (forwardLoop_ne_exhausted _ _ _ _ _ _ _)
    intro pr
    apply bind_ne_exhausted _ _ (slice_ne_exhausted _ _ _)
    intro sb
    apply bind_ne_exhausted _ _ (decode_ne_exhausted _)
    intro z
    simp [pure, Except.pure]

theorem markRoots_ne_exhausted (K : Constants) (fp : Int) (ptrs : List CXArgument) :
    ∀ st : Pass1, markRoots K fp st ptrs ≠ .error .heapExhausted := by
  induction ptrs with
  | nil => intro st; simp [markRoots]
  | cons p rest ih =>
      intro st
      simp only [markRoots]
      exact bind_ne_exhausted _ _ (markRoot_ne_exhausted K fp st p) (fun st1 => ih st1)

theorem markFrames_ne_exhausted (K : Constants) (cs : List CXCall) :
    ∀ (n c : Nat) (fp : Int) (st : Pass1),
      markFrames K cs n c fp st ≠ .error .heapExhausted := by
  intro n
  induction n with
  | zero => intro c fp st; simp [markFrames]
  | succ n ih =>
      intro c fp st
      simp only [markFrames]
      cases cs[c]? with
      | none => simp
      | some call =>
          simp only
          exact bind_ne_exhausted _ _ (markRoots_ne_exhausted K fp _ st) (fun st1 => ih _ _ st1)

theorem copyLoop_ne_exhausted (fa c32 : Int) :
    ∀ (n : Nat) (i : Int) (heap : List Byte),
      copyLoop fa c32 n i heap ≠ .error .heapExhausted := by
  intro n
  induction n with
  | zero => intro i heap; simp [copyLoop]
  | succ n ih =>
      intro i heap
      simp only [copyLoop]
      apply bind_ne_exhausted _ _ (index_ne_exhausted _ _)
      intro b
      apply bind_ne_exhausted _ _ (store_ne_exhausted _ _ _)
      intro heap1
      exact ih _ _

theorem relocate_ne_exhausted (hp : Int) :
    ∀ (fuel : Nat) (c : Int) (heap : List Byte) (g : Int),
      relocate hp fuel c heap g ≠ .error .heapExhausted := by
  intro fuel
  induction fuel with
  | zero => intro c heap g; simp only [relocate]; split <;> simp
  | succ fuel ih =>
      intro c heap g
      simp only [relocate]
      split
      · apply bind_ne_exhausted _ _ (slice_ne_exhausted _ _ _)
        intro fb
        apply bind_ne_exhausted _ _ (decode_ne_exhausted _)
        intro fa
        apply bind_ne_exhausted _ _ (slice_ne_exhausted _ _ _)
        intro sb
        apply bind_ne_exhausted _ _ (decode_ne_exhausted _)
        intro z
        apply bind_ne_exhausted _ _ (index_ne_exhausted _ _)
        intro mk
        split
        · apply bind_ne_exhausted _ _ (store_ne_exhausted _ _ _)
          intro heap1
          apply bind_ne_exhausted _ _ (copyLoop_ne_exhausted _ _ _ _ _)
          intro heap2
          exact ih _ _ _
        · exact ih _ _ _
      · simp

theorem MarkAndCompact_ne_exhausted (K : Constants) (fuel : Nat) (prgrm : CXProgram) :
    MarkAndCompact K fuel prgrm ≠ .error .heapExhausted := by
  unfold MarkAndCompact
  apply bind_ne_exhausted _ _ (markFrames_ne_exhausted K _ _ _ _ _)
  intro st
  apply bind_ne_exhausted _ _ (relocate_ne_exhausted _ _ _ _ _)
  intro pr
  simp [pure, Except.pure]

/-- C14. `AllocateSeq` aborts with "heap exhausted" exactly when `HeapPointer + size` exceeds
`INIT_HEAP_SIZE` both before and after one run of the collector. When only the first test
overflows, it returns the `HeapPointer` the collector left and advances it by `size`. The
sums are the sums of Go `int`s that the code computes and tests, taken modulo 2^64 into the
signed 64-bit range; where they fit 64 bits, the statement holds of the plain sums. -/
theorem AllocateSeq_heap_exhausted (K : Constants) (fuel : Nat) (prgrm : CXProgram)
    (size : Int) :
    (AllocateSeq K fuel prgrm size = .error .heapExhausted ↔
      toInt64 (prgrm.Heap.HeapPointer + size) > K.INIT_HEAP_SIZE ∧
        ∃ s1, MarkAndCompact K fuel prgrm = .ok s1 ∧
          toInt64 (s1.Heap.HeapPointer + size) > K.INIT_HEAP_SIZE) ∧
    (toInt64 (prgrm.Heap.HeapPointer + size) > K.INIT_HEAP_SIZE →
      ∀ s1, MarkAndCompact K fuel prgrm = .ok s1 →
        toInt64 (s1.Heap.HeapPointer + size) ≤ K.INIT_HEAP_SIZE →
        AllocateSeq K fuel prgrm size =
          .ok ({ s1 with
              Heap := { s1.Heap with HeapPointer := toInt64 (s1.Heap.HeapPointer + size) } },
            s1.Heap.HeapPointer)) ∧
    ((-9223372036854775808 ≤ prgrm.Heap.HeapPointer + size ∧
        prgrm.Heap.HeapPointer + size < 9223372036854775808) →
      (∀ s1, MarkAndCompact K fuel prgrm = .ok s1 →
        -9223372036854775808 ≤ s1.Heap.HeapPointer + size ∧
          s1.Heap.HeapPointer + size < 9223372036854775808) →
      (AllocateSeq K fuel prgrm size = .error .heapExhausted ↔
        prgrm.Heap.HeapPointer + size > K.INIT_HEAP_SIZE ∧
          ∃ s1, MarkAndCompact K fuel prgrm = .ok s1 ∧
            s1.Heap.HeapPointer + size > K.INIT_HEAP_SIZE)) := by
  have hiff : AllocateSeq K fuel prgrm size = .error .heapExhausted ↔
      toInt64 (prgrm.Heap.HeapPointer + size) > K.INIT_HEAP_SIZE ∧
        ∃ s1, MarkAndCompact K fuel prgrm = .ok s1 ∧
          toInt64 (s1.Heap.HeapPointer + size) > K.INIT_HEAP_SIZE := by
    unfold AllocateSeq
    by_cases h1 : toInt64 (prgrm.Heap.HeapPointer + size) > K.INIT_HEAP_SIZE
    · simp only [h1, if_true, true_and]
      cases hm : MarkAndCompact K fuel prgrm with
      | error e =>
          have := MarkAndCompact_ne_exhausted K fuel prgrm
          rw [hm] at this
          simp only [bind, Except.bind]
          constructor
          · intro he
            cases he
            exact absurd rfl this
          · rintro ⟨s1, hs1, _⟩; cases hs1
      | ok s1 =>
          simp only [bind, Except.bind]
          by_cases h2 : toInt64 (s1.Heap.HeapPointer + size) > K.INIT_HEAP_SIZE
          · simp only [h2, if_true, true_iff]
            exact ⟨s1, rfl, h2⟩
          · simp only [h2, if_false, pure, Except.pure, reduceCtorEq, false_iff]
            rintro ⟨s2, hs2, h3⟩
            cases hs2
            exact h2 h3
    · simp only [h1, if_false, pure, Except.pure, reduceCtorEq, false_and]
  refine ⟨hiff, ?_, ?_⟩
  · intro h1 s1 hm h2
    unfold AllocateSeq
    simp only [h1, if_true, hm, bind, Except.bind, gt_iff_lt, not_lt.mpr h2, if_false, pure,
      Except.pure]
  · intro hr hr1
    rw [hiff, toInt64_of_range _ hr.1 hr.2]
    constructor
    · rintro ⟨h1, s1, hm, h2⟩
      rw [toInt64_of_range _ (hr1 s1 hm).1 (hr1 s1 hm).2] at h2
      exact ⟨h1, s1, hm, h2⟩
    · rintro ⟨h1, s1, hm, h2⟩
      refine ⟨h1, s1, hm, ?_⟩
      rw [toInt64_of_range _ (hr1 s1 hm).1 (hr1 s1 hm).2]
      exact h2

/-! ## Segment writes and reads -/

theorem index_of_slice (m l : List Byte) (lo hi : Int) (h : slice m lo hi = .ok l) :
    l.length = (hi - lo).toNat ∧ 0 ≤ lo ∧ lo ≤ hi ∧ hi ≤ m.length ∧
      ∀ t : Nat, ∀ ht : t < l.length, index m (lo + t) = .ok l[t] := by
  unfold slice at h
  by_cases hc : 0 ≤ lo ∧ lo ≤ hi ∧ hi ≤ m.length
  · rw [if_pos hc] at h
    have hl := Except.ok.inj h
    subst hl
    have hlen : ((m.drop lo.toNat).take (hi - lo).toNat).length = (hi - lo).toNat := by
      simp only [List.length_take, List.length_drop]; omega
    refine ⟨hlen, hc.1, hc.2.1, hc.2.2, ?_⟩
    intro t ht
    rw [index_eq_ok_iff]
    refine ⟨by omega, ?_⟩
    have e : (lo + (t : Int)).toNat = lo.toNat + t := by omega
    rw [e, ← List.getElem?_drop, ← List.getElem?_take_of_lt (by omega : t < (hi - lo).toNat)]
    exact List.getElem?_eq_getElem ht
  · rw [if_neg hc] at h
    cases h

theorem SerializeLE_4_toInt32 (x : Int) : SerializeLE 4 (toInt32 x) = SerializeLE 4 x := by
  have hb : ∀ a b : Int, a % 256 = b % 256 → byteOfInt a = byteOfInt b := by
    intro a b hab
    apply Fin.ext
    have h1 := byteOfInt_val a
    have h2 := byteOfInt_val b
    omega
  simp only [SerializeLE, List.cons.injEq, and_true]
  unfold toInt32
  refine ⟨hb _ _ (by omega), hb _ _ (by omega), hb _ _ (by omega), hb _ _ (by omega)⟩

theorem mkHeader_eq (x : Int) :
    mkHeader (SerializeLE 4 x) = [0, 0, 0, 0, 0] ++ SerializeLE 4 x := by
  simp [mkHeader, OBJECT_HEADER_SIZE, SerializeLE, List.range_succ]

/-- What `WriteToHeap` leaves in the heap: header, payload, and the size the header decodes
to. -/
theorem WriteToHeap_layout (heap : CXHeap) (o : Int) (p : List Byte) (h0 : 0 ≤ o)
    (h1 : o + OBJECT_HEADER_SIZE + p.length ≤ heap.Heap.length) :
    ∃ m2, WriteToHeap heap o p = .ok ⟨m2, heap.HeapPointer⟩ ∧
      (∀ t : Int, 0 ≤ t → t < MARK_SIZE + FORWARDING_ADDRESS_SIZE →
        index m2 (o + t) = .ok 0) ∧
      slice m2 (o + MARK_SIZE + FORWARDING_ADDRESS_SIZE) (o + OBJECT_HEADER_SIZE) =
        .ok (SerializeLE 4 p.length) ∧
      slice m2 (o + OBJECT_HEADER_SIZE) (o + OBJECT_HEADER_SIZE + p.length) = .ok p ∧
      (∀ x : Int, x < o ∨ o + OBJECT_HEADER_SIZE + p.length ≤ x →
        index m2 x = index heap.Heap x) ∧
      get32 m2 (o + MARK_SIZE + FORWARDING_ADDRESS_SIZE) = .ok (toInt32 p.length) ∧
      ((p.length : Int) < 2147483648 →
        get32 m2 (o + MARK_SIZE + FORWARDING_ADDRESS_SIZE) = .ok p.length) := by
  obtain ⟨m2, e1, l1, g1, g2, f1⟩ := WriteToHeap_spec heap o p h0 h1
  have hH : OBJECT_HEADER_SIZE = 9 := rfl
  have h5 : o + MARK_SIZE + FORWARDING_ADDRESS_SIZE = o + 5 := by
    simp only [MARK_SIZE, FORWARDING_ADDRESS_SIZE]; ring
  have h5' : MARK_SIZE + FORWARDING_ADDRESS_SIZE = 5 := rfl
  rw [hH] at h1 g1 g2 f1 ⊢
  rw [SerializeLE_4_toInt32, mkHeader_eq] at g2
  obtain ⟨_, _, _, _, hidx⟩ := index_of_slice _ _ _ _ g2
  have hlen : (SerializeLE 4 (p.length : Int)).length = 4 := SerializeLE_length 4 _
  have hsize : slice m2 (o + 5) (o + 9) = .ok (SerializeLE 4 (p.length : Int)) := by
    apply slice_of_index m2 _ (o + 5) (o + 9) (by omega) (by rw [hlen]; ring) (by omega)
    intro t ht
    have ht4 : t < 4 := by omega
    have := hidx (5 + t) (by simp only [List.length_append, List.length_cons,
      List.length_nil, hlen]; omega)
    rw [show o + ((5 + t : Nat) : Int) = o + 5 + t by push_cast; ring] at this
    rw [this]
    congr 1
    rw [List.getElem_append_right (by simp)]
    simp
  have hdec : get32 m2 (o + 5) = .ok (toInt32 p.length) := by
    apply (get32_ok_iff _ _ _).mpr
    refine ⟨SerializeLE 4 (p.length : Int), ?_, ?_⟩
    · rw [show o + 5 + 4 = o + 9 by ring]; exact hsize
    · rw [DeserializeAtomicI32_SerializeLE]
  refine ⟨m2, e1, ?_, by rw [h5]; exact hsize, g1, f1, by rw [h5]; exact hdec, ?_⟩
  · intro t ht0 ht
    rw [h5'] at ht
    have hl9 : ∀ k : Nat, k < 5 →
        k < ([0, 0, 0, 0, 0] ++ SerializeLE 4 (p.length : Int)).length := by
      intro k hk
      simp only [List.length_append, List.length_cons, List.length_nil, hlen]
      omega
    have ht5 : t = 0 ∨ t = 1 ∨ t = 2 ∨ t = 3 ∨ t = 4 := by omega
    rcases ht5 with rfl | rfl | rfl | rfl | rfl
    · simpa using hidx 0 (hl9 0 (by omega))
    · simpa using hidx 1 (hl9 1 (by omega))
    · simpa using hidx 2 (hl9 2 (by omega))
    · simpa using hidx 3 (hl9 3 (by omega))
    · simpa using hidx 4 (hl9 4 (by omega))
  · intro hp
    rw [h5, hdec, toInt32_of_range _ (by omega) hp]


/-- C16 (amended). `WriteToHeap(heap, o, p)` leaves the mark byte and the forwarding slot at
`o` zero, writes the 32-bit little-endian length of `p` as the size field, puts `p` after the
header and changes no other heap byte. The size that the two passes of `MarkAndCompact`
decode from this header is the length of `p` wrapped to a signed 32-bit value: the length
itself when it is below 2^31. -/
theorem WriteToHeap_header (heap : CXHeap) (o : Int) (p : List Byte) (h0 : 0 ≤ o)
    (h1 : o + OBJECT_HEADER_SIZE + p.length ≤ heap.Heap.length) :
    ∃ m2, WriteToHeap heap o p = .ok ⟨m2, heap.HeapPointer⟩ ∧
      (∀ t : Int, 0 ≤ t → t < MARK_SIZE + FORWARDING_ADDRESS_SIZE →
        index m2 (o + t) = .ok 0) ∧
      slice m2 (o + MARK_SIZE + FORWARDING_ADDRESS_SIZE) (o + OBJECT_HEADER_SIZE) =
        .ok (SerializeLE 4 p.length) ∧
      slice m2 (o + OBJECT_HEADER_SIZE) (o + OBJECT_HEADER_SIZE + p.length) = .ok p ∧
      (∀ x : Int, x < o ∨ o + OBJECT_HEADER_SIZE + p.length ≤ x →
        index m2 x = index heap.Heap x) ∧
      get32 m2 (o + MARK_SIZE + FORWARDING_ADDRESS_SIZE) = .ok (toInt32 p.length) ∧
      ((p.length : Int) < 2147483648 →
        get32 m2 (o + MARK_SIZE + FORWARDING_ADDRESS_SIZE) = .ok p.length) :=
  WriteToHeap_layout heap o p h0 h1

set_option maxRecDepth 100000 in
theorem WriteToHeap_header_witness :
    (∃ m2, WriteToHeap ⟨List.replicate 24 0xEE, 4⟩ 4 [1, 2, 3] = .ok ⟨m2, 4⟩ ∧
      (∀ t : Int, 0 ≤ t → t < MARK_SIZE + FORWARDING_ADDRESS_SIZE →
        index m2 (4 + t) = .ok 0) ∧
      slice m2 (4 + MARK_SIZE + FORWARDING_ADDRESS_SIZE) (4 + OBJECT_HEADER_SIZE) =
        .ok (SerializeLE 4 ([1, 2, 3] : List Byte).length) ∧
      slice m2 (4 + OBJECT_HEADER_SIZE)
        (4 + OBJECT_HEADER_SIZE + ([1, 2, 3] : List Byte).length) = .ok [1, 2, 3] ∧
      (∀ x : Int, x < 4 ∨ 4 + OBJECT_HEADER_SIZE + ([1, 2, 3] : List Byte).length ≤ x →
        index m2 x = index (List.replicate 24 0xEE) x) ∧
      get32 m2 (4 + MARK_SIZE + FORWARDING_ADDRESS_SIZE) =
        .ok (toInt32 ([1, 2, 3] : List Byte).length) ∧
      ((([1, 2, 3] : List Byte).length : Int) < 2147483648 →
        get32 m2 (4 + MARK_SIZE + FORWARDING_ADDRESS_SIZE) =
          .ok ([1, 2, 3] : List Byte).length)) ∧
    (WriteToHeap ⟨List.replicate 24 0xEE, 4⟩ 4 [1, 2, 3]).map (fun h => h.Heap) =
      .ok ([0xEE, 0xEE, 0xEE, 0xEE, 0, 0, 0, 0, 0, 3, 0, 0, 0, 1, 2, 3] ++
        List.replicate 8 0xEE) :=
  ⟨WriteToHeap_header ⟨List.replicate 24 0xEE, 4⟩ 4 [1, 2, 3] (by decide) (by decide),
    by decide⟩

/-- C16 (as stated) fails for a payload of 2^31 bytes: written at offset 0 of a heap of
2^31 + 9 bytes, its header decodes to the size -2^31, not to the length 2^31 of the
payload. -/
theorem WriteToHeap_size_counterexample :
    ((List.replicate 2147483648 (0 : Byte)).length : Int) = 2147483648 ∧
    ∃ m2, WriteToHeap ⟨List.replicate 2147483657 0, 0⟩ 0 (List.replicate 2147483648 0) =
        .ok ⟨m2, 0⟩ ∧
      get32 m2 (0 + MARK_SIZE + FORWARDING_ADDRESS_SIZE) = .ok (-2147483648) := by
  refine ⟨by simp only [List.length_replicate]; rfl, ?_⟩
  obtain ⟨m2, e, _, _, _, _, hd, _⟩ := WriteToHeap_layout ⟨List.replicate 2147483657 0, 0⟩ 0
    (List.replicate 2147483648 0) (le_refl 0)
    (by simp only [List.length_replicate, OBJECT_HEADER_SIZE]; decide)
  refine ⟨m2, e, ?_⟩
  rw [hd]
  simp only [List.length_replicate]
  decide

/-- C17. `WriteMemory` for a stack argument makes `stack[o .. o + len(b))` equal to `b`,
leaves every other stack byte, the data segment, the heap and `HeapPointer` unchanged;
for a data-segment argument the same with the roles of stack and data exchanged. -/
theorem WriteMemory_stack_data (stack : CXProgram) (o : Int) (A : CXArgument) (b : List Byte)
    (h0 : 0 ≤ o) :
    (A.MemoryType = .MEM_STACK → o + b.length ≤ stack.Stack.length →
      ∃ s1, WriteMemory stack o A b = .ok s1 ∧
        slice s1.Stack o (o + b.length) = .ok b ∧
        (∀ x : Int, x < o ∨ o + b.length ≤ x → index s1.Stack x = index stack.Stack x) ∧
        s1.Stack.length = stack.Stack.length ∧
        s1.Data = stack.Data ∧ s1.Heap = stack.Heap) ∧
    (A.MemoryType = .MEM_DATA → o + b.length ≤ stack.Data.length →
      ∃ s1, WriteMemory stack o A b = .ok s1 ∧
        slice s1.Data o (o + b.length) = .ok b ∧
        (∀ x : Int, x < o ∨ o + b.length ≤ x → index s1.Data x = index stack.Data x) ∧
        s1.Data.length = stack.Data.length ∧
        s1.Stack = stack.Stack ∧ s1.Heap = stack.Heap) := by
  refine ⟨?_, ?_⟩
  · intro hm hr
    obtain ⟨m1, e1, l1, g1, f1⟩ := writeBytes_slice b stack.Stack o h0 hr
    refine ⟨{ stack with Stack := m1 }, ?_, g1, f1, l1, rfl, rfl⟩
    simp only [WriteMemory, hm, WriteToStack, e1, bind, Except.bind, pure, Except.pure]
  · intro hm hr
    obtain ⟨m1, e1, l1, g1, f1⟩ := writeBytes_slice b stack.Data o h0 hr
    refine ⟨{ stack with Data := m1 }, ?_, g1, f1, l1, rfl, rfl⟩
    simp only [WriteMemory, hm, WriteToData, e1, bind, Except.bind, pure, Except.pure]

set_option maxRecDepth 100000 in
theorem WriteMemory_stack_data_witness :
    (∃ s1, WriteMemory ⟨List.replicate 8 0, [7, 7], ⟨[9], 1⟩, [], 0⟩ 2 (rootAt 2) [1, 2, 3] =
        .ok s1 ∧
      slice s1.Stack 2 (2 + ([1, 2, 3] : List Byte).length) = .ok [1, 2, 3] ∧
      (∀ x : Int, x < 2 ∨ 2 + (([1, 2, 3] : List Byte).length : Int) ≤ x →
        index s1.Stack x = index (List.replicate 8 0) x) ∧
      s1.Stack.length = (List.replicate 8 (0 : Byte)).length ∧
      s1.Data = [7, 7] ∧ s1.Heap = ⟨[9], 1⟩) ∧
    (WriteMemory ⟨List.replicate 8 0, [7, 7], ⟨[9], 1⟩, [], 0⟩ 2 (rootAt 2) [1, 2, 3]).map
        (fun s => s.Stack) = .ok [0, 0, 1, 2, 3, 0, 0, 0] :=
  ⟨(WriteMemory_stack_data ⟨List.replicate 8 0, [7, 7], ⟨[9], 1⟩, [], 0⟩ 2 (rootAt 2)
      [1, 2, 3] (by decide)).1 rfl (by decide), by decide⟩

/-- C18. With in-range offsets, `ReadMemory` and `WriteMemory` abort exactly when the memory
type of the argument is none of stack, data and heap, and then with the fault of an
unsupported memory type; for the three supported types `ReadMemory` returns the
`A.TotalSize` bytes from `offset` on of the segment that the memory type names. -/
theorem memory_type_faults (stack : CXProgram) (offset : Int) (A : CXArgument)
    (byts : List Byte) (hr : readInRange stack offset A)
    (hw : writeInRange stack offset A byts) :
    ((∃ e, ReadMemory stack offset A = .error e) ↔ A.MemoryType = .MEM_OTHER) ∧
    ((∃ e, WriteMemory stack offset A byts = .error e) ↔ A.MemoryType = .MEM_OTHER) ∧
    (A.MemoryType = .MEM_OTHER →
      ReadMemory stack offset A = .error .badMemType ∧
        WriteMemory stack offset A byts = .error .badMemType) ∧
    (A.MemoryType ≠ .MEM_OTHER →
      ReadMemory stack offset A =
        .ok (((segment stack A.MemoryType).drop offset.toNat).take A.TotalSize.toNat)) := by
  have hH : OBJECT_HEADER_SIZE = 9 := rfl
  have e : (offset + A.TotalSize - offset).toNat = A.TotalSize.toNat := by
    congr 1; ring
  cases hm : A.MemoryType with
  | MEM_STACK =>
      simp only [readInRange, writeInRange, hm, segment] at hr hw
      obtain ⟨m1, e1, _⟩ := writeBytes_slice byts stack.Stack offset hw.1 hw.2
      have hrd : ReadMemory stack offset A = .ok ((stack.Stack.drop offset.toNat).take
          A.TotalSize.toNat) := by
        simp only [ReadMemory, hm]
        rw [slice_eq_ok _ _ _ hr.1 (by omega) hr.2.2, e]
      have hwr : WriteMemory stack offset A byts = .ok { stack with Stack := m1 } := by
        simp only [WriteMemory, hm, WriteToStack, e1, bind, Except.bind, pure, Except.pure]
      simp [hrd, hwr, segment]
  | MEM_DATA =>
      simp only [readInRange, writeInRange, hm, segment] at hr hw
      obtain ⟨m1, e1, _⟩ := writeBytes_slice byts stack.Data offset hw.1 hw.2
      have hrd : ReadMemory stack offset A = .ok ((stack.Data.drop offset.toNat).take
          A.TotalSize.toNat) := by
        simp only [ReadMemory, hm]
        rw [slice_eq_ok _ _ _ hr.1 (by omega) hr.2.2, e]
      have hwr : WriteMemory stack offset A byts = .ok { stack with Data := m1 } := by
        simp only [WriteMemory, hm, WriteToData, e1, bind, Except.bind, pure, Except.pure]
      simp [hrd, hwr, segment]
  | MEM_HEAP =>
      simp only [readInRange, writeInRange, hm, segment] at hr hw
      obtain ⟨m2, e2, _⟩ := WriteToHeap_spec stack.Heap offset byts hw.1 hw.2
      have hrd : ReadMemory stack offset A = .ok ((stack.Heap.Heap.drop offset.toNat).take
          A.TotalSize.toNat) := by
        simp only [ReadMemory, hm]
        rw [slice_eq_ok _ _ _ hr.1 (by omega) hr.2.2, e]
      have hwr : WriteMemory stack offset A byts =
          .ok { stack with Heap := ⟨m2, stack.Heap.HeapPointer⟩ } := by
        simp only [WriteMemory, hm, e2, bind, Except.bind, pure, Except.pure]
      simp [hrd, hwr, segment]
  | MEM_OTHER =>
      simp [ReadMemory, WriteMemory, hm]

theorem memory_type_faults_witness :
    ((∃ e, ReadMemory ⟨[1, 2, 3, 4], [], ⟨[], 0⟩, [], 0⟩ 0
        ⟨0, 4, 4, .MEM_OTHER, false, false, 0, [], [], [], [], none⟩ = .error e) ↔
      MemType.MEM_OTHER = MemType.MEM_OTHER) ∧
    ReadMemory ⟨[1, 2, 3, 4], [], ⟨[], 0⟩, [], 0⟩ 1
        ⟨0, 2, 2, .MEM_STACK, false, false, 0, [], [], [], [], none⟩ = .ok [2, 3] :=
  ⟨(memory_type_faults ⟨[1, 2, 3, 4], [], ⟨[], 0⟩, [], 0⟩ 0
      ⟨0, 4, 4, .MEM_OTHER, false, false, 0, [], [], [], [], none⟩ [] trivial trivial).1,
    by decide⟩

/-! ## Null roots -/

theorem markAll_null (K : Constants) :
    ∀ (refs : List (Int × CXArgument)) (hs : List Int) (st : Pass1),
      refs.map (fun r => get32 st.Stack (r.1 + r.2.Offset)) = hs.map .ok →
      (∀ h ∈ hs, h = K.NULL_HEAP_ADDRESS) → markAll K st refs = .ok st := by
  intro refs
  induction refs with
  | nil => intro hs st _ _; rfl
  | cons r rest ih =>
      intro hs st hr hn
      cases hs with
      | nil => simp at hr
      | cons h hs =>
          simp only [List.map_cons, List.cons.injEq] at hr
          have h0 := hn h (by simp)
          subst h0
          simp only [markAll, markRoot_null K r.1 st r.2 hr.1, bind, Except.bind]
          exact ih hs st hr.2 (fun h hh => hn h (List.mem_cons_of_mem _ hh))

/-- Pass 2 on a heap without marked headers changes nothing. -/
theorem relocate_unmarked (hp : Int) :
    ∀ (sizes : List Int) (c g : Int) (h : List Byte) (fuel : Nat),
      Layout h hp c sizes → 0 ≤ c → hp ≤ h.length → sizes.length ≤ fuel →
      relocate hp fuel c h g = .ok (h, g) := by
  intro sizes
  induction sizes with
  | nil =>
      intro c g h fuel hl _ _ _
      simp only [Layout] at hl
      subst hl
      cases fuel <;> simp [relocate]
  | cons z rest ih =>
      intro c g h fuel hl hc hlen hfuel
      cases fuel with
      | zero => simp at hfuel
      | succ fuel =>
          simp only [List.length_cons, Nat.add_le_add_iff_right] at hfuel
          rw [Layout_cons] at hl
          obtain ⟨m1, m3, m2, m5⟩ := hl
          have hm := (Layout_iff_Marked h hp rest (c + 9 + z) g).mp m5
          have hb := (Marked_bounds h hp rest _ _ _ hm).1
          obtain ⟨fb, fv, f1, f2⟩ := get32_total h (c + 1) (by omega) (by omega)
          obtain ⟨sb, s1, s2⟩ := (get32_ok_iff _ _ _).mp m2
          have s1' : slice h (c + 1 + 4) (c + 1 + 4 + 4) = .ok sb := by
            rw [← s1]; congr 1 <;> ring
          have hlt : c < hp := by omega
          have hne : ¬ ((0 : Byte) = 1) := by decide
          have hM : MARK_SIZE = 1 := rfl
          have hF : FORWARDING_ADDRESS_SIZE = 4 := rfl
          have hO : OBJECT_SIZE = 4 := rfl
          have hH : OBJECT_HEADER_SIZE = 9 := rfl
          have hadd : c + (9 + z) = c + 9 + z := by ring
          simp only [relocate, hlt, if_true, hM, hF, hO, hH, f1, f2, s1', s2, m3, hne,
            if_false, bind, Except.bind, hadd]
          exact ih _ _ _ _ m5 (by omega) hlen hfuel

/-- C11 (amended). A root slot that decodes to `NULL_HEAP_ADDRESS` is skipped by pass 1: the
stack, the heap and `faddr` stay as they are. When the heap is a sequence of contiguous
objects with non-negative sizes from `NULL_HEAP_ADDRESS_OFFSET` up to `HeapPointer`, which
lies inside the heap, all mark bytes are 0, frames `0..CallCounter` exist and every root is
null, `MarkAndCompact` leaves the stack and the heap bytes unchanged and sets `HeapPointer`
to `NULL_HEAP_ADDRESS_OFFSET`. -/
theorem null_roots_inert (K : Constants) (prgrm : CXProgram) (sizes hs : List Int)
    (wf : WellFormed K prgrm sizes hs) (hnull : ∀ h ∈ hs, h = K.NULL_HEAP_ADDRESS) :
    (∀ (fp : Int) (st : Pass1) (ptr : CXArgument),
      get32 st.Stack (fp + ptr.Offset) = .ok K.NULL_HEAP_ADDRESS →
      markRoot K fp st ptr = .ok st) ∧
    ∀ fuel : Nat, sizes.length ≤ fuel → MarkAndCompact K fuel prgrm =
      .ok { prgrm with
            Heap := { prgrm.Heap with HeapPointer := K.NULL_HEAP_ADDRESS_OFFSET } } := by
  refine ⟨fun fp st ptr h => markRoot_null K fp st ptr h, ?_⟩
  intro fuel hfuel
  have hroots : (rootRefs (prgrm.CallStack.take (prgrm.CallCounter + 1).toNat) 0).map
      (fun r => get32 prgrm.Stack (r.1 + r.2.Offset)) = hs.map .ok := by
    rw [← wf.roots]; unfold rootSlots; rw [List.map_map]; rfl
  have h1 := markAll_null K _ hs ⟨prgrm.Stack, prgrm.Heap.Heap, K.NULL_HEAP_ADDRESS_OFFSET⟩
    hroots hnull
  have h2 := relocate_unmarked prgrm.Heap.HeapPointer sizes K.NULL_HEAP_ADDRESS_OFFSET
    K.NULL_HEAP_ADDRESS_OFFSET prgrm.Heap.Heap fuel wf.layout wf.offset_nonneg
    wf.heap_in_range hfuel
  simp only [MarkAndCompact, markPass_eq_markAll K prgrm wf.frames, h1, h2, bind, Except.bind,
    pure, Except.pure]

set_option maxRecDepth 100000 in
theorem null_roots_inert_witness :
    ((∀ (fp : Int) (st : Pass1) (ptr : CXArgument),
      get32 st.Stack (fp + ptr.Offset) = .ok exampleConstants.NULL_HEAP_ADDRESS →
      markRoot exampleConstants fp st ptr = .ok st) ∧
    ∀ fuel : Nat, [10, 10, 10].length ≤ fuel → MarkAndCompact exampleConstants fuel nullRoots =
      .ok { nullRoots with
            Heap := { nullRoots.Heap with
                      HeapPointer := exampleConstants.NULL_HEAP_ADDRESS_OFFSET } }) ∧
    (MarkAndCompact exampleConstants 3 nullRoots).map observe =
      .ok (nullRoots.Stack, nullRoots.Heap.Heap, 4) :=
  ⟨null_roots_inert exampleConstants nullRoots [10, 10, 10] [0, 0]
    ⟨by decide, by decide, by decide, by decide, by decide, by decide⟩ (by decide),
    by decide⟩

/-! ## Forwarding addresses -/

/-- In a heap marked in heap order the plan moves every object down or leaves it, and lists
the objects by increasing old and new address, each new image ending before the next old
one starts. -/
theorem plan_order (h : List Byte) (hp : Int) (sizes : List Int) :
    ∀ (c g : Int) (L : List Int), Marked h hp c g sizes L → g ≤ c →
      (∀ t ∈ plan c g sizes L,
        c ≤ t.1 ∧ g ≤ t.2.1 ∧ t.2.1 ≤ t.1 ∧ 0 ≤ t.2.2 ∧
          index h t.1 = .ok 1 ∧ get32 h (t.1 + 1) = .ok t.2.1) ∧
      (plan c g sizes L).Pairwise fun t u =>
        t.1 < u.1 ∧ t.2.1 < u.2.1 ∧ t.2.1 + 9 + t.2.2 ≤ u.1 := by
  induction sizes with
  | nil => intro c g L _ _; simp [plan]
  | cons z rest ih =>
      intro c g L hm hgc
      rcases head?_cases L c with ⟨L1, rfl⟩ | hd
      · rw [Marked_cons_live] at hm
        obtain ⟨m1, m2, m3, m4, m5⟩ := hm
        obtain ⟨i1, i2⟩ := ih (c + 9 + z) (g + 9 + z) L1 m5 (by omega)
        rw [plan_cons_live]
        refine ⟨?_, ?_⟩
        · intro t ht
          rcases List.mem_cons.mp ht with rfl | ht1
          · exact ⟨le_refl _, le_refl _, hgc, m1, m3, m4⟩
          · obtain ⟨a1, a2, a3, a4, a5, a6⟩ := i1 t ht1
            exact ⟨by omega, by omega, a3, a4, a5, a6⟩
        · rw [List.pairwise_cons]
          refine ⟨?_, i2⟩
          intro u hu
          obtain ⟨a1, a2, _⟩ := i1 u hu
          simp only
          exact ⟨by omega, by omega, by omega⟩
      · rw [Marked_cons_dead _ _ _ _ _ _ _ hd] at hm
        obtain ⟨m1, _, _, m5⟩ := hm
        obtain ⟨i1, i2⟩ := ih (c + 9 + z) g L m5 (by omega)
        rw [plan_cons_dead _ _ _ _ _ hd]
        refine ⟨?_, i2⟩
        intro t ht
        obtain ⟨a1, a2, a3, a4, a5, a6⟩ := i1 t ht
        exact ⟨by omega, a2, a3, a4, a5, a6⟩

/-- Where the collector works: on a well-formed heap whose roots are visited in heap order,
pass 1 writes one forwarding address per non-null root; each is at most the address of its
object, and the forwarding addresses increase with the object addresses, every relocated image
ending at or before the start of the next live object, so the low-to-high copy of pass 2 never
overwrites a live object that is still to be relocated. -/
theorem forwarding_in_heap_order (K : Constants) (prgrm : CXProgram) (sizes hs : List Int)
    (wf : WellFormed K prgrm sizes hs) (ord : InHeapOrder K prgrm hs) :
    ∃ (st : Pass1) (F : List (Int × Int × Int)),
      markPass K prgrm = .ok st ∧
      F.map (fun t => t.1) = liveRoots K hs ∧
      (∀ t ∈ F, (t.1, t.2.2) ∈ objectsFrom K.NULL_HEAP_ADDRESS_OFFSET sizes ∧
        index st.Heap t.1 = .ok 1 ∧ get32 st.Heap (t.1 + MARK_SIZE) = .ok t.2.1 ∧
        t.2.1 ≤ t.1) ∧
      F.Pairwise fun t u =>
        t.1 < u.1 ∧ t.2.1 < u.2.1 ∧ t.2.1 + OBJECT_HEADER_SIZE + t.2.2 ≤ u.1 := by
  obtain ⟨st, heap1, a1, a2, a3, a4, a5, a6, a7, a8, a9, a10, a11⟩ :=
    MarkAndCompact_spec K prgrm sizes hs wf ord
  obtain ⟨p1, p2⟩ := plan_order st.Heap _ sizes _ _ _ a4 (le_refl _)
  refine ⟨st, _, a1, a5, ?_, p2⟩
  intro t ht
  obtain ⟨_, hin, _⟩ := plan_mem st.Heap _ sizes _ _ _ a4 t ht
  obtain ⟨_, _, q3, _, q5, q6⟩ := p1 t ht
  exact ⟨hin, q5, q6, q3⟩

set_option maxRecDepth 100000 in
theorem forwarding_in_heap_order_witness :
    (∃ (st : Pass1) (F : List (Int × Int × Int)),
      markPass exampleConstants threeObjects = .ok st ∧
      F.map (fun t => t.1) = liveRoots exampleConstants [23] ∧
      (∀ t ∈ F, (t.1, t.2.2) ∈
          objectsFrom exampleConstants.NULL_HEAP_ADDRESS_OFFSET [10, 10, 10] ∧
        index st.Heap t.1 = .ok 1 ∧ get32 st.Heap (t.1 + MARK_SIZE) = .ok t.2.1 ∧
        t.2.1 ≤ t.1) ∧
      F.Pairwise fun t u =>
        t.1 < u.1 ∧ t.2.1 < u.2.1 ∧ t.2.1 + OBJECT_HEADER_SIZE + t.2.2 ≤ u.1) ∧
    (markPass exampleConstants threeObjects).map
        (fun st => (index st.Heap 23, get32 st.Heap (23 + MARK_SIZE))) = .ok (.ok 1, .ok 4) :=
  ⟨forwarding_in_heap_order exampleConstants threeObjects [10, 10, 10] [23]
    threeObjects_wellFormed threeObjects_inHeapOrder, by decide⟩

set_option maxRecDepth 100000 in
/-- C19, a defect of the collector. In `reversedRoots` pass 1 writes the forwarding address 23
into the header of the object at 4, above the object, and the forwarding address 4 into the
header of the object at 23: forwarding addresses follow the order of the roots, not the
order of the heap, so they decrease while the object addresses increase, and the
low-to-high copy of pass 2 overwrites the object at 23 before it is relocated. -/
theorem forwarding_order_counterexample :
    WellFormed exampleConstants reversedRoots [10, 10] [23, 4] ∧
      (markPass exampleConstants reversedRoots).map
          (fun st => (index st.Heap 4, get32 st.Heap (4 + MARK_SIZE),
            index st.Heap 23, get32 st.Heap (23 + MARK_SIZE))) =
        .ok (.ok 1, .ok 23, .ok 1, .ok 4) :=
  ⟨reversedRoots_wellFormed, by decide⟩

/-! ## Termination of pass 2 -/

theorem MemFault_ok {α : Type} (a : α) : MemFault (Except.ok a : Except Fault α) := by
  intro e he; cases he

theorem MemFault_bind {α β : Type} (x : Except Fault α) (f : α → Except Fault β)
    (hx : MemFault x) (hf : ∀ a, MemFault (f a)) : MemFault (x >>= f) := by
  cases x with
  | error e =>
      intro e1 he
      simp only [bind, Except.bind] at he
      cases he
      exact hx e rfl
  | ok a => simpa [bind, Except.bind] using hf a

theorem MemFault_index (m : List Byte) (i : Int) : MemFault (index m i) := by
  intro e he
  rcases index_cases m i with ⟨b, hb, _, _⟩ | ⟨h1, _⟩
  · rw [hb] at he; cases he
  · rw [h1] at he; cases he; exact Or.inl rfl

theorem MemFault_store (m : List Byte) (i : Int) (b : Byte) : MemFault (store m i b) := by
  intro e he
  unfold store at he
  split at he
  · cases he
  · cases he; exact Or.inl rfl

theorem MemFault_slice (m : List Byte) (lo hi : Int) : MemFault (slice m lo hi) := by
  intro e he
  unfold slice at he
  split at he
  · cases he
  · cases he; exact Or.inl rfl

theorem MemFault_decode (bs : List Byte) : MemFault (DeserializeAtomicI32 bs) := by
  intro e he
  unfold DeserializeAtomicI32 at he
  split at he
  · cases he
  · cases he; exact Or.inr rfl

theorem MemFault_copyLoop (fa c32 : Int) :
    ∀ (n : Nat) (i : Int) (heap : List Byte), MemFault (copyLoop fa c32 n i heap) := by
  intro n
  induction n with
  | zero => intro i heap; exact MemFault_ok _
  | succ n ih =>
      intro i heap
      simp only [copyLoop]
      apply MemFault_bind _ _ (MemFault_index _ _)
      intro b
      apply MemFault_bind _ _ (MemFault_store _ _ _)
      intro heap1
      exact ih _ _

theorem MemFault_relocateBody (c : Int) (heap : List Byte) : MemFault (relocateBody c heap) := by
  unfold relocateBody
  apply MemFault_bind _ _ (MemFault_slice _ _ _)
  intro fb
  apply MemFault_bind _ _ (MemFault_decode _)
  intro fa
  apply MemFault_bind _ _ (MemFault_slice _ _ _)
  intro sb
  apply MemFault_bind _ _ (MemFault_decode _)
  intro z
  apply MemFault_bind _ _ (MemFault_index _ _)
  intro mk
  split
  · apply MemFault_bind _ _ (MemFault_store _ _ _)
    intro heap1
    apply MemFault_bind _ _ (MemFault_copyLoop _ _ _ _ _)
    intro heap2
    exact MemFault_ok _
  · exact MemFault_ok _

/-- An iteration of the relocation loop is its body followed by the rest of the loop. -/
theorem relocate_step (hp : Int) (fuel : Nat) (c : Int) (heap : List Byte) (g : Int)
    (hc : c < hp) :
    (∃ e, relocateBody c heap = .error e ∧ relocate hp (fuel + 1) c heap g = .error e) ∨
    (∃ z heap1 g1, relocateBody c heap = .ok (z, heap1) ∧
      relocate hp (fuel + 1) c heap g =
        relocate hp fuel (c + (OBJECT_HEADER_SIZE + z)) heap1 g1) := by
  simp only [relocate, relocateBody, hc, if_true, bind, Except.bind]
  cases slice heap (c + MARK_SIZE) (c + MARK_SIZE + FORWARDING_ADDRESS_SIZE) with
  | error e => exact Or.inl ⟨e, rfl, rfl⟩
  | ok fb =>
    simp only
    cases DeserializeAtomicI32 fb with
    | error e => exact Or.inl ⟨e, rfl, rfl⟩
    | ok fa =>
      simp only
      cases slice heap (c + MARK_SIZE + FORWARDING_ADDRESS_SIZE)
          (c + MARK_SIZE + FORWARDING_ADDRESS_SIZE + OBJECT_SIZE) with
      | error e => exact Or.inl ⟨e, rfl, rfl⟩
      | ok sb =>
        simp only
        cases DeserializeAtomicI32 sb with
        | error e => exact Or.inl ⟨e, rfl, rfl⟩
        | ok z =>
          simp only
          cases index heap c with
          | error e => exact Or.inl ⟨e, rfl, rfl⟩
          | ok mk =>
            simp only
            by_cases hmk : mk = 1
            · simp only [hmk, if_true]
              cases store heap c 0 with
              | error e => exact Or.inl ⟨e, rfl, rfl⟩
              | ok heap1 =>
                simp only
                cases copyLoop fa (toInt32 c) (toInt32 (OBJECT_HEADER_SIZE + z)).toNat 0
                    heap1 with
                | error e => exact Or.inl ⟨e, rfl, rfl⟩
                | ok heap2 => exact Or.inr ⟨z, heap2, _, rfl, rfl⟩
            · simp only [hmk, if_false]
              exact Or.inr ⟨z, heap, _, rfl, rfl⟩

/-- When the sizes met are non-negative, the relocation loop from `c` needs no more than
`(hp - c) / 9 + 1` iterations. -/
theorem relocate_fuel_enough (hp : Int) :
    ∀ (fuel : Nat) (c : Int) (heap : List Byte) (g : Int),
      (∀ z ∈ sizesMet hp fuel c heap, 0 ≤ z) → ((hp - c) / 9 + 1).toNat ≤ fuel →
      relocate hp fuel c heap g ≠ .error .fuel := by
  intro fuel
  induction fuel with
  | zero =>
      intro c heap g _ hb
      have hc : ¬ c < hp := by omega
      simp [relocate, hc]
  | succ fuel ih =>
      intro c heap g hz hb
      by_cases hc : c < hp
      · rcases relocate_step hp fuel c heap g hc with ⟨e, e1, e2⟩ | ⟨z, heap1, g1, e1, e2⟩
        · rw [e2]
          intro he
          cases he
          rcases MemFault_relocateBody c heap _ e1 with h1 | h1 <;> cases h1
        · simp only [sizesMet, hc, if_true, e1, List.mem_cons, forall_eq_or_imp] at hz
          obtain ⟨hz0, hz1⟩ := hz
          rw [e2]
          have hH : OBJECT_HEADER_SIZE = 9 := rfl
          rw [hH] at hz1 ⊢
          exact ih _ _ _ hz1 (by omega)
      · simp [relocate, hc]

theorem relocate_stuck : ∀ (fuel : Nat) (g : Int),
    relocate 13 fuel 4 stuckHeap g = .error .fuel := by
  intro fuel
  induction fuel with
  | zero => intro g; rfl
  | succ fuel ih =>
      intro g
      have hb : relocateBody 4 stuckHeap = .ok (-9, stuckHeap) := by decide
      rcases relocate_step 13 fuel 4 stuckHeap g (by decide) with ⟨e, e1, _⟩ |
        ⟨z, heap1, g1, e1, e2⟩
      · rw [hb] at e1; cases e1
      · rw [hb] at e1
        cases e1
        rw [e2]
        exact ih g1

/-- C20. Pass 2 terminates when the size fields it meets are non-negative: the relocation
loop from `NULL_HEAP_ADDRESS_OFFSET` then ends (returns or panics) within
`(HeapPointer - NULL_HEAP_ADDRESS_OFFSET) / OBJECT_HEADER_SIZE + 1` iterations. On
`stuckHeap`, whose first size field is `-OBJECT_HEADER_SIZE`, the cursor stays at the first
header and no number of iterations ends the loop. -/
theorem relocate_terminates (K : Constants) (hp : Int) (heap : List Byte) (g : Int)
    (fuel : Nat) (hf : iterationBound K hp ≤ fuel)
    (hs : ∀ z ∈ sizesMet hp fuel K.NULL_HEAP_ADDRESS_OFFSET heap, 0 ≤ z) :
    relocate hp fuel K.NULL_HEAP_ADDRESS_OFFSET heap g ≠ .error .fuel ∧
    (get32 stuckHeap (4 + MARK_SIZE + FORWARDING_ADDRESS_SIZE) = .ok (-OBJECT_HEADER_SIZE) ∧
      (∀ n : Nat, sizesMet 13 (n + 1) 4 stuckHeap =
        -OBJECT_HEADER_SIZE :: sizesMet 13 n 4 stuckHeap) ∧
      ∀ (n : Nat) (g1 : Int), relocate 13 n 4 stuckHeap g1 = .error .fuel) := by
  refine ⟨relocate_fuel_enough hp fuel _ heap g hs hf, by decide, ?_, relocate_stuck⟩
  intro n
  have hb : relocateBody 4 stuckHeap = .ok (-9, stuckHeap) := by decide
  simp only [sizesMet, hb]
  rfl

set_option maxRecDepth 100000 in
theorem relocate_terminates_witness :
    (relocate 61 (iterationBound exampleConstants 61)
        exampleConstants.NULL_HEAP_ADDRESS_OFFSET threeObjects.Heap.Heap 4 ≠ .error .fuel ∧
      (get32 stuckHeap (4 + MARK_SIZE + FORWARDING_ADDRESS_SIZE) = .ok (-OBJECT_HEADER_SIZE) ∧
        (∀ n : Nat, sizesMet 13 (n + 1) 4 stuckHeap =
          -OBJECT_HEADER_SIZE :: sizesMet 13 n 4 stuckHeap) ∧
        ∀ (n : Nat) (g1 : Int), relocate 13 n 4 stuckHeap g1 = .error .fuel)) ∧
    iterationBound exampleConstants 61 = 7 ∧
    sizesMet 61 7 4 threeObjects.Heap.Heap = [10, 10, 10] :=
  ⟨relocate_terminates exampleConstants 61 threeObjects.Heap.Heap 4
    (iterationBound exampleConstants 61) (le_refl _) (by decide), by decide, by decide⟩

/-! ## Null roots on a heap that is not a sequence of objects -/

theorem MarkAndCompact_relocate_error (K : Constants) (fuel : Nat) (prgrm : CXProgram)
    (st : Pass1) (e : Fault) (h1 : markPass K prgrm = .ok st)
    (h2 : relocate prgrm.Heap.HeapPointer fuel K.NULL_HEAP_ADDRESS_OFFSET st.Heap
      K.NULL_HEAP_ADDRESS_OFFSET = .error e) :
    MarkAndCompact K fuel prgrm = .error e := by
  unfold MarkAndCompact
  rw [h1]
  simp only [bind, Except.bind]
  rw [h2]

set_option maxRecDepth 100000 in
/-- C11 (as stated) fails: in `stuckProgram` the only root holds `NULL_HEAP_ADDRESS` and the
mark byte of the only header, at 4, is 0, but the size field of that header reads
`-OBJECT_HEADER_SIZE`: the cursor of pass 2 never advances and `MarkAndCompact` does not
return, whatever the number of iterations allowed. In `shortHeap`, whose `HeapPointer` lies
beyond the end of the heap, pass 2 reads outside the heap and panics. -/
theorem null_roots_counterexample :
    (rootSlots stuckProgram).map (get32 stuckProgram.Stack) =
      [.ok exampleConstants.NULL_HEAP_ADDRESS] ∧
    index stuckProgram.Heap.Heap exampleConstants.NULL_HEAP_ADDRESS_OFFSET = .ok 0 ∧
    get32 stuckProgram.Heap.Heap
      (exampleConstants.NULL_HEAP_ADDRESS_OFFSET + MARK_SIZE + FORWARDING_ADDRESS_SIZE) =
      .ok (-OBJECT_HEADER_SIZE) ∧
    (∀ fuel : Nat, MarkAndCompact exampleConstants fuel stuckProgram = .error .fuel) ∧
    (rootSlots shortHeap).map (get32 shortHeap.Stack) =
      [.ok exampleConstants.NULL_HEAP_ADDRESS] ∧
    ∀ fuel : Nat, MarkAndCompact exampleConstants (fuel + 1) shortHeap =
      .error .outOfRange := by
  refine ⟨by decide, by decide, by decide, fun fuel => ?_, by decide, fun fuel => ?_⟩
  · have hp : markPass exampleConstants stuckProgram =
        .ok ⟨stuckProgram.Stack, stuckHeap, 4⟩ := by decide
    exact MarkAndCompact_relocate_error exampleConstants fuel stuckProgram _ _ hp
      (relocate_stuck fuel 4)
  · have hp : markPass exampleConstants shortHeap =
        .ok ⟨shortHeap.Stack, [0, 0, 0, 0], 4⟩ := by decide
    have hb : relocateBody 4 [0, 0, 0, 0] = .error .outOfRange := by decide
    have hr : relocate 13 (fuel + 1) 4 [0, 0, 0, 0] 4 = .error .outOfRange := by
      rcases relocate_step 13 fuel 4 [0, 0, 0, 0] 4 (by decide) with ⟨e, e1, e2⟩ |
        ⟨z, heap1, g1, e1, _⟩
      · rw [hb] at e1
        cases e1
        exact e2
      · rw [hb] at e1
        cases e1
    exact MarkAndCompact_relocate_error exampleConstants (fuel + 1) shortHeap _ _ hp hr

/-! ## Roots that refer to the same object -/

theorem sizeAt_eq (h : List Byte) (hp a z : Int) (sizes : List Int) (c g : Int)
    (L : List Int) (hm : Marked h hp c g sizes L) (hin : (a, z) ∈ objectsFrom c sizes) :
    sizeAt (objectsFrom c sizes) a = z := by
  unfold sizeAt
  cases hf : (objectsFrom c sizes).find? (fun o => o.1 = a) with
  | none =>
      have := List.find?_eq_none.mp hf (a, z) hin
      simp at this
  | some o =>
      have ho := List.mem_of_find?_eq_some hf
      have hoa : o.1 = a := by simpa using List.find?_some hf
      have : (a, o.2) ∈ objectsFrom c sizes := by rw [← hoa]; exact ho
      exact objectsFrom_size_unique h hp a o.2 z sizes c g L hm this hin

theorem watermark_nil (K : Constants) (objs : List (Int × Int)) (f : Int) :
    watermark K objs f [] = f := by
  simp [watermark, liveRoots]

theorem watermark_cons_null (K : Constants) (objs : List (Int × Int)) (f : Int)
    (hs : List Int) :
    watermark K objs f (K.NULL_HEAP_ADDRESS :: hs) = watermark K objs f hs := by
  simp [watermark, liveRoots_cons_null]

theorem watermark_cons_live (K : Constants) (objs : List (Int × Int)) (f h : Int)
    (hs : List Int) (hn : h ≠ K.NULL_HEAP_ADDRESS) :
    watermark K objs f (h :: hs) = watermark K objs (f + OBJECT_HEADER_SIZE + sizeAt objs h) hs := by
  simp only [watermark, liveRoots_cons_live K h hs hn, List.map_cons, List.sum_cons]
  ring

/-- Pass 1 over roots that refer to object headers in any order, with or without repeats:
every non-null root takes the watermark current at its visit. -/
theorem markAll_any_order (K : Constants) (h0 : List Byte) (hp c0 : Int) (sizes : List Int)
    (hc0 : 0 ≤ c0) (hl0 : Layout h0 hp c0 sizes) :
    ∀ (refs : List (Int × CXArgument)) (hs : List Int) (st : Pass1),
      (∀ o ∈ objectsFrom c0 sizes, get32 st.Heap (o.1 + 5) = .ok o.2) →
      hp ≤ st.Heap.length →
      refs.map (fun r => get32 st.Stack (r.1 + r.2.Offset)) = hs.map .ok →
      (refs.map fun r => r.1 + r.2.Offset).Pairwise (fun a b => a + 4 ≤ b ∨ b + 4 ≤ a) →
      (∀ h ∈ hs, h = K.NULL_HEAP_ADDRESS ∨ h ∈ (objectsFrom c0 sizes).map Prod.fst) →
      0 ≤ st.faddr → watermark K (objectsFrom c0 sizes) st.faddr hs < 2147483648 →
      ∃ st1, markAll K st refs = .ok st1 ∧
        st1.faddr = watermark K (objectsFrom c0 sizes) st.faddr hs ∧
        refs.map (fun r => get32 st1.Stack (r.1 + r.2.Offset)) =
          (assignRoots K (objectsFrom c0 sizes) st.faddr hs).map .ok ∧
        (∀ x : Int, (∀ r ∈ refs, x < r.1 + r.2.Offset ∨ r.1 + r.2.Offset + 4 ≤ x) →
          index st1.Stack x = index st.Stack x) := by
  have hm0 := (Layout_iff_Marked h0 hp sizes c0 c0).mp hl0
  intro refs
  induction refs with
  | nil =>
      intro hs st _ _ hr _ _ _ _
      have hhs : hs = [] := by
        cases hs with
        | nil => rfl
        | cons a b => simp at hr
      subst hhs
      exact ⟨st, rfl, (watermark_nil K _ _).symm, rfl, fun _ _ => rfl⟩
  | cons r refs ih =>
      intro hs st hsz hlen hr hdis htg hf0 hf1
      cases hs with
      | nil => simp at hr
      | cons h hs =>
          simp only [List.map_cons, List.cons.injEq] at hr
          obtain ⟨hroot, hr'⟩ := hr
          simp only [List.map_cons, List.pairwise_cons] at hdis
          obtain ⟨hd1, hd2⟩ := hdis
          have hd1' : ∀ r' ∈ refs, r.1 + r.2.Offset + 4 ≤ r'.1 + r'.2.Offset ∨
              r'.1 + r'.2.Offset + 4 ≤ r.1 + r.2.Offset := by
            intro r' hr1
            exact hd1 _ (List.mem_map_of_mem _ hr1)
          have htg' : ∀ h' ∈ hs, h' = K.NULL_HEAP_ADDRESS ∨
              h' ∈ (objectsFrom c0 sizes).map Prod.fst :=
            fun h' hh => htg h' (List.mem_cons_of_mem _ hh)
          by_cases hn : h = K.NULL_HEAP_ADDRESS
          · subst hn
            rw [watermark_cons_null] at hf1 ⊢
            obtain ⟨st1, r1, r2, r3, r4⟩ := ih hs st hsz hlen hr' hd2 htg' hf0 hf1
            refine ⟨st1, ?_, r2, ?_, ?_⟩
            · simp only [markAll, markRoot_null K r.1 st r.2 hroot, bind, Except.bind]
              exact r1
            · simp only [List.map_cons, assignRoots, if_true, List.cons.injEq]
              refine ⟨?_, r3⟩
              rw [← hroot]
              apply get32_congr
              intro t ht0 ht
              apply r4
              intro r' hr1
              have := hd1' r' hr1
              omega
            · intro x hx
              exact r4 x (fun r' hr1 => hx r' (List.mem_cons_of_mem _ hr1))
          · have hobj : ∃ z, (h, z) ∈ objectsFrom c0 sizes := by
              rcases htg h (by simp) with h1 | h1
              · exact absurd h1 hn
              · obtain ⟨o, ho, rfl⟩ := List.mem_map.mp h1
                exact ⟨o.2, ho⟩
            obtain ⟨z, hz⟩ := hobj
            obtain ⟨o1, o2, o3, _⟩ := Marked_object h0 hp h z sizes _ _ _ hm0 hz
            have hsa := sizeAt_eq h0 hp h z sizes _ _ _ hm0 hz
            have hH : OBJECT_HEADER_SIZE = 9 := rfl
            rw [watermark_cons_live K _ _ h hs hn, hsa, hH] at hf1 ⊢
            have hmono : ∀ (f : Int) (l : List Int), (∀ x ∈ l, x = K.NULL_HEAP_ADDRESS ∨
                x ∈ (objectsFrom c0 sizes).map Prod.fst) →
                f ≤ watermark K (objectsFrom c0 sizes) f l := by
              intro f l
              induction l generalizing f with
              | nil => intro _; rw [watermark_nil]
              | cons x l ihl =>
                  intro hx
                  by_cases hxn : x = K.NULL_HEAP_ADDRESS
                  · subst hxn
                    rw [watermark_cons_null]
                    exact ihl f (fun y hy => hx y (List.mem_cons_of_mem _ hy))
                  · rw [watermark_cons_live K _ _ x l hxn]
                    have hxo : ∃ zx, (x, zx) ∈ objectsFrom c0 sizes := by
                      rcases hx x (by simp) with h1 | h1
                      · exact absurd h1 hxn
                      · obtain ⟨o, ho, rfl⟩ := List.mem_map.mp h1
                        exact ⟨o.2, ho⟩
                    obtain ⟨zx, hzx⟩ := hxo
                    have q := (Marked_object h0 hp x zx sizes _ _ _ hm0 hzx).2.2.1
                    rw [sizeAt_eq h0 hp x zx sizes _ _ _ hm0 hzx, hH]
                    have := ihl (f + 9 + zx) (fun y hy => hx y (List.mem_cons_of_mem _ hy))
                    omega
            have hle := hmono (st.faddr + 9 + z) hs htg'
            obtain ⟨heap1, stack1, q1, q2, q3, q4, q5, q6, q7, q8⟩ :=
              markRoot_live K r.1 st r.2 h z hroot hn (by omega) (by omega)
                (hsz (h, z) hz) o3 (by omega) (by omega)
            have hsz1 : ∀ o ∈ objectsFrom c0 sizes, get32 heap1 (o.1 + 5) = .ok o.2 := by
              intro o ho
              rw [← hsz o ho]
              apply get32_congr
              intro t ht0 ht
              apply q6
              have ob := Marked_object h0 hp o.1 o.2 sizes _ _ _ hm0 ho
              rcases objectsFrom_disjoint h0 hp sizes _ _ _ hm0 o ho (h, z) hz with e | e | e
              · rw [e]; simp only; omega
              · simp only at e; omega
              · simp only at e; omega
            have hr1 : refs.map (fun r' => get32 stack1 (r'.1 + r'.2.Offset)) = hs.map .ok := by
              rw [← hr']
              apply List.map_congr_left
              intro r' hr1
              apply get32_congr
              intro t ht0 ht
              apply q8
              have := hd1' r' hr1
              omega
            obtain ⟨st1, r1, r2, r3, r4⟩ := ih hs ⟨stack1, heap1, st.faddr + 9 + z⟩ hsz1
              (by simp only; omega) hr1 hd2 htg' (by simp only; omega) hf1
            refine ⟨st1, ?_, r2, ?_, ?_⟩
            · simp only [markAll, q1, bind, Except.bind]
              exact r1
            · simp only [List.map_cons, assignRoots, hn, if_false, List.cons.injEq, hsa, hH]
              refine ⟨?_, r3⟩
              rw [← q7]
              apply get32_congr
              intro t ht0 ht
              apply r4
              intro r' hr1
              have := hd1' r' hr1
              omega
            · intro x hx
              rw [r4 x (fun r' hr1 => hx r' (List.mem_cons_of_mem _ hr1))]
              exact q8 x (by have := hx r (by simp); omega)

theorem sizeAt_nonneg (h : List Byte) (hp : Int) (sizes : List Int) (c g : Int)
    (L : List Int) (hm : Marked h hp c g sizes L) (a : Int) :
    0 ≤ sizeAt (objectsFrom c sizes) a := by
  unfold sizeAt
  cases hf : (objectsFrom c sizes).find? (fun o => o.1 = a) with
  | none => exact le_refl 0
  | some o =>
      exact (Marked_object h hp o.1 o.2 sizes _ _ _ hm (List.mem_of_find?_eq_some hf)).2.2.1

theorem assignRoots_length (K : Constants) (objs : List (Int × Int)) :
    ∀ (hs : List Int) (f : Int), (assignRoots K objs f hs).length = hs.length := by
  intro hs
  induction hs with
  | nil => intro f; rfl
  | cons h hs ih =>
      intro f
      by_cases hn : h = K.NULL_HEAP_ADDRESS
      · simp [assignRoots, hn, ih]
      · simp [assignRoots, hn, ih]

/-- A non-null root is assigned an address at or above the watermark from which the
assignment starts. -/
theorem assignRoots_ge (K : Constants) (objs : List (Int × Int))
    (hnn : ∀ a, 0 ≤ sizeAt objs a) :
    ∀ (hs : List Int) (f : Int) (j : Nat) (h : Int), hs[j]? = some h →
      h ≠ K.NULL_HEAP_ADDRESS → ∃ b, (assignRoots K objs f hs)[j]? = some b ∧ f ≤ b := by
  intro hs
  induction hs with
  | nil => intro f j h hj; simp at hj
  | cons x hs ih =>
      intro f j h hj hn
      cases j with
      | zero =>
          simp only [List.getElem?_cons_zero, Option.some.injEq] at hj
          subst hj
          exact ⟨f, by simp [assignRoots, hn], le_refl f⟩
      | succ j =>
          simp only [List.getElem?_cons_succ] at hj
          by_cases hx : x = K.NULL_HEAP_ADDRESS
          · obtain ⟨b, hb, hfb⟩ := ih f j h hj hn
            exact ⟨b, by simp [assignRoots, hx, hb], hfb⟩
          · obtain ⟨b, hb, hfb⟩ := ih (f + OBJECT_HEADER_SIZE + sizeAt objs x) j h hj hn
            refine ⟨b, by simp [assignRoots, hx, hb], ?_⟩
            have := hnn x
            have hH : OBJECT_HEADER_SIZE = 9 := rfl
            omega

/-- Two roots that hold the same non-null address are assigned different addresses: the
one visited later lies at least one header and payload above the one visited first. -/
theorem assignRoots_alias (K : Constants) (objs : List (Int × Int))
    (hnn : ∀ a, 0 ≤ sizeAt objs a) :
    ∀ (hs : List Int) (f : Int) (i j : Nat) (h : Int), i < j → hs[i]? = some h →
      hs[j]? = some h → h ≠ K.NULL_HEAP_ADDRESS →
      ∃ a b, (assignRoots K objs f hs)[i]? = some a ∧ (assignRoots K objs f hs)[j]? = some b ∧
        a + OBJECT_HEADER_SIZE + sizeAt objs h ≤ b := by
  intro hs
  induction hs with
  | nil => intro f i j h _ hi; simp at hi
  | cons x hs ih =>
      intro f i j h hij hi hj hn
      cases j with
      | zero => omega
      | succ j =>
          simp only [List.getElem?_cons_succ] at hj
          cases i with
          | zero =>
              simp only [List.getElem?_cons_zero, Option.some.injEq] at hi
              subst hi
              obtain ⟨b, hb, hfb⟩ :=
                assignRoots_ge K objs hnn hs (f + OBJECT_HEADER_SIZE + sizeAt objs x) j x hj hn
              exact ⟨f, b, by simp [assignRoots, hn], by simp [assignRoots, hn, hb], hfb⟩
          | succ i =>
              simp only [List.getElem?_cons_succ] at hi
              by_cases hx : x = K.NULL_HEAP_ADDRESS
              · obtain ⟨a, b, ha, hb, hab⟩ := ih f i j h (by omega) hi hj hn
                exact ⟨a, b, by simp [assignRoots, hx, ha], by simp [assignRoots, hx, hb], hab⟩
              · obtain ⟨a, b, ha, hb, hab⟩ :=
                  ih (f + OBJECT_HEADER_SIZE + sizeAt objs x) i j h (by omega) hi hj hn
                exact ⟨a, b, by simp [assignRoots, hx, ha], by simp [assignRoots, hx, hb], hab⟩

/-- The collector changes the stack in pass 1 only. -/
theorem MarkAndCompact_stack (K : Constants) (fuel : Nat) (prgrm s1 : CXProgram) (st : Pass1)
    (hst : markPass K prgrm = .ok st) (h : MarkAndCompact K fuel prgrm = .ok s1) :
    s1.Stack = st.Stack := by
  unfold MarkAndCompact at h
  rw [hst] at h
  simp only [bind, Except.bind] at h
  cases hr : relocate prgrm.Heap.HeapPointer fuel K.NULL_HEAP_ADDRESS_OFFSET st.Heap
      K.NULL_HEAP_ADDRESS_OFFSET with
  | error e => rw [hr] at h; cases h
  | ok r =>
      rw [hr] at h
      simp only [pure, Except.pure, Except.ok.injEq] at h
      rw [← h]

/-- What pass 1 does with roots in any order: it does not look at the mark byte and reuses no
forwarding address. For a well-formed heap whose root slots do not overlap and whose watermark
stays below 2^31, pass 1 succeeds; every non-null root slot is assigned the watermark current
at its visit (`assignRoots`), and the watermark ends at `NULL_HEAP_ADDRESS_OFFSET` plus header
and payload size of the referenced object for every non-null root, once per root and not once
per object. The stack of a completed cycle is the stack pass 1 leaves. Hence two root slots `i
< j` that held the same non-null address `h` hold different addresses `a` and `b` afterwards,
with `a + OBJECT_HEADER_SIZE + size(h) ≤ b`. -/
theorem aliased_roots_not_shared (K : Constants) (prgrm : CXProgram) (sizes hs : List Int)
    (wf : WellFormed K prgrm sizes hs)
    (hdis : (rootSlots prgrm).Pairwise fun a b => a + 4 ≤ b ∨ b + 4 ≤ a)
    (hsmall : watermark K (objectsFrom K.NULL_HEAP_ADDRESS_OFFSET sizes)
      K.NULL_HEAP_ADDRESS_OFFSET hs < 2147483648) :
    ∃ st, markPass K prgrm = .ok st ∧
      st.faddr = K.NULL_HEAP_ADDRESS_OFFSET + ((liveRoots K hs).map fun h =>
        OBJECT_HEADER_SIZE + sizeAt (objectsFrom K.NULL_HEAP_ADDRESS_OFFSET sizes) h).sum ∧
      (rootSlots prgrm).map (get32 st.Stack) =
        (assignRoots K (objectsFrom K.NULL_HEAP_ADDRESS_OFFSET sizes)
          K.NULL_HEAP_ADDRESS_OFFSET hs).map .ok ∧
      (∀ (fuel : Nat) (s1 : CXProgram), MarkAndCompact K fuel prgrm = .ok s1 →
        s1.Stack = st.Stack) ∧
      ∀ (i j : Nat) (h : Int), i < j → hs[i]? = some h → hs[j]? = some h →
        h ≠ K.NULL_HEAP_ADDRESS →
        ∃ a b, ((rootSlots prgrm).map (get32 st.Stack))[i]? = some (.ok a) ∧
          ((rootSlots prgrm).map (get32 st.Stack))[j]? = some (.ok b) ∧
          a + OBJECT_HEADER_SIZE +
            sizeAt (objectsFrom K.NULL_HEAP_ADDRESS_OFFSET sizes) h ≤ b ∧ a ≠ b := by
  have hm0 := (Layout_iff_Marked prgrm.Heap.Heap prgrm.Heap.HeapPointer sizes
    K.NULL_HEAP_ADDRESS_OFFSET K.NULL_HEAP_ADDRESS_OFFSET).mp wf.layout
  have hnn := sizeAt_nonneg _ _ sizes _ _ _ hm0
  have hsz : ∀ o ∈ objectsFrom K.NULL_HEAP_ADDRESS_OFFSET sizes,
      get32 prgrm.Heap.Heap (o.1 + 5) = .ok o.2 := by
    intro o ho
    exact (Marked_object _ _ o.1 o.2 sizes _ _ _ hm0 ho).2.2.2
  have hroots : (rootRefs (prgrm.CallStack.take (prgrm.CallCounter + 1).toNat) 0).map
      (fun r => get32 prgrm.Stack (r.1 + r.2.Offset)) = hs.map .ok := by
    have := wf.roots
    simpa [rootSlots, List.map_map, Function.comp] using this
  obtain ⟨st, r1, r2, r3, _⟩ := markAll_any_order K prgrm.Heap.Heap prgrm.Heap.HeapPointer
    K.NULL_HEAP_ADDRESS_OFFSET sizes wf.offset_nonneg wf.layout
    (rootRefs (prgrm.CallStack.take (prgrm.CallCounter + 1).toNat) 0) hs
    ⟨prgrm.Stack, prgrm.Heap.Heap, K.NULL_HEAP_ADDRESS_OFFSET⟩ hsz wf.heap_in_range hroots
    hdis wf.targets wf.offset_nonneg hsmall
  have hpass : markPass K prgrm = .ok st := by
    rw [markPass_eq_markAll K prgrm wf.frames]; exact r1
  have hslots : (rootSlots prgrm).map (get32 st.Stack) =
      (assignRoots K (objectsFrom K.NULL_HEAP_ADDRESS_OFFSET sizes)
        K.NULL_HEAP_ADDRESS_OFFSET hs).map .ok := by
    rw [← r3]
    simp [rootSlots, List.map_map, Function.comp]
  refine ⟨st, hpass, r2, hslots, fun fuel s1 h => MarkAndCompact_stack K fuel prgrm s1 st hpass h,
    ?_⟩
  intro i j h hij hi hj hn
  obtain ⟨a, b, ha, hb, hab⟩ := assignRoots_alias K _ hnn hs K.NULL_HEAP_ADDRESS_OFFSET i j h
    hij hi hj hn
  refine ⟨a, b, by rw [hslots]; simp [ha], by rw [hslots]; simp [hb], hab, ?_⟩
  have := hnn h
  have hH : OBJECT_HEADER_SIZE = 9 := rfl
  omega

set_option maxRecDepth 100000 in
theorem aliased_roots_not_shared_witness :
    WellFormed exampleConstants oneObjectTwoRoots [10] [4, 4] ∧
    (rootSlots oneObjectTwoRoots).Pairwise (fun a b => a + 4 ≤ b ∨ b + 4 ≤ a) ∧
    watermark exampleConstants (objectsFrom exampleConstants.NULL_HEAP_ADDRESS_OFFSET [10])
      exampleConstants.NULL_HEAP_ADDRESS_OFFSET [4, 4] < 2147483648 ∧
    ∃ st, markPass exampleConstants oneObjectTwoRoots = .ok st ∧ st.faddr = 42 ∧
      (rootSlots oneObjectTwoRoots).map (get32 st.Stack) = [.ok 4, .ok 23] :=
  ⟨⟨by decide, by decide, by decide, by decide, by decide, by decide⟩, by decide, by decide,
    (aliased_roots_not_shared exampleConstants oneObjectTwoRoots [10] [4, 4]
      ⟨by decide, by decide, by decide, by decide, by decide, by decide⟩ (by decide)
      (by decide)).imp fun _ h => ⟨h.1, h.2.1, h.2.2.1⟩⟩

set_option maxRecDepth 100000 in
/-- C12, a defect of the collector. In `oneObjectTwoRoots`, a well-formed heap with one
10-byte object at 4 to which both root slots refer, pass 1 does not test the mark byte at
the second visit: it overwrites the forwarding slot of the object with 23, the address
assigned at the second visit, and ends with the watermark at 42 = 4 + 19 + 19, the object
counted twice. The cycle leaves 4 in the first root slot and 23 in the second, and
`HeapPointer = 23`: the second root refers to no object of the compacted heap. -/
theorem aliased_roots_counterexample :
    WellFormed exampleConstants oneObjectTwoRoots [10] [4, 4] ∧
    (rootSlots oneObjectTwoRoots = [0, 4] ∧
      get32 oneObjectTwoRoots.Stack 0 = .ok 4 ∧ get32 oneObjectTwoRoots.Stack 4 = .ok 4) ∧
    (MarkAndCompact exampleConstants 1 oneObjectTwoRoots).map
      (fun s => (get32 s.Stack 0, get32 s.Stack 4, s.Heap.HeapPointer)) =
        .ok (.ok 4, .ok 23, 23) ∧
    (markPass exampleConstants oneObjectTwoRoots).map
      (fun st => (st.faddr, get32 st.Heap (4 + MARK_SIZE))) = .ok (42, .ok 23) :=
  ⟨⟨by decide, by decide, by decide, by decide, by decide, by decide⟩,
    ⟨by decide, by decide, by decide⟩, by decide, by decide⟩

/-! ## The offsets the allocator returns -/

/-- Pass 2 on a heap without a byte 1 relocates nothing. -/
theorem relocate_no_mark (hp : Int) (heap : List Byte) (hz : ∀ b ∈ heap, b ≠ 1) :
    ∀ (fuel : Nat) (c g : Int) (r : List Byte × Int),
      relocate hp fuel c heap g = .ok r → r = (heap, g) := by
  intro fuel
  induction fuel with
  | zero =>
      intro c g r h
      simp only [relocate] at h
      split at h
      · cases h
      · exact (Except.ok.inj h).symm
  | succ fuel ih =>
      intro c g r h
      simp only [relocate] at h
      by_cases hc : c < hp
      · simp only [hc, if_true, bind, Except.bind] at h
        cases h1 : slice heap (c + MARK_SIZE) (c + MARK_SIZE + FORWARDING_ADDRESS_SIZE) with
        | error e => rw [h1] at h; cases h
        | ok fb =>
          rw [h1] at h
          simp only at h
          cases h2 : DeserializeAtomicI32 fb with
          | error e => rw [h2] at h; cases h
          | ok fa =>
            rw [h2] at h
            simp only at h
            cases h3 : slice heap (c + MARK_SIZE + FORWARDING_ADDRESS_SIZE)
                (c + MARK_SIZE + FORWARDING_ADDRESS_SIZE + OBJECT_SIZE) with
            | error e => rw [h3] at h; cases h
            | ok sb =>
              rw [h3] at h
              simp only at h
              cases h4 : DeserializeAtomicI32 sb with
              | error e => rw [h4] at h; cases h
              | ok z =>
                rw [h4] at h
                simp only at h
                cases h5 : index heap c with
                | error e => rw [h5] at h; cases h
                | ok mark =>
                  rw [h5] at h
                  simp only at h
                  have hm : mark ∈ heap :=
                    List.getElem?_mem ((index_eq_ok_iff heap c mark).mp h5).2
                  rw [if_neg (hz mark hm)] at h
                  exact ih _ _ _ h
      · simp only [hc, if_false] at h
        exact (Except.ok.inj h).symm

/-- A collection in a quiet state, when it returns, resets `HeapPointer` and changes nothing
else. -/
theorem MarkAndCompact_quiet (K : Constants) (fuel : Nat) (s s1 : CXProgram) (q : Quiet K s)
    (h : MarkAndCompact K fuel s = .ok s1) :
    s1 = { s with Heap := { s.Heap with HeapPointer := K.NULL_HEAP_ADDRESS_OFFSET } } := by
  have hroots : (rootRefs (s.CallStack.take (s.CallCounter + 1).toNat) 0).map
      (fun r => get32 s.Stack (r.1 + r.2.Offset)) =
      ((rootSlots s).map fun _ => K.NULL_HEAP_ADDRESS).map .ok := by
    rw [List.map_map]
    unfold rootSlots
    rw [List.map_map]
    apply List.map_congr_left
    intro r hr
    exact q.roots _ (List.mem_map_of_mem (fun r => r.1 + r.2.Offset) hr)
  have h1 := markAll_null K _ _ ⟨s.Stack, s.Heap.Heap, K.NULL_HEAP_ADDRESS_OFFSET⟩ hroots
    (by intro x hx; obtain ⟨_, _, rfl⟩ := List.mem_map.mp hx; rfl)
  simp only [MarkAndCompact, markPass_eq_markAll K s q.frames, h1, bind, Except.bind] at h
  cases hr : relocate s.Heap.HeapPointer fuel K.NULL_HEAP_ADDRESS_OFFSET s.Heap.Heap
      K.NULL_HEAP_ADDRESS_OFFSET with
  | error e => rw [hr] at h; cases h
  | ok r =>
      rw [hr] at h
      have hz : ∀ b ∈ s.Heap.Heap, b ≠ 1 := by
        intro b hb
        rw [q.heap_zero b hb]
        decide
      have := relocate_no_mark s.Heap.HeapPointer s.Heap.Heap hz fuel _ _ r hr
      subst this
      simp only [pure, Except.pure, Except.ok.injEq] at h
      exact h.symm

/-- One call of `AllocateSeq` in a quiet state, with a non-negative size for which
`HeapPointer + size` fits 64 bits. -/
theorem AllocateSeq_quiet (K : Constants) (fuel : Nat) (s : CXProgram) (size : Int)
    (q : Quiet K s) (hsize : 0 ≤ size)
    (hfit : s.Heap.HeapPointer + size < 9223372036854775808) :
    (s.Heap.HeapPointer + size ≤ K.INIT_HEAP_SIZE →
      ∃ s1, AllocateSeq K fuel s size = .ok (s1, s.Heap.HeapPointer)) ∧
    ∀ s1 off, AllocateSeq K fuel s size = .ok (s1, off) →
      Quiet K s1 ∧ K.NULL_HEAP_ADDRESS_OFFSET ≤ off := by
  have h0 := q.offset_nonneg
  have hp := q.heapPointer
  have hw : toInt64 (s.Heap.HeapPointer + size) = s.Heap.HeapPointer + size :=
    toInt64_of_range _ (by omega) hfit
  have hw1 : toInt64 (K.NULL_HEAP_ADDRESS_OFFSET + size) = K.NULL_HEAP_ADDRESS_OFFSET + size :=
    toInt64_of_range _ (by omega) (by omega)
  constructor
  · intro hle
    refine ⟨{ s with
      Heap := { s.Heap with HeapPointer := s.Heap.HeapPointer + size } }, ?_⟩
    simp only [AllocateSeq, hw, gt_iff_lt, not_lt.mpr hle, if_false, pure, Except.pure]
  · intro s1 off h
    simp only [AllocateSeq, hw] at h
    by_cases htr : s.Heap.HeapPointer + size > K.INIT_HEAP_SIZE
    · simp only [htr, if_true, bind, Except.bind] at h
      cases hm : MarkAndCompact K fuel s with
      | error e => rw [hm] at h; cases h
      | ok s2 =>
          rw [hm] at h
          have e2 := MarkAndCompact_quiet K fuel s s2 q hm
          subst e2
          simp only [hw1] at h
          split at h
          · cases h
          · simp only [pure, Except.pure, Except.ok.injEq, Prod.mk.injEq] at h
            obtain ⟨e1, e3⟩ := h
            subst e1 e3
            exact ⟨⟨h0, by simp only; omega, q.heap_zero, q.frames, q.roots⟩, le_refl _⟩
    · simp only [htr, if_false, pure, Except.pure, Except.ok.injEq, Prod.mk.injEq] at h
      obtain ⟨e1, e3⟩ := h
      subst e1 e3
      exact ⟨⟨h0, by simp only; omega, q.heap_zero, q.frames, q.roots⟩, hp⟩

/-- Every state of a run is quiet. -/
theorem AllocReach_quiet (K : Constants) (fuel : Nat) (s : CXProgram)
    (hr : AllocReach K fuel s) : Quiet K s := by
  induction hr with
  | init s h => exact h.2
  | alloc s s1 size off _ hsize hfit heq ih =>
      exact ((AllocateSeq_quiet K fuel s size ih hsize hfit).2 s1 off heq).1

/-- C15 (amended). In every state reachable from an initial state (`HeapPointer =
NULL_HEAP_ADDRESS_OFFSET`, heap zeroed, roots null) by `AllocateSeq` calls with non-negative
sizes for which `HeapPointer + size` fits a 64-bit `int`, a further such call returns when
`HeapPointer + size ≤ INIT_HEAP_SIZE`, and every offset it returns, with or without a
collection, is at or above `NULL_HEAP_ADDRESS_OFFSET`; it differs from `NULL_HEAP_ADDRESS`
when the null sentinel lies below `NULL_HEAP_ADDRESS_OFFSET`. -/
theorem AllocateSeq_never_null (K : Constants) (fuel : Nat) (s : CXProgram) (size : Int)
    (hr : AllocReach K fuel s) (hsize : 0 ≤ size)
    (hfit : s.Heap.HeapPointer + size < 9223372036854775808) :
    (s.Heap.HeapPointer + size ≤ K.INIT_HEAP_SIZE →
      ∃ s1, AllocateSeq K fuel s size = .ok (s1, s.Heap.HeapPointer)) ∧
    ∀ s1 off, AllocateSeq K fuel s size = .ok (s1, off) →
      AllocReach K fuel s1 ∧ K.NULL_HEAP_ADDRESS_OFFSET ≤ off ∧
        (K.NULL_HEAP_ADDRESS < K.NULL_HEAP_ADDRESS_OFFSET → off ≠ K.NULL_HEAP_ADDRESS) := by
  have q := AllocReach_quiet K fuel s hr
  obtain ⟨t1, t2⟩ := AllocateSeq_quiet K fuel s size q hsize hfit
  refine ⟨t1, fun s1 off h => ?_⟩
  have hoff := (t2 s1 off h).2
  exact ⟨AllocReach.alloc s s1 size off hr hsize hfit h, hoff, fun hK => by omega⟩

set_option maxRecDepth 100000 in
theorem emptyHeap_fresh : Fresh smallConstants emptyHeap :=
  ⟨rfl, by decide, by decide, by decide, by decide, by decide⟩

set_option maxRecDepth 100000 in
theorem AllocateSeq_never_null_witness :
    AllocReach smallConstants 5 fortyAllocated ∧ (0 : Int) ≤ 30 ∧
    fortyAllocated.Heap.HeapPointer + 30 < 9223372036854775808 ∧
    (AllocateSeq smallConstants 5 fortyAllocated 30).map
      (fun r => (r.2, r.1.Heap.HeapPointer)) = .ok (4, 34) ∧
    ((fortyAllocated.Heap.HeapPointer + 30 ≤ smallConstants.INIT_HEAP_SIZE →
      ∃ s1, AllocateSeq smallConstants 5 fortyAllocated 30 =
        .ok (s1, fortyAllocated.Heap.HeapPointer)) ∧
    ∀ s1 off, AllocateSeq smallConstants 5 fortyAllocated 30 = .ok (s1, off) →
      AllocReach smallConstants 5 s1 ∧ smallConstants.NULL_HEAP_ADDRESS_OFFSET ≤ off ∧
        (smallConstants.NULL_HEAP_ADDRESS < smallConstants.NULL_HEAP_ADDRESS_OFFSET →
          off ≠ smallConstants.NULL_HEAP_ADDRESS)) :=
  have hr : AllocReach smallConstants 5 fortyAllocated :=
    .alloc emptyHeap fortyAllocated 40 4 (.init emptyHeap emptyHeap_fresh) (by decide)
      (by decide) rfl
  ⟨hr, by decide, by decide, by decide,
    AllocateSeq_never_null smallConstants 5 fortyAllocated 30 hr (by decide) (by decide)⟩

set_option maxRecDepth 100000 in
/-- C15 (as stated) fails: from the initial state `emptyHeap` (`HeapPointer =
NULL_HEAP_ADDRESS_OFFSET = 4`, heap zeroed, root null, null sentinel 0), `AllocateSeq` for
2^63 - 1 bytes returns 4 and leaves `HeapPointer = 4 + (2^63 - 1)` wrapped to -2^63 + 3,
which does not exceed `INIT_HEAP_SIZE`, so no collection runs. `AllocateSeq` for 2^63 - 3
more bytes returns -2^63 + 3, an offset below `NULL_HEAP_ADDRESS_OFFSET`, and leaves
`HeapPointer = 0`. A third call, for 0 bytes, returns 0, the null sentinel. -/
theorem AllocateSeq_null_counterexample :
    Fresh smallConstants emptyHeap ∧
    (AllocateSeq smallConstants 0 emptyHeap 9223372036854775807).map
      (fun r => (r.2, r.1.Heap.HeapPointer)) = .ok (4, -9223372036854775805) ∧
    (AllocateSeq smallConstants 0 emptyHeap 9223372036854775807 >>= fun r =>
      AllocateSeq smallConstants 0 r.1 9223372036854775805).map
        (fun r => (r.2, r.1.Heap.HeapPointer)) = .ok (-9223372036854775805, 0) ∧
    (AllocateSeq smallConstants 0 emptyHeap 9223372036854775807 >>= fun r =>
      AllocateSeq smallConstants 0 r.1 9223372036854775805 >>= fun r1 =>
        AllocateSeq smallConstants 0 r1.1 0).map Prod.snd =
      .ok smallConstants.NULL_HEAP_ADDRESS ∧
    ¬ smallConstants.NULL_HEAP_ADDRESS_OFFSET ≤ -9223372036854775805 :=
  ⟨emptyHeap_fresh, by decide, by decide, by decide, by decide⟩

/-! ## Size of the heap after a collection -/

/-- Where the collector works: on a well-formed heap whose roots are visited in heap order, a
collection with fuel for one iteration of pass 2 per object returns, and the `HeapPointer` it
leaves lies between `NULL_HEAP_ADDRESS_OFFSET` and the `HeapPointer` before the collection. -/
theorem MarkAndCompact_never_grows (K : Constants) (prgrm : CXProgram) (sizes hs : List Int)
    (wf : WellFormed K prgrm sizes hs) (ord : InHeapOrder K prgrm hs) :
    K.NULL_HEAP_ADDRESS_OFFSET ≤ prgrm.Heap.HeapPointer ∧
    ∃ s1, (∀ fuel : Nat, sizes.length ≤ fuel → MarkAndCompact K fuel prgrm = .ok s1) ∧
      K.NULL_HEAP_ADDRESS_OFFSET ≤ s1.Heap.HeapPointer ∧
      s1.Heap.HeapPointer ≤ prgrm.Heap.HeapPointer := by
  obtain ⟨s1, F, _, hrun, _, _, _, _, _, _, hle, _, _, _, _, hlay, _⟩ :=
    MarkAndCompact_compacts K prgrm sizes hs wf ord
  have hb := (Marked_bounds _ _ _ _ _ _ ((Layout_iff_Marked s1.Heap.Heap s1.Heap.HeapPointer _
    K.NULL_HEAP_ADDRESS_OFFSET K.NULL_HEAP_ADDRESS_OFFSET).mp hlay)).1
  have hb0 := (Marked_bounds _ _ _ _ _ _ ((Layout_iff_Marked prgrm.Heap.Heap
    prgrm.Heap.HeapPointer _ K.NULL_HEAP_ADDRESS_OFFSET K.NULL_HEAP_ADDRESS_OFFSET).mp
    wf.layout)).1
  exact ⟨hb0, s1, hrun, hb, hle⟩

set_option maxRecDepth 100000 in
theorem MarkAndCompact_never_grows_witness :
    WellFormed exampleConstants threeObjects [10, 10, 10] [23] ∧
    InHeapOrder exampleConstants threeObjects [23] ∧
    (MarkAndCompact exampleConstants 3 threeObjects).map (fun s => s.Heap.HeapPointer) =
      .ok 23 ∧
    exampleConstants.NULL_HEAP_ADDRESS_OFFSET ≤ threeObjects.Heap.HeapPointer ∧
    ∃ s1, (∀ fuel : Nat, [10, 10, 10].length ≤ fuel →
        MarkAndCompact exampleConstants fuel threeObjects = .ok s1) ∧
      exampleConstants.NULL_HEAP_ADDRESS_OFFSET ≤ s1.Heap.HeapPointer ∧
      s1.Heap.HeapPointer ≤ threeObjects.Heap.HeapPointer :=
  ⟨threeObjects_wellFormed, threeObjects_inHeapOrder, by decide,
    MarkAndCompact_never_grows exampleConstants threeObjects [10, 10, 10] [23]
      threeObjects_wellFormed threeObjects_inHeapOrder⟩

set_option maxRecDepth 100000 in
/-- C21, a defect of the collector. `growingHeap` holds two contiguous objects with sizes 18
and 0 from `NULL_HEAP_ADDRESS_OFFSET = 4` up to `HeapPointer = 40`, all marks 0 and every root
at an object header. Pass 1 gives the object at 4 the forwarding address 22, since the object
at 31 was visited twice before it. Pass 2 copies the object at 4 to 22, which puts the first
payload bytes of the object over the header at 31; that header now reads as marked with size 1,
so it is counted too and the collection ends with `HeapPointer = 41`. -/
theorem never_grows_counterexample :
    WellFormed exampleConstants growingHeap [18, 0] [31, 31, 4] ∧
    exampleConstants.NULL_HEAP_ADDRESS_OFFSET ≤ growingHeap.Heap.HeapPointer ∧
    growingHeap.Heap.HeapPointer = 40 ∧
    (markPass exampleConstants growingHeap).map (fun st => get32 st.Heap (4 + MARK_SIZE)) =
      .ok (.ok 22) ∧
    (MarkAndCompact exampleConstants 2 growingHeap).map (fun s => s.Heap.HeapPointer) =
      .ok 41 :=
  ⟨⟨by decide, by decide, by decide, by decide, by decide, by decide⟩, by decide, by decide,
    by decide, by decide⟩

/-! ## Heap reads after a heap write -/

/-- A list equals the first bytes of a 9-byte block followed by the list itself exactly when
it repeats the block. -/
theorem take_append_eq_iff (H b : List Byte) (hH : H.length = 9) :
    (H ++ b).take b.length = b ↔ ∀ i : Nat, i < b.length → b[i]? = H[i % 9]? := by
  have hget : ∀ i : Nat, i < b.length →
      ((H ++ b).take b.length)[i]? = if i < 9 then H[i]? else b[i - 9]? := by
    intro i hi
    rw [List.getElem?_take_of_lt hi]
    by_cases h9 : i < 9
    · rw [if_pos h9, List.getElem?_append_left (by omega)]
    · rw [if_neg h9, List.getElem?_append_right (by omega), hH]
  constructor
  · intro h i
    induction i using Nat.strong_induction_on with
    | _ i ih =>
        intro hi
        have e := hget i hi
        rw [h] at e
        by_cases h9 : i < 9
        · rw [if_pos h9] at e
          rw [e, Nat.mod_eq_of_lt h9]
        · rw [if_neg h9] at e
          rw [e, ih (i - 9) (by omega) (by omega)]
          congr 1
          omega
  · intro h
    apply List.ext_getElem?
    intro i
    by_cases hi : i < b.length
    · rw [hget i hi]
      by_cases h9 : i < 9
      · rw [if_pos h9, h i hi, Nat.mod_eq_of_lt h9]
      · rw [if_neg h9, h i hi, h (i - 9) (by omega)]
        congr 1
        omega
    · rw [List.getElem?_eq_none (by simp; omega), List.getElem?_eq_none (by omega)]

/-- C22 (amended): after `WriteMemory` of `b` for a heap argument at an in-range offset `o`,
`ReadMemory` at `o + OBJECT_HEADER_SIZE` returns `b`, and `ReadMemory` at `o` returns the
first `len(b)` bytes of the header (five zero bytes, then the 4-byte length field) followed
by `b`. The latter differs from `b` unless `b` repeats the header: it equals `b` exactly
when byte `i` of `b` is byte `i mod 9` of the header for every `i`. -/
theorem heap_read_after_write (stack : CXProgram) (o : Int) (A : CXArgument) (b : List Byte)
    (hmem : A.MemoryType = .MEM_HEAP) (hsz : A.TotalSize = b.length) (h0 : 0 ≤ o)
    (h1 : o + OBJECT_HEADER_SIZE + b.length ≤ stack.Heap.Heap.length) :
    ∃ s1 header, WriteMemory stack o A b = .ok s1 ∧
      header = [0, 0, 0, 0, 0] ++ SerializeLE 4 b.length ∧
      ReadMemory s1 (o + OBJECT_HEADER_SIZE) A = .ok b ∧
      ReadMemory s1 o A = .ok ((header ++ b).take b.length) ∧
      (ReadMemory s1 o A = .ok b ↔ ∀ i : Nat, i < b.length → b[i]? = header[i % 9]?) := by
  obtain ⟨m2, e, hl, g1, g2, _⟩ := WriteToHeap_spec stack.Heap o b h0 h1
  have hH : OBJECT_HEADER_SIZE = 9 := rfl
  rw [hH] at h1 g1 g2
  have hhdr : mkHeader (SerializeLE 4 (toInt32 b.length)) =
      [0, 0, 0, 0, 0] ++ SerializeLE 4 b.length := by
    rw [mkHeader_eq, SerializeLE_4_toInt32]
  rw [hhdr] at g2
  have hlen : ([0, 0, 0, 0, 0] ++ SerializeLE 4 (b.length : Int)).length = 9 := by
    simp [SerializeLE_length]
  have g1' := g1
  have g2' := g2
  rw [slice_eq_ok m2 (o + 9) (o + 9 + b.length) (by omega) (by omega) (by omega)] at g1'
  rw [slice_eq_ok m2 o (o + 9) h0 (by omega) (by omega)] at g2'
  replace g1' := Except.ok.inj g1'
  replace g2' := Except.ok.inj g2'
  have c1 : (o + 9 + (b.length : Int) - (o + 9)).toNat = b.length := by omega
  have c2 : (o + 9 - o).toNat = 9 := by omega
  have c3 : (o + 9).toNat = o.toNat + 9 := by omega
  rw [c1, c3] at g1'
  rw [c2] at g2'
  have hread : slice m2 o (o + b.length) =
      .ok ((([0, 0, 0, 0, 0] ++ SerializeLE 4 (b.length : Int)) ++ b).take b.length) := by
    rw [slice_eq_ok m2 o (o + b.length) h0 (by omega) (by omega)]
    have c4 : (o + (b.length : Int) - o).toNat = b.length := by omega
    rw [c4]
    congr 1
    have hall : (m2.drop o.toNat).take (9 + b.length) =
        ([0, 0, 0, 0, 0] ++ SerializeLE 4 (b.length : Int)) ++ b := by
      rw [List.take_add, g2', List.drop_drop, g1']
    rw [← hall, List.take_take, Nat.min_eq_left (by omega)]
  refine ⟨{ stack with Heap := ⟨m2, stack.Heap.HeapPointer⟩ }, _, ?_, rfl, ?_, ?_, ?_⟩
  · simp only [WriteMemory, hmem, e, bind, Except.bind, pure, Except.pure]
  · simp only [ReadMemory, hmem, hsz, hH]
    exact g1
  · simp only [ReadMemory, hmem, hsz]
    exact hread
  · simp only [ReadMemory, hmem, hsz]
    rw [hread]
    constructor
    · intro h
      exact (take_append_eq_iff _ b hlen).mp (Except.ok.inj h)
    · intro h
      exact congrArg Except.ok ((take_append_eq_iff _ b hlen).mpr h)

theorem heap_read_after_write_witness :
    (heapArg 4).MemoryType = .MEM_HEAP ∧ (heapArg 4).TotalSize = (FromI32 (-1)).length ∧
    (WriteMemory ⟨[], [], ⟨List.replicate 24 0xAA, 4⟩, [], 0⟩ 4 (heapArg 4) (FromI32 (-1)) >>=
      fun s1 => ReadMemory s1 4 (heapArg 4)) = .ok [0, 0, 0, 0] ∧
    ∃ s1 header, WriteMemory ⟨[], [], ⟨List.replicate 24 0xAA, 4⟩, [], 0⟩ 4 (heapArg 4)
        (FromI32 (-1)) = .ok s1 ∧
      header = [0, 0, 0, 0, 0] ++ SerializeLE 4 (FromI32 (-1)).length ∧
      ReadMemory s1 (4 + OBJECT_HEADER_SIZE) (heapArg 4) = .ok (FromI32 (-1)) ∧
      ReadMemory s1 4 (heapArg 4) = .ok ((header ++ FromI32 (-1)).take (FromI32 (-1)).length) ∧
      (ReadMemory s1 4 (heapArg 4) = .ok (FromI32 (-1)) ↔
        ∀ i : Nat, i < (FromI32 (-1)).length → (FromI32 (-1))[i]? = header[i % 9]?) :=
  ⟨rfl, by decide, by decide,
    heap_read_after_write ⟨[], [], ⟨List.replicate 24 0xAA, 4⟩, [], 0⟩ 4 (heapArg 4)
      (FromI32 (-1)) rfl (by decide) (by decide) (by decide)⟩

/-- C22 (as stated) fails: the byte sequence `[0]` written with `WriteMemory` for a heap
argument of one byte at offset 4 is what `ReadMemory` returns at offset 4, the first byte of
the header being 0; likewise for five zero bytes. -/
theorem heap_read_counterexample :
    (WriteMemory ⟨[], [], ⟨List.replicate 24 0xAA, 4⟩, [], 0⟩ 4 (heapArg 1) [0] >>=
      fun s1 => ReadMemory s1 4 (heapArg 1)) = .ok [0] ∧
    (WriteMemory ⟨[], [], ⟨List.replicate 24 0xAA, 4⟩, [], 0⟩ 4 (heapArg 5) [0, 0, 0, 0, 0] >>=
      fun s1 => ReadMemory s1 4 (heapArg 5)) = .ok [0, 0, 0, 0, 0] :=
  ⟨by decide, by decide⟩

/-! ## Repeated array steps -/

/-- The walk over `m` array steps: every step adds the whole row-major sum, modulo 2^64. -/
theorem derefWalk_arrays (stack : CXProgram) (fp : Int) (arg : CXArgument)
    (fieldIdx : List (List (Except Fault Int))) (elt : CXArgument) (s : Int)
    (hs : stride elt = some s) (vs : List Int) (hle : vs.length ≤ elt.Lengths.length) :
    ∀ (m : Nat) (off : Int) (k : Nat),
      ∃ r, derefWalk stack fp arg fieldIdx (List.replicate m .DEREF_ARRAY)
          ⟨elt, vs.map .ok, off, k⟩ = .ok ⟨elt, vs.map .ok, r, k⟩ ∧
        r ≡ off + m * (s * rowMajor elt.Lengths vs) [ZMOD 18446744073709551616] := by
  intro m
  induction m with
  | zero => intro off k; exact ⟨off, by simp [derefWalk], by simp [Int.ModEq.refl]⟩
  | succ m ih =>
      intro off k
      obtain ⟨r1, hr1, hm1⟩ := arrayStep_eq elt s hs vs 0 off (by omega)
      obtain ⟨r, hr, hm⟩ := ih r1 k
      refine ⟨r, ?_, ?_⟩
      · simp only [List.replicate_succ, derefWalk, derefStep, bind, Except.bind, hr1, pure,
          Except.pure]
        exact hr
      · simp only [Nat.zero_add] at hm1
        refine (hm.trans (Int.ModEq.add_right _ hm1)).trans ?_
        unfold rowMajor
        push_cast
        have e : ∀ x : Int, off + s * x + (m : Int) * (s * x) = off + ((m : Int) + 1) * (s * x) := by
          intro x; ring
        rw [e]

/-- C23 (amended). For a non-pointer stack argument whose dereference operations are `m`
array steps, with as many index arguments as dimensions, index values `vs` and element
stride `s`, `GetFinalOffset` resolves to `fp + A.Offset + m · s · Σₖ iₖ · Πⱼ>ₖ dⱼ`, computed
with Go `int`s: this value modulo 2^64 in the signed 64-bit range, the value itself when
that fits 64 bits. It is the offset of the row-major formula exactly when
`(m - 1) · s · Σₖ iₖ · Πⱼ>ₖ dⱼ` is a multiple of 2^64; so a descriptor with one array step
per index (`m = n > 1`) resolves to a different offset unless that product is a multiple of
2^64, as it is when every index is 0. -/
theorem GetFinalOffset_array_steps (stack : CXProgram) (fp : Int) (A : CXArgument)
    (s : Int) (vs : List Int) (m : Nat)
    (hptr : A.IsPointer = false) (hmem : A.MemoryType = .MEM_STACK)
    (hops : A.DereferenceOperations = List.replicate m .DEREF_ARRAY)
    (hlen : A.Indexes.length = A.Lengths.length)
    (hidx : A.Indexes.map (ReadI32 stack fp) = vs.map .ok)
    (hs : stride A = some s) :
    GetFinalOffset stack fp A =
      .ok (toInt64 (fp + A.Offset + m * s * rowMajor A.Lengths vs)) ∧
    (-9223372036854775808 ≤ fp + A.Offset + m * s * rowMajor A.Lengths vs →
      fp + A.Offset + m * s * rowMajor A.Lengths vs < 9223372036854775808 →
      GetFinalOffset stack fp A = .ok (fp + A.Offset + m * s * rowMajor A.Lengths vs)) ∧
    (GetFinalOffset stack fp A = .ok (toInt64 (fp + A.Offset + s * rowMajor A.Lengths vs)) ↔
      (18446744073709551616 : Int) ∣ ((m : Int) - 1) * (s * rowMajor A.Lengths vs)) := by
  have hvl : vs.length = A.Indexes.length := by
    have := congrArg List.length hidx
    simpa using this.symm
  have hoff : GetFinalOffset stack fp A =
      .ok (toInt64 (fp + A.Offset + m * s * rowMajor A.Lengths vs)) := by
    obtain ⟨r, hr, hm⟩ := derefWalk_arrays stack fp A (fieldIndexValues stack fp A.Fields) A s
      hs vs (by omega) m A.Offset 0
    rw [GetFinalOffset_eq, hops, hidx, hr]
    simp only [hptr, hmem, Bool.false_eq_true, reduceCtorEq, or_self, if_false]
    refine congrArg Except.ok (toInt64_eq_of_modEq _ _ ?_)
    rw [add_assoc, mul_assoc]
    exact Int.ModEq.add_left _ hm
  refine ⟨hoff, fun h0 h1 => by rw [hoff, toInt64_of_range _ h0 h1], ?_⟩
  rw [hoff]
  constructor
  · intro h
    have h1 := (toInt64_eq_iff _ _).mp (Except.ok.inj h)
    have h2 := (Int.modEq_iff_dvd.mp h1)
    have e : fp + A.Offset + s * rowMajor A.Lengths vs -
        (fp + A.Offset + (m : Int) * s * rowMajor A.Lengths vs) =
        -(((m : Int) - 1) * (s * rowMajor A.Lengths vs)) := by ring
    rw [e] at h2
    exact (dvd_neg.mp h2)
  · intro h
    refine congrArg Except.ok (toInt64_eq_of_modEq _ _ (Int.modEq_iff_dvd.mpr ?_))
    have e : fp + A.Offset + s * rowMajor A.Lengths vs -
        (fp + A.Offset + (m : Int) * s * rowMajor A.Lengths vs) =
        -(((m : Int) - 1) * (s * rowMajor A.Lengths vs)) := by ring
    rw [e]
    exact (dvd_neg.mpr h)

theorem GetFinalOffset_array_steps_witness :
    stepPerIndex.IsPointer = false ∧ stepPerIndex.MemoryType = .MEM_STACK ∧
    stepPerIndex.DereferenceOperations = List.replicate 2 .DEREF_ARRAY ∧
    stepPerIndex.Indexes.length = stepPerIndex.Lengths.length ∧
    stepPerIndex.Indexes.map (ReadI32 (stackOnly [1, 0, 0, 0, 1, 0, 0, 0]) 0) =
      [(1 : Int), 1].map .ok ∧
    stride stepPerIndex = some 4 ∧
    GetFinalOffset (stackOnly [1, 0, 0, 0, 1, 0, 0, 0]) 0 stepPerIndex = .ok 32 ∧
    ¬ GetFinalOffset (stackOnly [1, 0, 0, 0, 1, 0, 0, 0]) 0 stepPerIndex =
      .ok (toInt64 (0 + stepPerIndex.Offset + 4 * rowMajor stepPerIndex.Lengths [1, 1])) :=
  ⟨rfl, rfl, rfl, rfl, by decide, rfl,
    (GetFinalOffset_array_steps (stackOnly [1, 0, 0, 0, 1, 0, 0, 0]) 0 stepPerIndex 4 [1, 1] 2
      rfl rfl rfl rfl (by decide) rfl).1.trans (by decide),
    fun h => absurd ((GetFinalOffset_array_steps (stackOnly [1, 0, 0, 0, 1, 0, 0, 0]) 0
      stepPerIndex 4 [1, 1] 2 rfl rfl rfl rfl (by decide) rfl).2.2.mp h) (by decide)⟩

/-- C23 (as stated) fails: `stepPerIndex` carries one array step per index (`m = n = 2`);
with both index values 0 it resolves to 8, which is the offset of the row-major formula,
`fp + A.Offset + s · 0`. -/
theorem array_steps_counterexample :
    stepPerIndex.DereferenceOperations = [.DEREF_ARRAY, .DEREF_ARRAY] ∧
    stepPerIndex.Indexes.length = 2 ∧ stepPerIndex.Lengths = [3, 2] ∧
    stepPerIndex.Indexes.map (ReadI32 (stackOnly (List.replicate 8 0)) 0) = [.ok 0, .ok 0] ∧
    GetFinalOffset (stackOnly (List.replicate 8 0)) 0 stepPerIndex = .ok 8 ∧
    (0 : Int) + stepPerIndex.Offset + 4 * rowMajor stepPerIndex.Lengths [0, 0] = 8 :=
  ⟨rfl, rfl, rfl, by decide, by decide, by decide⟩

/-! ## Comment locator -/

theorem take_eq_iff_append (pat line : List Byte) :
    line.take pat.length = pat ↔ ∃ t, line = pat ++ t := by
  constructor
  · intro h
    refine ⟨line.drop pat.length, ?_⟩
    conv_lhs => rw [← List.take_append_drop pat.length line, h]
  · rintro ⟨t, rfl⟩
    simp

/-- The locator `FindIndex` finds a match exactly when the pattern occurs in the line. -/
theorem FindIndex_ne_none (pat : List Byte) :
    ∀ line : List Byte, FindIndex pat line ≠ none ↔ Occurs pat line := by
  intro line
  induction line with
  | nil =>
      unfold FindIndex Occurs
      by_cases hp : pat = []
      · subst hp
        simp
      · rw [if_neg hp]
        simp only [ne_eq, not_true_eq_false, false_iff, not_exists]
        intro s t h
        have := congrArg List.length h
        simp only [List.length_nil, List.length_append] at this
        exact hp (List.length_eq_zero.mp (by omega))
  | cons c cs ih =>
      unfold FindIndex
      by_cases hp : (c :: cs).take pat.length = pat
      · rw [if_pos hp]
        obtain ⟨t, ht⟩ := (take_eq_iff_append pat (c :: cs)).mp hp
        simp only [ne_eq, reduceCtorEq, not_false_eq_true, true_iff]
        exact ⟨[], t, by simpa using ht⟩
      · rw [if_neg hp]
        have hmap : ((FindIndex pat cs).map fun loc => (loc.1 + 1, loc.2 + 1)) ≠ none ↔
            FindIndex pat cs ≠ none := by
          cases FindIndex pat cs <;> simp
        rw [hmap, ih]
        constructor
        · rintro ⟨s, t, h⟩
          exact ⟨c :: s, t, by simp [h]⟩
        · rintro ⟨s, t, h⟩
          cases s with
          | nil =>
              exact absurd ((take_eq_iff_append pat (c :: cs)).mpr ⟨t, by simpa using h⟩) hp
          | cons x s =>
              simp only [List.cons_append, List.cons.injEq] at h
              exact ⟨s, t, by simpa using h.2⟩

theorem skipLine_closed (line : List Byte) (c : Bool)
    (h : Occurs multiCommentClosePattern line) :
    (makeCommentLocator line).skipLine c true = (false, false) := by
  have h1 : (makeCommentLocator line).multiClose ≠ none :=
    (FindIndex_ne_none multiCommentClosePattern line).mpr h
  cases c <;> simp [commentLocator.skipLine, h1]

theorem skipLine_open (line : List Byte) (h : ¬ Occurs multiCommentClosePattern line) :
    (makeCommentLocator line).skipLine true true = (true, true) := by
  have h1 : (makeCommentLocator line).multiClose = none := by
    by_contra hc
    exact h ((FindIndex_ne_none multiCommentClosePattern line).mp hc)
  simp [commentLocator.skipLine, h1]

/-- C24. With `skipWithoutMultiClose = true`, `skipLine` leaves `*isCommented` true exactly
when the line has no multi-line close and either `*isCommented` was true or the line has a
multi-line open, and it returns the value it leaves in `*isCommented`. Hence, once a
multi-line comment is open, the loop of `Step0` skips every line without a close and does
not skip the first line that contains one, after which no comment is open. -/
theorem skipLine_state_machine (line : List Byte) (c : Bool) :
    (((makeCommentLocator line).skipLine c true).1 = true ↔
      ¬ Occurs multiCommentClosePattern line ∧
        (c = true ∨ Occurs multiCommentOpenPattern line)) ∧
    ((makeCommentLocator line).skipLine c true).2 =
      ((makeCommentLocator line).skipLine c true).1 ∧
    ∀ (before : List (List Byte)) (closing : List Byte) (rest : List (List Byte)),
      (∀ l ∈ before, ¬ Occurs multiCommentClosePattern l) →
      Occurs multiCommentClosePattern closing →
      skippedLines true (before ++ closing :: rest) =
        before.map (fun _ => true) ++ false :: skippedLines false rest := by
  refine ⟨?_, ?_, ?_⟩
  · rw [← FindIndex_ne_none, ← FindIndex_ne_none]
    show _ ↔ ¬ (makeCommentLocator line).multiClose ≠ none ∧
      (c = true ∨ (makeCommentLocator line).multiOpen ≠ none)
    cases c <;>
      cases hcl : (makeCommentLocator line).multiClose <;>
        cases hop : (makeCommentLocator line).multiOpen <;>
          simp [commentLocator.skipLine, hcl, hop]
  · cases c <;>
      cases hcl : (makeCommentLocator line).multiClose <;>
        cases hop : (makeCommentLocator line).multiOpen <;>
          simp [commentLocator.skipLine, hcl, hop]
  · intro before closing rest
    induction before with
    | nil =>
        intro _ hc
        simp only [List.nil_append, skippedLines, skipLine_closed closing true hc, List.map_nil]
    | cons l ls ih =>
        intro hb hc
        simp only [List.cons_append, skippedLines, skipLine_open l (hb l (by simp)),
          List.map_cons, List.cons.injEq, true_and]
        exact ih (fun x hx => hb x (List.mem_cons_of_mem _ hx)) hc

/-- Three lines: a line that opens a comment, a line inside it, and a line that closes it
and opens another one after the close. The first two are skipped, the third is not. -/
theorem skippedLines_example :
    skippedLines false
      [[120, 32, 47, 42, 32, 121], [122, 47, 47], [42, 47, 32, 47, 42]] =
        [true, true, false] := by
  decide

end CX
